import Mathlib

/-! # context3d-model-mcp-server: the path-sandboxing file-access gateway

A shallow embedding of `src/utils/file-system.ts` (`normalizePath`, `expandHome`,
`validatePath`, `searchFiles`) and of `build/tools/file-system.js` (`readFile`, `writeFile`,
`listDirectory`, `createDirectory`, `searchForFiles`) and
`build/server/tool-handlers.js`, with the properties of the path guard.

* JavaScript strings are Lean `String`s, handled through their character lists so
  that every definition is structurally recursive and evaluates on concrete inputs.
* The functions of the Node.js `path` module that the source calls are modelled in
  the namespace `path`, in their POSIX flavour: `normalizeString` works segment by
  segment instead of character by character, with the same result.
* The filesystem is seen through the one query the path guard makes,
  `fsPromises.realpath`; a filesystem state is any such answer function.
* An `async` function is a computation that returns or throws, and that records the
  filesystem queries it makes; `try`/`catch` is the one of the exception monad.
* A tool of `build/tools/file-system.js` is followed up to the storage operation it
  hands to `fsPromises`, on the path `validatePath` returned; the tools of the
  namespace `Tools` run that operation on a disk.
* A disk is a table of files, directories and symbolic links; `fsPromises.realpath`,
  `readFile`, `writeFile`, `readdir` and `mkdir` on a disk follow the symbolic links
  of the path they are given, at most `maxLinks` of them. Permissions, and text that
  is not a sequence of Unicode characters, are outside the model.
* `searchFiles` runs in a `SearchWorld`: the answers of `realpath`, the enumeration
  `readdir` and the matcher `minimatch` are its parameters. The function `minimatch`
  of this file is the matcher on patterns made of names, `*`, `?`, `**` and `/`, with
  the options `dot` and `nocase` (the latter on ASCII letters). The recursion of
  `search` is bounded by a number of nested calls; `shallow` tells when the bound is
  enough.
* The module constant `allowedDirectories` is a field of `Process`; the function
  `allowedDirectories` of this file computes it from the home directory, the working
  directory and the value of `ALLOWED_DIRECTORIES`.
* The file handlers of `build/server/tool-handlers.js` run the tools on a disk; an
  `McpError` is its code and its message, which the constructor of the SDK makes
  from the code and the message it is given.
-/

namespace Context3D

/-! ## JavaScript string primitives -/

/-- `s.startsWith(pre)`. -/
def startsWith (s pre : String) : Bool :=
  pre.data.isPrefixOf s.data

/-- `s.slice(n)` for a non-negative `n`. -/
def slice (s : String) (n : Nat) : String :=
  ⟨s.data.drop n⟩

/-- `xs.join(sep)` on an array of strings. -/
def joinWith (sep : String) : List String → String
  | [] => ""
  | [x] => x
  | x :: y :: rest => x ++ sep ++ joinWith sep (y :: rest)

/-! ## The Node.js `path` module, POSIX flavour -/

namespace path

/-- The segments of a path between its `/` separators (empty segments kept). -/
def splitSlash : List Char → List (List Char)
  | [] => [[]]
  | c :: cs =>
    if c = '/' then [] :: splitSlash cs
    else
      match splitSlash cs with
      | [] => [[c]]
      | s :: ss => (c :: s) :: ss

/-- The loop of Node's `normalizeString`, segment by segment: `res` is the stack of
segments kept so far, last one first. An empty segment and `.` are dropped; `..`
removes the last kept segment unless there is none or it is `..` itself, in which
case `..` is kept when `allowAboveRoot` holds; any other segment is kept. -/
def normalizeSegments (allowAboveRoot : Bool) :
    List (List Char) → List (List Char) → List (List Char)
  | res, [] => res
  | res, seg :: rest =>
    if seg = [] ∨ seg = ['.'] then normalizeSegments allowAboveRoot res rest
    else if seg = ['.', '.'] then
      match res with
      | [] =>
        if allowAboveRoot then normalizeSegments allowAboveRoot [['.', '.']] rest
        else normalizeSegments allowAboveRoot [] rest
      | top :: below =>
        if top = ['.', '.'] then
          if allowAboveRoot then
            normalizeSegments allowAboveRoot (['.', '.'] :: top :: below) rest
          else normalizeSegments allowAboveRoot (top :: below) rest
        else normalizeSegments allowAboveRoot below rest
    else normalizeSegments allowAboveRoot (seg :: res) rest

/-- Segments joined by `/`. -/
def joinSlash : List (List Char) → List Char
  | [] => []
  | [s] => s
  | s :: t :: rest => s ++ '/' :: joinSlash (t :: rest)

/-- Node's `normalizeString(path, allowAboveRoot, "/", isPosixPathSeparator)`. -/
def normalizeString (p : List Char) (allowAboveRoot : Bool) : List Char :=
  joinSlash (normalizeSegments allowAboveRoot [] (splitSlash p)).reverse

/-- `path.isAbsolute(p)`. -/
def isAbsolute (p : String) : Bool :=
  p.data.head? = some '/'

/-- `path.normalize(p)`. -/
def normalize (p : String) : String :=
  if p.data = [] then "."
  else
    let isAbs := p.data.head? = some '/'
    let trailingSeparator := p.data.getLast? = some '/'
    let n := normalizeString p.data !isAbs
    if n = [] then
      if isAbs then "/" else if trailingSeparator then "./" else "."
    else
      let n := if trailingSeparator then n ++ ['/'] else n
      if isAbs then ⟨'/' :: n⟩ else ⟨n⟩

/-- The loop of `path.resolve`: the arguments from the last to the first, then the
working directory, each non-empty one put in front of what was gathered, until an
absolute one has been taken. -/
def resolveLoop : List String → String → String × Bool
  | [], resolvedPath => (resolvedPath, false)
  | p :: ps, resolvedPath =>
    if p.data = [] then resolveLoop ps resolvedPath
    else if p.data.head? = some '/' then (p ++ "/" ++ resolvedPath, true)
    else resolveLoop ps (p ++ "/" ++ resolvedPath)

/-- `path.resolve(...args)` in a process whose working directory is `cwd`. -/
def resolve (cwd : String) (args : List String) : String :=
  match resolveLoop (args.reverse ++ [cwd]) "" with
  | (resolvedPath, true) => ⟨'/' :: normalizeString resolvedPath.data false⟩
  | (resolvedPath, false) =>
    let n := normalizeString resolvedPath.data true
    if n = [] then "." else ⟨n⟩

/-- `path.join(...args)`. -/
def join (args : List String) : String :=
  match args.filter (fun a => a.data ≠ []) with
  | [] => "."
  | parts => normalize (joinWith "/" parts)

/-- `path.dirname(p)`: the scan runs from the end down to index 1, over the trailing
separators and then the last name, and stops on the separator before that name. -/
def dirname (p : String) : String :=
  if p.data = [] then "."
  else
    let hasRoot := p.data.head? = some '/'
    let scanned :=
      (((p.data.drop 1).reverse.dropWhile (· = '/')).dropWhile (· ≠ '/'))
    if scanned = [] then (if hasRoot then "/" else ".")
    else if hasRoot ∧ scanned.length = 1 then "//"
    else ⟨p.data.take scanned.length⟩

end path

/-! ## The process and the filesystem, as the path guard sees them -/

/-- What `src/utils/file-system.ts` reads from its process: `os.homedir()`,
`process.cwd()`, and the module constant `allowedDirectories`, computed once when
the module is loaded. -/
structure Process where
  homedir : String
  cwd : String
  allowedDirectories : List String

/-- A filesystem state, through `fsPromises.realpath`: `realpath p` is the
symlink-resolved path of `p`, or `none` when the call rejects (no such entry, a
symlink loop, a component that is not a directory). -/
structure FileSystem where
  realpath : String → Option String

/-- An asynchronous function over the filesystem: it returns a value or throws an
`Error` (its message), and the state it threads is the list of the filesystem
queries made so far, oldest first. -/
abbrev FsM := ExceptT String (StateM (List String))

/-- One call `await fsPromises.realpath(p)`: recorded, then answered by the
filesystem. -/
def FileSystem.realpathM (fs : FileSystem) (p : String) : FsM String := do
  modify (fun queries => queries ++ [p])
  match fs.realpath p with
  | some r => pure r
  | none => throw ("ENOENT: no such file or directory, realpath '" ++ p ++ "'")

/-- Runs an asynchronous function from the start: what it returned or threw, and
the filesystem queries it made. -/
def FsM.outcome {α : Type} (x : FsM α) : Except String α × List String :=
  (x.run.run [])

/-- What the asynchronous function returned or threw. -/
def FsM.result {α : Type} (x : FsM α) : Except String α :=
  x.outcome.1

/-- The filesystem queries the asynchronous function made, in order. -/
def FsM.queries {α : Type} (x : FsM α) : List String :=
  x.outcome.2

/-! ## `src/utils/file-system.ts` -/

/-- `normalizePath(p)`. -/
def normalizePath (p : String) : String :=
  path.normalize p

/-- `expandHome(filepath)`. -/
def expandHome (proc : Process) (filepath : String) : String :=
  if startsWith filepath "~/" ∨ filepath = "~" then
    path.join [proc.homedir, slice filepath 1]
  else filepath

/-- The test `allowedDirectories.some((dir) => p.startsWith(dir))` that
`validatePath` runs on three paths. -/
def isAllowed (proc : Process) (p : String) : Bool :=
  proc.allowedDirectories.any (fun dir => startsWith p dir)

/-- The constant `absolute` of `validatePath`: the requested path, home-expanded and
resolved against the working directory. -/
def absoluteOf (proc : Process) (requestedPath : String) : String :=
  let expandedPath := expandHome proc requestedPath
  if path.isAbsolute expandedPath then path.resolve proc.cwd [expandedPath]
  else path.resolve proc.cwd [proc.cwd, expandedPath]

/-- `validatePath(requestedPath)`. A `throw` inside a `try` block is caught by the
`catch` of that block, as in JavaScript. -/
def validatePath (proc : Process) (fs : FileSystem) (requestedPath : String) : FsM String := do
  let absolute := absoluteOf proc requestedPath
  let normalizedRequested := normalizePath absolute
  let allowed := isAllowed proc normalizedRequested
  if !allowed then
    throw ("Access denied - path outside allowed directories: " ++ absolute ++ " not in " ++
      joinWith ", " proc.allowedDirectories)
  try
    let realPath ← fs.realpathM absolute
    let normalizedReal := normalizePath realPath
    let isRealPathAllowed := isAllowed proc normalizedReal
    if !isRealPathAllowed then
      throw "Access denied - symlink target outside allowed directories"
    pure realPath
  catch _ =>
    let parentDir := path.dirname absolute
    try
      let realParentPath ← fs.realpathM parentDir
      let normalizedParent := normalizePath realParentPath
      let isParentAllowed := isAllowed proc normalizedParent
      if !isParentAllowed then
        throw "Access denied - parent directory outside allowed directories"
      pure absolute
    catch _ =>
      throw ("Parent directory does not exist: " ++ parentDir)

/-! ## `build/tools/file-system.js` -/

/-- The storage operation a tool hands to `fsPromises` once `validatePath` has
returned: `readFile(p, "utf-8")`, `writeFile(p, content, "utf-8")`,
`readdir(p, withFileTypes)` or `mkdir(p, recursive)`. -/
inductive StorageCall where
  | readFile (path : String)
  | writeFile (path content : String)
  | readdir (path : String)
  | mkdir (path : String)
  deriving DecidableEq, Repr

/-- The path a storage operation is given. -/
def StorageCall.path : StorageCall → String
  | .readFile p => p
  | .writeFile p _ => p
  | .readdir p => p
  | .mkdir p => p

/-- `readFile(path)`, up to the storage operation it performs. -/
def readFile (proc : Process) (fs : FileSystem) (path : String) : FsM StorageCall := do
  let validPath ← validatePath proc fs path
  pure (.readFile validPath)

/-- `writeFile(path, content)`, up to the storage operation it performs. -/
def writeFile (proc : Process) (fs : FileSystem) (path content : String) : FsM StorageCall := do
  let validPath ← validatePath proc fs path
  pure (.writeFile validPath content)

/-- `listDirectory(path)`, up to the storage operation it performs. -/
def listDirectory (proc : Process) (fs : FileSystem) (path : String) : FsM StorageCall := do
  let validPath ← validatePath proc fs path
  pure (.readdir validPath)

/-- `createDirectory(path)`, up to the storage operation it performs. -/
def createDirectory (proc : Process) (fs : FileSystem) (path : String) : FsM StorageCall := do
  let validPath ← validatePath proc fs path
  pure (.mkdir validPath)

/-- The location a storage operation on an existing entry acts on: the operating
system follows the symbolic links of the path it is given. -/
def FileSystem.actsOn (fs : FileSystem) (call : StorageCall) : Option String :=
  fs.realpath call.path

/-! ## Path-segment containment, as the specification words it -/

/-- The non-empty segments of a path. -/
def segments (p : String) : List (List Char) :=
  (path.splitSlash p.data).filter (fun seg => seg ≠ [])

/-- True path-segment containment: `root` contains `p` when the segments of `root`
are the first segments of `p` (`/home/user` contains `/home/user/x` but not
`/home/user2`). -/
def segmentContained (root p : String) : Bool :=
  (segments root).isPrefixOf (segments p)

/-! ## Concrete filesystems -/

/-- A filesystem given by the table of its resolvable paths and their real paths. -/
def FileSystem.ofTable (table : List (String × String)) : FileSystem :=
  ⟨fun p => (table.find? (fun e => e.1 = p)).map (fun e => e.2)⟩

/-- Allowlist `/home/alice`; `/home/alice/link` is a symbolic link to the directory
`/etc` and `/home/alice/secret` a symbolic link to the file `/etc/passwd`. -/
def procAlice : Process :=
  ⟨"/home/alice", "/srv/app", ["/home/alice"]⟩

/-- The filesystem of the `/home/alice` scenario. -/
def fsAlice : FileSystem :=
  FileSystem.ofTable
    [("/", "/"), ("/home", "/home"), ("/home/alice", "/home/alice"),
     ("/etc", "/etc"), ("/etc/passwd", "/etc/passwd"),
     ("/home/alice/link", "/etc"), ("/home/alice/secret", "/etc/passwd")]

/-- Allowlist `/data`. -/
def procData : Process :=
  ⟨"/home/bob", "/srv/app", ["/data"]⟩

/-- The filesystem of the `/data` scenario: `/data/cur` is a symbolic link to the
directory `/data/v2`, `/data/out` a symbolic link to the directory `/tmp/out`;
`/data/notes.txt` and `/data/missing` do not exist. -/
def fsData : FileSystem :=
  FileSystem.ofTable
    [("/", "/"), ("/data", "/data"), ("/data/v2", "/data/v2"), ("/data/cur", "/data/v2"),
     ("/tmp", "/tmp"), ("/tmp/out", "/tmp/out"), ("/data/out", "/tmp/out"),
     ("/etc", "/etc"), ("/etc/passwd", "/etc/passwd")]

/-- Allowlist `/home/user`, next to the directory `/home/userX`. -/
def procUser : Process :=
  ⟨"/home/user", "/home/user", ["/home/user"]⟩

/-- The filesystem of the `/home/user` scenario: the file `/home/userX/f` exists. -/
def fsUser : FileSystem :=
  FileSystem.ofTable
    [("/", "/"), ("/home", "/home"), ("/home/user", "/home/user"),
     ("/home/userX", "/home/userX"), ("/home/userX/f", "/home/userX/f")]

/-- Allowlist `/data` and `/srv/share`. -/
def procTwoRoots : Process :=
  ⟨"/home/bob", "/srv/app", ["/data", "/srv/share"]⟩

/-- The filesystem of the two-root scenario: `/data/shared` is a symbolic link to the
directory `/srv/share/x`. -/
def fsTwoRoots : FileSystem :=
  FileSystem.ofTable
    [("/", "/"), ("/data", "/data"), ("/srv", "/srv"), ("/srv/share", "/srv/share"),
     ("/srv/share/x", "/srv/share/x"), ("/data/shared", "/srv/share/x")]

/-! ## A disk: files, directories and symbolic links -/

/-- An entry of a disk: a regular file and its text, a directory, or a symbolic link and
the path it holds. -/
inductive Node where
  | file (content : String)
  | dir
  | symlink (target : String)
  deriving DecidableEq, Repr

/-- A disk: its entries, each under the list of names that leads to it from the root,
in the order a directory enumeration yields them. The root is a directory and has no
entry of its own. -/
structure Disk where
  entries : List (List String × Node)
  deriving DecidableEq, Repr

/-- The entry at a location. -/
def Disk.lookup (d : Disk) (k : List String) : Option Node :=
  if k = [] then some .dir
  else (d.entries.find? (fun e => e.1 = k)).map (fun e => e.2)

/-- The disk with the entry at `k` created or replaced; a replaced entry keeps its
place in the enumeration, a created one comes last. -/
def Disk.set (d : Disk) (k : List String) (n : Node) : Disk :=
  if d.entries.any (fun e => e.1 = k) then
    ⟨d.entries.map (fun e => if e.1 = k then (k, n) else e)⟩
  else ⟨d.entries ++ [(k, n)]⟩

/-- The names between the `/` of a path, empty ones included. -/
def segs (p : String) : List String :=
  (path.splitSlash p.data).map String.mk

/-- The absolute path of a location. -/
def render (k : List String) : String :=
  "/" ++ joinWith "/" k

/-- The directory a symbolic link is read from: the root for an absolute target, the
directory that holds the link otherwise. -/
def linkBase (cur : List String) (target : String) : List String :=
  if path.isAbsolute target then [] else cur

/-- One pass of path resolution over the names left to read, from the directory `cur`:
an empty name and `.` stay, `..` goes up, a directory is entered, a file ends the
path, and a symbolic link is handed, with the names left, to `follow`. -/
def walkWith (d : Disk) (follow : List String → List String → Option (List String)) :
    List String → List String → Option (List String)
  | cur, [] => some cur
  | cur, s :: rest =>
    if s = "" ∨ s = "." then walkWith d follow cur rest
    else if s = ".." then walkWith d follow cur.dropLast rest
    else
      match d.lookup (cur ++ [s]) with
      | none => none
      | some .dir => walkWith d follow (cur ++ [s]) rest
      | some (.file _) => if rest = [] then some (cur ++ [s]) else none
      | some (.symlink target) => follow (linkBase cur target) (segs target ++ rest)

/-- Path resolution that follows at most `n` symbolic links. -/
def walk : Nat → Disk → List String → List String → Option (List String)
  | 0, d => walkWith d (fun _ _ => none)
  | n + 1, d => walkWith d (walk n d)

/-- The number of symbolic links one path resolution may follow. -/
def maxLinks : Nat := 40

/-- The location a path leads to, symbolic links followed. -/
def Disk.resolve (d : Disk) (p : String) : Option (List String) :=
  walk maxLinks d [] (segs p)

/-- A directory entry as `readdir` with `withFileTypes` yields it: its name, and
whether it is a directory itself (a symbolic link is not, wherever it leads). -/
structure Dirent where
  name : String
  isDirectory : Bool
  deriving DecidableEq, Repr

/-- The entries of the directory at `k`, in enumeration order. -/
def Disk.children (d : Disk) (k : List String) : List Dirent :=
  d.entries.filterMap (fun e =>
    if e.1.dropLast = k then e.1.getLast?.map (fun name => ⟨name, e.2 = .dir⟩) else none)

/-- One pass of the resolution of a path that is opened for writing: as `walkWith`,
but a last name that has no entry yet is the location of the file to create. -/
def createWith (d : Disk) (follow : List String → List String → Option (List String)) :
    List String → List String → Option (List String)
  | cur, [] => some cur
  | cur, s :: rest =>
    if s = "" ∨ s = "." then createWith d follow cur rest
    else if s = ".." then createWith d follow cur.dropLast rest
    else
      match d.lookup (cur ++ [s]) with
      | none => if rest = [] then some (cur ++ [s]) else none
      | some .dir => createWith d follow (cur ++ [s]) rest
      | some (.file _) => if rest = [] then some (cur ++ [s]) else none
      | some (.symlink target) => follow (linkBase cur target) (segs target ++ rest)

/-- The location a path opened for writing leads to, at most `n` symbolic links
followed. -/
def create : Nat → Disk → List String → List String → Option (List String)
  | 0, d => createWith d (fun _ _ => none)
  | n + 1, d => createWith d (create n d)

/-- One pass of `mkdir` with `recursive: true` over the names left to read: a
directory is entered, a name without entry becomes a directory, unless it is one of
the first `linked` names, which come from a symbolic link and must exist. -/
def mkdirWith (follow : Disk → Nat → List String → List String → Except String Disk) :
    Disk → Nat → List String → List String → Except String Disk
  | d, _, _, [] => .ok d
  | d, linked, cur, s :: rest =>
    if s = "" ∨ s = "." then mkdirWith follow d (linked - 1) cur rest
    else if s = ".." then mkdirWith follow d (linked - 1) cur.dropLast rest
    else
      match d.lookup (cur ++ [s]) with
      | none =>
        if linked = 0 then mkdirWith follow (d.set (cur ++ [s]) .dir) 0 (cur ++ [s]) rest
        else .error "ENOENT: no such file or directory, mkdir"
      | some .dir => mkdirWith follow d (linked - 1) (cur ++ [s]) rest
      | some (.file _) => .error "EEXIST: file already exists, mkdir"
      | some (.symlink target) =>
        follow d ((segs target).length + (linked - 1)) (linkBase cur target)
          (segs target ++ rest)

/-- Recursive `mkdir` that follows at most `n` symbolic links. -/
def mkdirLinks : Nat → Disk → Nat → List String → List String → Except String Disk
  | 0 => mkdirWith (fun _ _ _ _ => .error "ELOOP: too many symbolic links encountered, mkdir")
  | n + 1 => mkdirWith (mkdirLinks n)

namespace fsPromises

/-- `fsPromises.realpath(p)` on a disk. -/
def realpath (d : Disk) (p : String) : Option String :=
  (d.resolve p).map render

/-- `fsPromises.readFile(p, "utf-8")` on a disk. -/
def readFile (d : Disk) (p : String) : Except String String :=
  match d.resolve p with
  | none => .error ("ENOENT: no such file or directory, open '" ++ p ++ "'")
  | some k =>
    match d.lookup k with
    | some (.file content) => .ok content
    | _ => .error "EISDIR: illegal operation on a directory, read"

/-- `fsPromises.writeFile(p, content, "utf-8")` on a disk: the file is created or
its text replaced. -/
def writeFile (d : Disk) (p content : String) : Except String Disk :=
  match create maxLinks d [] (segs p) with
  | none => .error ("ENOENT: no such file or directory, open '" ++ p ++ "'")
  | some k =>
    match d.lookup k with
    | none => .ok (d.set k (.file content))
    | some (.file _) => .ok (d.set k (.file content))
    | _ => .error "EISDIR: illegal operation on a directory, open"

/-- `fsPromises.readdir(p, withFileTypes)` on a disk. -/
def readdir (d : Disk) (p : String) : Except String (List Dirent) :=
  match d.resolve p with
  | none => .error ("ENOENT: no such file or directory, scandir '" ++ p ++ "'")
  | some k =>
    match d.lookup k with
    | some .dir => .ok (d.children k)
    | _ => .error ("ENOTDIR: not a directory, scandir '" ++ p ++ "'")

/-- `fsPromises.mkdir(p, recursive)` on a disk. -/
def mkdir (d : Disk) (p : String) : Except String Disk :=
  mkdirLinks maxLinks d 0 [] (segs p)

end fsPromises

/-- The filesystem state of a disk, as the path guard sees it. -/
def Disk.view (d : Disk) : FileSystem :=
  ⟨fsPromises.realpath d⟩

/-! ## The tools of `build/tools/file-system.js` on a disk -/

/-- `readFile(path)`: what it returns or throws, and the disk it leaves. -/
def Tools.readFile (proc : Process) (d : Disk) (path : String) : Except String String × Disk :=
  match (validatePath proc d.view path).result with
  | .error e => (.error e, d)
  | .ok validPath =>
    match fsPromises.readFile d validPath with
    | .error e => (.error e, d)
    | .ok content => (.ok content, d)

/-- `writeFile(path, content)`: what it returns or throws, and the disk it leaves. -/
def Tools.writeFile (proc : Process) (d : Disk) (path content : String) :
    Except String String × Disk :=
  match (validatePath proc d.view path).result with
  | .error e => (.error e, d)
  | .ok validPath =>
    match fsPromises.writeFile d validPath content with
    | .error e => (.error e, d)
    | .ok d' => (.ok ("File written successfully to: " ++ path), d')

/-- The line of `listDirectory` for one entry. -/
def direntLine (entry : Dirent) : String :=
  (if entry.isDirectory then "[DIR]" else "[FILE]") ++ " " ++ entry.name

/-- `listDirectory(path)`: what it returns or throws, and the disk it leaves. -/
def Tools.listDirectory (proc : Process) (d : Disk) (path : String) :
    Except String String × Disk :=
  match (validatePath proc d.view path).result with
  | .error e => (.error e, d)
  | .ok validPath =>
    match fsPromises.readdir d validPath with
    | .error e => (.error e, d)
    | .ok entries => (.ok (joinWith "\n" (entries.map direntLine)), d)

/-- `createDirectory(path)`: what it returns or throws, and the disk it leaves. -/
def Tools.createDirectory (proc : Process) (d : Disk) (path : String) :
    Except String String × Disk :=
  match (validatePath proc d.view path).result with
  | .error e => (.error e, d)
  | .ok validPath =>
    match fsPromises.mkdir d validPath with
    | .error e => (.error e, d)
    | .ok d' => (.ok ("Directory created: " ++ path), d')

/-- The disk of the `/home/alice` scenario: `link` is a symbolic link to `/etc`,
`secret` a symbolic link to `/etc/passwd`, `loop` a symbolic link to itself. -/
def diskAlice : Disk :=
  ⟨[(["home"], .dir), (["home", "alice"], .dir), (["etc"], .dir),
    (["etc", "passwd"], .file "root:x:0:0"),
    (["home", "alice", "link"], .symlink "/etc"),
    (["home", "alice", "secret"], .symlink "../../etc/passwd"),
    (["home", "alice", "loop"], .symlink "loop"),
    (["home", "alice", "notes.txt"], .file "hello")]⟩

/-- The disk of the `/data` scenario: the directory `/data` holds the file `a.txt` and
the directory `b`, which holds the file `c.txt`. -/
def diskData : Disk :=
  ⟨[(["data"], .dir), (["data", "a.txt"], .file "alpha"), (["data", "b"], .dir),
    (["data", "b", "c.txt"], .file "gamma")]⟩

/-! ## Invariants of path resolution -/

/-- A name a directory can hold: not empty, not `.` or `..`, without separator. -/
def validName (s : String) : Prop :=
  s ≠ "" ∧ s ≠ "." ∧ s ≠ ".." ∧ '/' ∉ s.data

instance (s : String) : Decidable (validName s) := by
  unfold validName
  infer_instance

/-- From the location `c`, the names `names` lead down through directories of the
disk, one inside the other. -/
def Chain (d : Disk) : List String → List String → Prop
  | _, [] => True
  | c, s :: rest => validName s ∧ d.lookup (c ++ [s]) = some .dir ∧ Chain d (c ++ [s]) rest

/-- A real location of the disk: a directory reached from the root through
directories, or a file in such a directory. -/
def Real (d : Disk) (r : List String) : Prop :=
  Chain d [] r ∨
    ∃ r0 s content, r = r0 ++ [s] ∧ Chain d [] r0 ∧ validName s ∧
      d.lookup r = some (.file content)

/-- The kind of an entry: its text apart for a file. -/
def Node.shape : Node → Node
  | .file _ => .file ""
  | n => n

/-- Disk `d'` keeps every entry of `d`, with the same kind. -/
def Extends (d d' : Disk) : Prop :=
  ∀ k n, d.lookup k = some n → ∃ n', d'.lookup k = some n' ∧ n'.shape = n.shape

/-! ## `path.relative` and the `minimatch` package -/

/-- `s.includes(sub)`. -/
def includes (s sub : String) : Bool :=
  s.data.tails.any (fun t => sub.data.isPrefixOf t)

/-- The longest common start of two lists of names, dropped from both. -/
def dropCommon : List String → List String → List String × List String
  | a :: as, b :: bs => if a = b then dropCommon as bs else (a :: as, b :: bs)
  | as, bs => (as, bs)

/-- `path.relative(from, to)` in a process whose working directory is `cwd`: both
paths are resolved, the names they share from the root are dropped, and the result
climbs with `..` out of what is left of `from`, then goes down what is left of `to`. -/
def path.relative (cwd fromPath toPath : String) : String :=
  if fromPath = toPath then ""
  else
    let fromSegs := (segs (path.resolve cwd [fromPath])).filter (fun s => s ≠ "")
    let toSegs := (segs (path.resolve cwd [toPath])).filter (fun s => s ≠ "")
    let (fromRest, toRest) := dropCommon fromSegs toSegs
    joinWith "/" (fromRest.map (fun _ => "..") ++ toRest)

/-- The options of `minimatch` that the source sets. -/
structure MinimatchOptions where
  dot : Bool := false
  nocase : Bool := false
  deriving DecidableEq, Repr

/-- A part of a glob pattern between two `/`: `**`, or a name pattern. -/
inductive GlobPart where
  | globstar
  | name (pattern : String)
  deriving DecidableEq, Repr

/-- The match of `*` against the start of a name: every split of the name is tried. -/
def starWith (m : List Char → Bool) : List Char → Bool
  | [] => m []
  | c :: cs => m (c :: cs) || starWith m cs

/-- The match of a name pattern against a name, character by character: `*` stands
for any run of characters, `?` for one character. -/
def globMatch (same : Char → Char → Bool) : List Char → List Char → Bool
  | [], name => name = []
  | p :: ps, name =>
    if p = '*' then starWith (globMatch same ps) name
    else
      match name with
      | [] => false
      | c :: cs => (p = '?' || same p c) && globMatch same ps cs

/-- The comparison of two characters under the option `nocase`. -/
def sameChar (opts : MinimatchOptions) (a b : Char) : Bool :=
  if opts.nocase then a.toLower = b.toLower else a = b

/-- The match of one name against one name pattern. A pattern without `*` or `?` is
compared as text. Otherwise the name is not empty, and when the pattern starts with
`*` or `?` the name does not start with a dot, or under the option `dot` is neither
`.` nor `..`. -/
def nameMatch (opts : MinimatchOptions) (pattern name : String) : Bool :=
  if pattern.data.all (fun c => c ≠ '*' ∧ c ≠ '?') then
    pattern.data.length = name.data.length ∧
      (pattern.data.zip name.data).all (fun pc => sameChar opts pc.1 pc.2)
  else
    name ≠ "" &&
    (if pattern.data.head? = some '*' ∨ pattern.data.head? = some '?' then
      (if opts.dot then name ≠ "." ∧ name ≠ ".." else name.data.head? ≠ some '.')
     else true) &&
    globMatch (sameChar opts) pattern.data name.data

/-- A name that `**` may stand for: never `.` or `..`, and a name that starts with a
dot only under the option `dot`. -/
def swallowable (opts : MinimatchOptions) (name : String) : Bool :=
  name ≠ "." ∧ name ≠ ".." ∧ (opts.dot ∨ name.data.head? ≠ some '.')

/-- The match of `**` followed by more pattern: the rest of the pattern is tried on
the names left, then `**` takes one more name if it may. -/
def swallowWith (m : List String → Bool) (ok : String → Bool) : List String → Bool
  | [] => false
  | f :: fs => m (f :: fs) || (ok f && swallowWith m ok fs)

/-- Minimatch's `matchOne`: the parts of a pattern against the names of a path. -/
def matchOne (opts : MinimatchOptions) : List GlobPart → List String → Bool
  | [], file => file = [] ∨ file = [""]
  | .globstar :: ps, file =>
    match file with
    | [] => false
    | f :: fs =>
      if ps = [] then (f :: fs).all (swallowable opts)
      else swallowWith (matchOne opts ps) (swallowable opts) (f :: fs)
  | .name p :: ps, file =>
    match file with
    | [] => false
    | f :: fs => nameMatch opts p f && matchOne opts ps fs

/-- A path or a pattern cut at its runs of `/`. -/
def globSegments (p : String) : List String :=
  match segs p with
  | [] => []
  | first :: rest => first :: (rest.dropLast.filter (fun s => s ≠ "") ++
      (match rest.getLast? with
       | none => []
       | some l => [l]))

/-- The parts of a glob pattern. -/
def globParts (pattern : String) : List GlobPart :=
  (globSegments pattern).map (fun s => if s = "**" then .globstar else .name s)

/-- `minimatch(p, pattern, options)` for a pattern made of names, `*`, `?`, `**` and
`/` (no braces, classes, negation, comment or escape). -/
def minimatch (p pattern : String) (opts : MinimatchOptions) : Bool :=
  if pattern = "" then p = ""
  else matchOne opts (globParts pattern) (globSegments p)

/-! ## `searchFiles` -/

/-- What `searchFiles` works with: the process, the filesystem that `validatePath`
queries, the directory enumeration `fsPromises.readdir(p, withFileTypes)` (what it
yields, or the error it rejects with), and the glob matcher `minimatch`. -/
structure SearchWorld where
  proc : Process
  fs : FileSystem
  readdir : String → Except String (List Dirent)
  minimatch : String → String → MinimatchOptions → Bool

/-- The state of a search: the array `results`, and the record of the directories
handed to `readdir`, in order. -/
structure SearchState where
  results : List String
  listed : List String
  deriving DecidableEq, Repr

/-- The state before the search. -/
def SearchState.empty : SearchState :=
  ⟨[], []⟩

/-- What a search added, put after an earlier state. -/
def SearchState.append (st more : SearchState) : SearchState :=
  ⟨st.results ++ more.results, st.listed ++ more.listed⟩

/-- The test `excludePatterns.some(...)` of `searchFiles`: a pattern without `*` is
wrapped as `**/<pattern>/**`. -/
def shouldExclude (w : SearchWorld) (excludePatterns : List String) (relativePath : String) :
    Bool :=
  excludePatterns.any (fun pattern =>
    let globPattern := if includes pattern "*" then pattern else "**/" ++ pattern ++ "/**"
    w.minimatch relativePath globPattern { dot := true })

/-- The `for` loop of `search(currentPath)` over the entries left, `recur` being the
recursive call. A `throw` in the `try` block (from `validatePath`, or from the
recursive call when its `readdir` rejects) goes to `continue`, with the state as it
is then. `none` is a recursion cut short. -/
def searchEntries (w : SearchWorld) (rootPath pattern : String) (excludePatterns : List String)
    (recur : String → SearchState → Option (Except String Unit × SearchState))
    (currentPath : String) : List Dirent → SearchState → Option SearchState
  | [], st => some st
  | entry :: rest, st =>
    let fullPath := path.join [currentPath, entry.name]
    match (validatePath w.proc w.fs fullPath).result with
    | .error _ => searchEntries w rootPath pattern excludePatterns recur currentPath rest st
    | .ok _ =>
      let relativePath := path.relative w.proc.cwd rootPath fullPath
      if shouldExclude w excludePatterns relativePath then
        searchEntries w rootPath pattern excludePatterns recur currentPath rest st
      else
        let st1 : SearchState :=
          if w.minimatch entry.name pattern { nocase := true } then
            { st with results := st.results ++ [fullPath] }
          else st
        if entry.isDirectory then
          match recur fullPath st1 with
          | none => none
          | some (_, st2) =>
            searchEntries w rootPath pattern excludePatterns recur currentPath rest st2
        else searchEntries w rootPath pattern excludePatterns recur currentPath rest st1

/-- The inner function `search(currentPath)` of `searchFiles`, with at most `fuel`
nested calls: it returns or throws, and leaves a state. -/
def search (w : SearchWorld) (rootPath pattern : String) (excludePatterns : List String) :
    Nat → String → SearchState → Option (Except String Unit × SearchState)
  | 0, _, _ => none
  | fuel + 1, currentPath, st =>
    let st0 : SearchState := { st with listed := st.listed ++ [currentPath] }
    match w.readdir currentPath with
    | .error e => some (.error e, st0)
    | .ok entries =>
      (searchEntries w rootPath pattern excludePatterns
        (search w rootPath pattern excludePatterns fuel) currentPath entries st0).map
        (fun st1 => (.ok (), st1))

/-- `searchFiles(rootPath, pattern, excludePatterns)`, with at most `fuel` nested
calls of `search`: the paths found, or the error thrown. -/
def searchFiles (w : SearchWorld) (fuel : Nat) (rootPath pattern : String)
    (excludePatterns : List String) : Option (Except String (List String)) :=
  (search w rootPath pattern excludePatterns fuel rootPath SearchState.empty).map
    (fun out =>
      match out.1 with
      | .error e => .error e
      | .ok _ => .ok out.2.results)

/-- The directories below `p` nest less than `n` deep: `n` nested calls of `search`
are enough from `p`. -/
def shallow (readdir : String → Except String (List Dirent)) : Nat → String → Bool
  | 0, _ => false
  | n + 1, p =>
    match readdir p with
    | .error _ => true
    | .ok entries =>
      entries.all (fun entry => !entry.isDirectory || shallow readdir n (path.join [p, entry.name]))

/-- The names of an absolute path once `.`, `..` and empty names are resolved. -/
def normalSegments (l : List Char) : List (List Char) :=
  (path.normalizeSegments false [] (path.splitSlash l)).reverse

/-- A name as a normalised path holds it: not empty, not `.` or `..`, without
separator. -/
def cleanSegment (seg : List Char) : Prop :=
  seg ≠ [] ∧ seg ≠ ['.'] ∧ seg ≠ ['.', '.'] ∧ '/' ∉ seg

/-- The absolute path `p` lies the names `names` below `root`: its normalised names
are those of `root`, then `names`. -/
def Below (root p : String) (names : List String) : Prop :=
  path.isAbsolute p = true ∧ (∀ n ∈ names, validName n) ∧
    normalSegments p.data = normalSegments root.data ++ names.map String.data

/-- The directories a search of `root` goes down to: the root, and every directory
entry of such a directory that `validatePath` accepts. -/
inductive Reach (w : SearchWorld) (root : String) : String → Prop where
  | root : Reach w root root
  | step (cur : String) (entries : List Dirent) (entry : Dirent) :
      Reach w root cur → w.readdir cur = .ok entries → entry ∈ entries →
      entry.isDirectory = true →
      (∃ v, (validatePath w.proc w.fs (path.join [cur, entry.name])).result = .ok v) →
      Reach w root (path.join [cur, entry.name])

/-- A directory enumeration given by the table of the directories and their
entries; any other path is rejected. -/
def readdirOfTable (table : List (String × List Dirent)) (p : String) :
    Except String (List Dirent) :=
  match table.find? (fun e => e.1 = p) with
  | some e => .ok e.2
  | none => .error ("ENOENT: no such file or directory, scandir '" ++ p ++ "'")

/-- The tree of the search scenarios, under `/data`: the files `a.txt` and
`.hidden.txt`, the directory `docs` (with `guide.txt` and `img.png`), the directory
`node_modules` (with `top.txt` and the directory `pkg`, which holds `readme.txt`),
and the directory `locked`, which cannot be listed. -/
def treeData : List (String × List Dirent) :=
  [("/data", [⟨"a.txt", false⟩, ⟨".hidden.txt", false⟩, ⟨"docs", true⟩,
      ⟨"node_modules", true⟩, ⟨"locked", true⟩]),
   ("/data/docs", [⟨"guide.txt", false⟩, ⟨"img.png", false⟩]),
   ("/data/node_modules", [⟨"top.txt", false⟩, ⟨"pkg", true⟩]),
   ("/data/node_modules/pkg", [⟨"readme.txt", false⟩])]

/-- The paths of the search scenarios, none of them a symbolic link. -/
def fsTree : FileSystem :=
  FileSystem.ofTable
    [("/", "/"), ("/data", "/data"), ("/data/a.txt", "/data/a.txt"),
     ("/data/.hidden.txt", "/data/.hidden.txt"), ("/data/docs", "/data/docs"),
     ("/data/docs/guide.txt", "/data/docs/guide.txt"),
     ("/data/docs/img.png", "/data/docs/img.png"),
     ("/data/node_modules", "/data/node_modules"),
     ("/data/node_modules/top.txt", "/data/node_modules/top.txt"),
     ("/data/node_modules/pkg", "/data/node_modules/pkg"),
     ("/data/node_modules/pkg/readme.txt", "/data/node_modules/pkg/readme.txt"),
     ("/data/locked", "/data/locked")]

/-- The search scenario with allowlist `/data`. -/
def worldData : SearchWorld :=
  ⟨procData, fsTree, readdirOfTable treeData, minimatch⟩

/-- The search scenario with allowlist `/data/docs` only: under `/data`, only the
directory `docs` and what it holds pass `validatePath`. -/
def worldDocs : SearchWorld :=
  ⟨⟨"/home/bob", "/srv/app", ["/data/docs"]⟩, fsTree, readdirOfTable treeData, minimatch⟩

/-! ## The allowlist, from the environment -/

/-- The pieces of a text between the occurrences of the character `sep` (empty
pieces kept). -/
def splitChar (sep : Char) : List Char → List (List Char)
  | [] => [[]]
  | c :: cs =>
    if c = sep then [] :: splitChar sep cs
    else
      match splitChar sep cs with
      | [] => [[c]]
      | s :: ss => (c :: s) :: ss

/-- `s.split(",")`. -/
def splitComma (s : String) : List String :=
  (splitChar ',' s.data).map String.mk

/-- What one piece `dir` of `ALLOWED_DIRECTORIES` becomes:
`normalizePath(path.resolve(expandHome(dir)))`. The process handed to `expandHome`
gives it the home directory, the one thing it reads. -/
def allowedDirectoryOf (homedir cwd dir : String) : String :=
  normalizePath (path.resolve cwd [expandHome ⟨homedir, cwd, []⟩ dir])

/-- The module constant `allowedDirectories`, from `os.homedir()`, `process.cwd()`
and `process.env.ALLOWED_DIRECTORIES` (`none` when the variable is not set; the
empty text is falsy, as in JavaScript). -/
def allowedDirectories (homedir cwd : String) (env : Option String) : List String :=
  match env with
  | some value =>
    if value ≠ "" then (splitComma value).map (allowedDirectoryOf homedir cwd)
    else [normalizePath (path.resolve cwd [homedir]), normalizePath (path.resolve cwd [cwd])]
  | none => [normalizePath (path.resolve cwd [homedir]), normalizePath (path.resolve cwd [cwd])]

/-- The process once the module `utils/file-system` is loaded. -/
def Process.load (homedir cwd : String) (env : Option String) : Process :=
  ⟨homedir, cwd, Context3D.allowedDirectories homedir cwd env⟩

/-! ## `build/server/tool-handlers.js` -/

/-- The JSON-RPC error codes of the enumeration `ErrorCode` of the MCP SDK
(`@modelcontextprotocol/sdk/types.js`, a package outside the sources); the handlers
use `InternalError` only. -/
inductive ErrorCode where
  | ParseError
  | InvalidRequest
  | MethodNotFound
  | InvalidParams
  | InternalError
  deriving DecidableEq, Repr

/-- The number of an error code, as the template `${code}` prints it. -/
def ErrorCode.number : ErrorCode → String
  | .ParseError => "-32700"
  | .InvalidRequest => "-32600"
  | .MethodNotFound => "-32601"
  | .InvalidParams => "-32602"
  | .InternalError => "-32603"

/-- An `McpError` as the caller gets it: its property `code` and the `message` of
the `Error` it is. -/
structure McpError where
  code : ErrorCode
  message : String
  deriving DecidableEq, Repr

/-- `new McpError(code, message)`: the constructor of the SDK keeps the code and
makes `MCP error ${code}: ${message}` the message of the error. -/
def McpError.new (code : ErrorCode) (message : String) : McpError :=
  ⟨code, "MCP error " ++ code.number ++ ": " ++ message⟩

/-- The object a file handler returns: `success`, the text of its one `content`
item, and `message`. -/
structure ToolResult where
  success : Bool
  text : String
  message : String
  deriving DecidableEq, Repr

/-- `handleReadFile(args)` with `args.path = path`: what it returns or throws, and
the disk it leaves. -/
def handleReadFile (proc : Process) (d : Disk) (path : String) :
    Except McpError ToolResult × Disk :=
  match Tools.readFile proc d path with
  | (.ok content, d') =>
    (.ok ⟨true, content, "File read successfully from: " ++ path⟩, d')
  | (.error message, d') =>
    (.error (McpError.new .InternalError ("Failed to read file: " ++ message)), d')

/-- `handleWriteFile(args)` with `args.path = path` and `args.content = content`. -/
def handleWriteFile (proc : Process) (d : Disk) (path content : String) :
    Except McpError ToolResult × Disk :=
  match Tools.writeFile proc d path content with
  | (.ok message, d') => (.ok ⟨true, message, "File saved to: " ++ path⟩, d')
  | (.error message, d') =>
    (.error (McpError.new .InternalError ("Failed to write file: " ++ message)), d')

/-- `handleListDirectory(args)` with `args.path = path`. -/
def handleListDirectory (proc : Process) (d : Disk) (path : String) :
    Except McpError ToolResult × Disk :=
  match Tools.listDirectory proc d path with
  | (.ok formatted, d') => (.ok ⟨true, formatted, "Listed directory: " ++ path⟩, d')
  | (.error message, d') =>
    (.error (McpError.new .InternalError ("Failed to list directory: " ++ message)), d')

/-- `handleCreateDirectory(args)` with `args.path = path`. -/
def handleCreateDirectory (proc : Process) (d : Disk) (path : String) :
    Except McpError ToolResult × Disk :=
  match Tools.createDirectory proc d path with
  | (.ok message, d') => (.ok ⟨true, message, "Created directory: " ++ path⟩, d')
  | (.error message, d') =>
    (.error (McpError.new .InternalError ("Failed to create directory: " ++ message)), d')

/-! ## `searchForFiles` -/

/-- `searchForFiles(path, pattern, excludePatterns)` of `build/tools/file-system.js`,
with at most `fuel` nested calls of `search`. -/
def Tools.searchForFiles (w : SearchWorld) (fuel : Nat) (path pattern : String)
    (excludePatterns : List String) : Option (Except String (List String)) :=
  match (validatePath w.proc w.fs path).result with
  | .error e => some (.error e)
  | .ok validPath => searchFiles w fuel validPath pattern excludePatterns

/-- The search on a disk: `validatePath` and `readdir` both read the disk. -/
def Disk.world (proc : Process) (d : Disk) : SearchWorld :=
  ⟨proc, d.view, fsPromises.readdir d, minimatch⟩

/-! ## The `path` model on the paths of the scenarios -/

theorem normalize_examples :
    path.normalize "/data/../etc/passwd" = "/etc/passwd" ∧
    path.normalize "a//b/./c/.." = "a/b" ∧
    path.normalize "../../a/" = "../../a/" ∧
    path.normalize "/.." = "/" ∧
    path.normalize "" = "." := by decide

theorem resolve_examples :
    path.resolve "/srv/app" ["notes/../x.txt"] = "/srv/app/x.txt" ∧
    path.resolve "/srv/app" ["/srv/app", "/data/notes.txt"] = "/data/notes.txt" ∧
    path.resolve "/srv/app" [""] = "/srv/app" := by decide

theorem dirname_examples :
    path.dirname "/data/notes.txt" = "/data" ∧
    path.dirname "/data" = "/" ∧
    path.dirname "a//b" = "a/" ∧
    path.dirname "//a" = "//" ∧
    path.dirname "notes.txt" = "." := by decide

/-! ## The outcomes of `validatePath`, branch by branch -/

/-- First check failed: the rejection is thrown and no query has been made. -/
theorem validatePath_outside (proc : Process) (fs : FileSystem) (p : String)
    (h : isAllowed proc (normalizePath (absoluteOf proc p)) = false) :
    (validatePath proc fs p).outcome =
      (.error ("Access denied - path outside allowed directories: " ++ absoluteOf proc p ++
        " not in " ++ joinWith ", " proc.allowedDirectories), []) := by
  simp [validatePath, FsM.outcome, h]

/-- The `try` block returns: the real path resolves inside the allowlist. -/
theorem validatePath_real (proc : Process) (fs : FileSystem) (p r : String)
    (h : isAllowed proc (normalizePath (absoluteOf proc p)) = true)
    (hr : fs.realpath (absoluteOf proc p) = some r)
    (hra : isAllowed proc (normalizePath r) = true) :
    (validatePath proc fs p).outcome = (.ok r, [absoluteOf proc p]) := by
  simp [validatePath, FsM.outcome, FileSystem.realpathM, h, hr, hra]
  rfl

/-- The `try` block throws (the path does not resolve, or resolves outside the
allowlist) and the parent directory resolves inside the allowlist: the `catch` block
returns the absolute path. -/
theorem validatePath_fallback_ok (proc : Process) (fs : FileSystem) (p q : String)
    (h : isAllowed proc (normalizePath (absoluteOf proc p)) = true)
    (htry : ∀ r, fs.realpath (absoluteOf proc p) = some r →
      isAllowed proc (normalizePath r) = false)
    (hq : fs.realpath (path.dirname (absoluteOf proc p)) = some q)
    (hqa : isAllowed proc (normalizePath q) = true) :
    (validatePath proc fs p).outcome =
      (.ok (absoluteOf proc p), [absoluteOf proc p, path.dirname (absoluteOf proc p)]) := by
  cases hr : fs.realpath (absoluteOf proc p) with
  | none =>
    simp [validatePath, FsM.outcome, FileSystem.realpathM, h, hr, hq, hqa]
    rfl
  | some r =>
    have hra := htry r hr
    simp [validatePath, FsM.outcome, FileSystem.realpathM, h, hr, hra, hq, hqa]
    rfl

/-- The `try` block throws and the parent directory does not resolve, or resolves
outside the allowlist: the inner `catch` block throws its own message. -/
theorem validatePath_fallback_fail (proc : Process) (fs : FileSystem) (p : String)
    (h : isAllowed proc (normalizePath (absoluteOf proc p)) = true)
    (htry : ∀ r, fs.realpath (absoluteOf proc p) = some r →
      isAllowed proc (normalizePath r) = false)
    (hpar : ∀ q, fs.realpath (path.dirname (absoluteOf proc p)) = some q →
      isAllowed proc (normalizePath q) = false) :
    (validatePath proc fs p).outcome =
      (.error ("Parent directory does not exist: " ++ path.dirname (absoluteOf proc p)),
        [absoluteOf proc p, path.dirname (absoluteOf proc p)]) := by
  cases hr : fs.realpath (absoluteOf proc p) with
  | none =>
    cases hq : fs.realpath (path.dirname (absoluteOf proc p)) with
    | none =>
      simp [validatePath, FsM.outcome, FileSystem.realpathM, h, hr, hq]
      rfl
    | some q =>
      have hqa := hpar q hq
      simp [validatePath, FsM.outcome, FileSystem.realpathM, h, hr, hq, hqa]
      rfl
  | some r =>
    have hra := htry r hr
    cases hq : fs.realpath (path.dirname (absoluteOf proc p)) with
    | none =>
      simp [validatePath, FsM.outcome, FileSystem.realpathM, h, hr, hra, hq]
      rfl
    | some q =>
      have hqa := hpar q hq
      simp [validatePath, FsM.outcome, FileSystem.realpathM, h, hr, hra, hq, hqa]
      rfl

theorem startsWith_append (a b : String) : startsWith (a ++ b) a = true := by
  simp [startsWith, String.data_append]

theorem segmentContained_examples :
    segmentContained "/home/user" "/home/user/x" = true ∧
    segmentContained "/home/user" "/home/user" = true ∧
    segmentContained "/home/user" "/home/user2" = false ∧
    segmentContained "/home/user" "/home" = false := by decide

/-- No allowed root is a string prefix of the path: the containment test fails. -/
theorem isAllowed_false_of_forall (proc : Process) (p : String)
    (h : ∀ dir ∈ proc.allowedDirectories, startsWith p dir = false) :
    isAllowed proc p = false := by
  unfold isAllowed
  rw [List.any_eq_false]
  intro dir hdir
  simp [h dir hdir]

theorem isAllowed_true_iff (proc : Process) (p : String) :
    isAllowed proc p = true ↔ ∃ dir ∈ proc.allowedDirectories, startsWith p dir = true := by
  unfold isAllowed
  rw [List.any_eq_true]

/-- `path.resolve` stops with an absolute result as soon as one of the paths it
goes through is absolute. -/
theorem resolveLoop_absolute (l : List String) (acc : String)
    (h : ∃ a ∈ l, path.isAbsolute a = true) : (path.resolveLoop l acc).2 = true := by
  induction l generalizing acc with
  | nil => simp at h
  | cons x xs ih =>
    unfold path.resolveLoop
    by_cases hx : x.data = []
    · simp only [hx, if_true]
      apply ih
      obtain ⟨a, ha, habs⟩ := h
      rcases List.mem_cons.mp ha with rfl | hmem
      · simp [path.isAbsolute, hx] at habs
      · exact ⟨a, hmem, habs⟩
    · simp only [hx, if_false]
      by_cases hx2 : x.data.head? = some '/'
      · simp [hx2]
      · simp only [hx2, if_false]
        apply ih
        obtain ⟨a, ha, habs⟩ := h
        rcases List.mem_cons.mp ha with rfl | hmem
        · simp [path.isAbsolute, hx2] at habs
        · exact ⟨a, hmem, habs⟩

theorem resolve_absolute (cwd : String) (args : List String)
    (hcwd : path.isAbsolute cwd = true) : path.isAbsolute (path.resolve cwd args) = true := by
  have h := resolveLoop_absolute (args.reverse ++ [cwd]) "" ⟨cwd, by simp, hcwd⟩
  unfold path.resolve
  rcases hl : path.resolveLoop (args.reverse ++ [cwd]) "" with ⟨rp, b⟩
  rw [hl] at h
  simp only at h
  subst h
  simp [path.isAbsolute]

theorem absoluteOf_absolute (proc : Process) (p : String)
    (hcwd : path.isAbsolute proc.cwd = true) : path.isAbsolute (absoluteOf proc p) = true := by
  unfold absoluteOf
  simp only
  split <;> exact resolve_absolute _ _ hcwd

/-- Every real path of a table filesystem is an entry of its table. -/
theorem ofTable_realpath_mem (table : List (String × String)) (p r : String)
    (h : (FileSystem.ofTable table).realpath p = some r) : ∃ e ∈ table, e.2 = r := by
  unfold FileSystem.ofTable at h
  simp only [Option.map_eq_some'] at h
  obtain ⟨e, he, rfl⟩ := h
  exact ⟨e, List.mem_of_find?_eq_some he, rfl⟩

/-- A table filesystem whose entries are absolute answers with absolute paths. -/
theorem ofTable_realpath_absolute (table : List (String × String))
    (habs : ∀ e ∈ table, path.isAbsolute e.2 = true) (p r : String)
    (h : (FileSystem.ofTable table).realpath p = some r) : path.isAbsolute r = true := by
  obtain ⟨e, he, rfl⟩ := ofTable_realpath_mem table p r h
  exact habs e he

/-- A string that starts with `pre` differs from a message that does not. -/
theorem append_ne_of_not_startsWith (pre x msg : String)
    (h : startsWith msg pre = false) : pre ++ x ≠ msg := by
  intro e
  rw [← e, startsWith_append] at h
  cases h

/-- The four ways `validatePath` ends: the outside-allowlist rejection, the real
path, the absolute path, or the parent-missing rejection. -/
theorem validatePath_result_cases (proc : Process) (fs : FileSystem) (p : String) :
    (validatePath proc fs p).result =
        .error ("Access denied - path outside allowed directories: " ++ absoluteOf proc p ++
          " not in " ++ joinWith ", " proc.allowedDirectories) ∨
      (∃ r, fs.realpath (absoluteOf proc p) = some r ∧
        (validatePath proc fs p).result = .ok r) ∨
      (validatePath proc fs p).result = .ok (absoluteOf proc p) ∨
      (validatePath proc fs p).result =
        .error ("Parent directory does not exist: " ++ path.dirname (absoluteOf proc p)) := by
  unfold FsM.result
  cases h0 : isAllowed proc (normalizePath (absoluteOf proc p)) with
  | false =>
    left
    rw [validatePath_outside proc fs p h0]
  | true =>
    right
    by_cases hr : ∃ r, fs.realpath (absoluteOf proc p) = some r ∧
        isAllowed proc (normalizePath r) = true
    · obtain ⟨r, hr1, hr2⟩ := hr
      left
      exact ⟨r, hr1, by rw [validatePath_real proc fs p r h0 hr1 hr2]⟩
    · right
      have htry : ∀ r, fs.realpath (absoluteOf proc p) = some r →
          isAllowed proc (normalizePath r) = false := by
        intro r hr1
        cases hra : isAllowed proc (normalizePath r) with
        | false => rfl
        | true => exact absurd ⟨r, hr1, hra⟩ hr
      by_cases hq : ∃ q, fs.realpath (path.dirname (absoluteOf proc p)) = some q ∧
          isAllowed proc (normalizePath q) = true
      · obtain ⟨q, hq1, hq2⟩ := hq
        left
        rw [validatePath_fallback_ok proc fs p q h0 htry hq1 hq2]
      · right
        have hpar : ∀ q, fs.realpath (path.dirname (absoluteOf proc p)) = some q →
            isAllowed proc (normalizePath q) = false := by
          intro q hq1
          cases hqa : isAllowed proc (normalizePath q) with
          | false => rfl
          | true => exact absurd ⟨q, hq1, hqa⟩ hq
        rw [validatePath_fallback_fail proc fs p h0 htry hpar]

/-- The two rejections thrown inside the `try` blocks never leave `validatePath`:
whatever the allowlist, the filesystem and the request, it throws neither the
symlink-target message nor the parent-outside message. -/
theorem validatePath_inner_rejections_unreachable (proc : Process) (fs : FileSystem)
    (p : String) :
    (validatePath proc fs p).result ≠
        .error "Access denied - symlink target outside allowed directories" ∧
      (validatePath proc fs p).result ≠
        .error "Access denied - parent directory outside allowed directories" := by
  have houtside : ∀ msg : String,
      startsWith msg "Access denied - path outside allowed directories: " = false →
      "Access denied - path outside allowed directories: " ++ absoluteOf proc p ++
        " not in " ++ joinWith ", " proc.allowedDirectories ≠ msg := by
    intro msg hmsg
    rw [String.append_assoc, String.append_assoc]
    exact append_ne_of_not_startsWith _ _ _ hmsg
  have hparent : ∀ msg : String,
      startsWith msg "Parent directory does not exist: " = false →
      "Parent directory does not exist: " ++ path.dirname (absoluteOf proc p) ≠ msg :=
    fun msg hmsg => append_ne_of_not_startsWith _ _ _ hmsg
  rcases validatePath_result_cases proc fs p with h | ⟨r, -, h⟩ | h | h
  · rw [h]
    exact ⟨fun e => houtside _ (by decide) (Except.error.inj e),
      fun e => houtside _ (by decide) (Except.error.inj e)⟩
  · rw [h]
    exact ⟨fun e => (by cases e), fun e => (by cases e)⟩
  · rw [h]
    exact ⟨fun e => (by cases e), fun e => (by cases e)⟩
  · rw [h]
    exact ⟨fun e => hparent _ (by decide) (Except.error.inj e),
      fun e => hparent _ (by decide) (Except.error.inj e)⟩

/-! ## The claims about `validatePath` -/

/-- C3: a requested path whose home-expanded, absolute-resolved and normalised form
has no allowed root as a string prefix is rejected with the message
`Access denied - path outside allowed directories: <absolute> not in <allowlist>`,
and no filesystem query has been made when it is thrown. -/
theorem validatePath_outside_allowlist (proc : Process) (fs : FileSystem)
    (requestedPath : String)
    (h : ∀ dir ∈ proc.allowedDirectories,
      startsWith (normalizePath (absoluteOf proc requestedPath)) dir = false) :
    (validatePath proc fs requestedPath).result =
        .error ("Access denied - path outside allowed directories: " ++
          absoluteOf proc requestedPath ++ " not in " ++
          joinWith ", " proc.allowedDirectories) ∧
      (validatePath proc fs requestedPath).queries = [] := by
  have h0 := validatePath_outside proc fs requestedPath
    (isAllowed_false_of_forall proc _ h)
  simp [FsM.result, FsM.queries, h0]

/-- Witness of C3: with allowlist `/data`, the path `/data/../etc/passwd`, whose raw
text starts with the allowed root, normalises to `/etc/passwd` and is rejected. -/
theorem validatePath_outside_allowlist_witness :
    startsWith "/data/../etc/passwd" "/data" = true ∧
    normalizePath (absoluteOf procData "/data/../etc/passwd") = "/etc/passwd" ∧
    (∀ dir ∈ procData.allowedDirectories,
      startsWith (normalizePath (absoluteOf procData "/data/../etc/passwd")) dir = false) ∧
    ((validatePath procData fsData "/data/../etc/passwd").result =
        .error "Access denied - path outside allowed directories: /etc/passwd not in /data" ∧
      (validatePath procData fsData "/data/../etc/passwd").queries = []) :=
  ⟨by decide, by decide, by decide,
    validatePath_outside_allowlist procData fsData "/data/../etc/passwd" (by decide)⟩

/-- C4: in a process whose working directory is absolute and on a filesystem whose
real paths are absolute, a path returned by `validatePath` is absolute and its
normalised form starts with an entry of `allowedDirectories`; it is the real path of
the requested entry or the absolute form of the requested path. -/
theorem validatePath_ok_absolute_allowed (proc : Process) (fs : FileSystem)
    (requestedPath v : String)
    (hcwd : path.isAbsolute proc.cwd = true)
    (hreal : ∀ q r, fs.realpath q = some r → path.isAbsolute r = true)
    (h : (validatePath proc fs requestedPath).result = .ok v) :
    path.isAbsolute v = true ∧
      (∃ dir ∈ proc.allowedDirectories, startsWith (normalizePath v) dir = true) ∧
      (fs.realpath (absoluteOf proc requestedPath) = some v ∨
        v = absoluteOf proc requestedPath) := by
  unfold FsM.result at h
  cases h0 : isAllowed proc (normalizePath (absoluteOf proc requestedPath)) with
  | false =>
    rw [validatePath_outside proc fs requestedPath h0] at h
    simp at h
  | true =>
    by_cases hr : ∃ r, fs.realpath (absoluteOf proc requestedPath) = some r ∧
        isAllowed proc (normalizePath r) = true
    · obtain ⟨r, hr1, hr2⟩ := hr
      rw [validatePath_real proc fs requestedPath r h0 hr1 hr2] at h
      simp only [Except.ok.injEq] at h
      subst h
      exact ⟨hreal _ _ hr1, (isAllowed_true_iff proc _).mp hr2, Or.inl hr1⟩
    · have htry : ∀ r, fs.realpath (absoluteOf proc requestedPath) = some r →
          isAllowed proc (normalizePath r) = false := by
        intro r hr1
        cases hra : isAllowed proc (normalizePath r) with
        | false => rfl
        | true => exact absurd ⟨r, hr1, hra⟩ hr
      by_cases hq : ∃ q, fs.realpath (path.dirname (absoluteOf proc requestedPath)) = some q ∧
          isAllowed proc (normalizePath q) = true
      · obtain ⟨q, hq1, hq2⟩ := hq
        rw [validatePath_fallback_ok proc fs requestedPath q h0 htry hq1 hq2] at h
        simp only [Except.ok.injEq] at h
        subst h
        exact ⟨absoluteOf_absolute proc requestedPath hcwd,
          (isAllowed_true_iff proc _).mp h0, Or.inr rfl⟩
      · have hpar : ∀ q, fs.realpath (path.dirname (absoluteOf proc requestedPath)) = some q →
            isAllowed proc (normalizePath q) = false := by
          intro q hq1
          cases hqa : isAllowed proc (normalizePath q) with
          | false => rfl
          | true => exact absurd ⟨q, hq1, hqa⟩ hq
        rw [validatePath_fallback_fail proc fs requestedPath h0 htry hpar] at h
        simp at h

/-- Witness of C4: with allowlist `/data`, the relative request `../../data/cur`
made from `/srv/app` returns `/data/v2`. -/
theorem validatePath_ok_absolute_allowed_witness :
    path.isAbsolute procData.cwd = true ∧
    (validatePath procData fsData "../../data/cur").result = .ok "/data/v2" ∧
    (path.isAbsolute "/data/v2" = true ∧
      (∃ dir ∈ procData.allowedDirectories, startsWith (normalizePath "/data/v2") dir = true) ∧
      (fsData.realpath (absoluteOf procData "../../data/cur") = some "/data/v2" ∨
        "/data/v2" = absoluteOf procData "../../data/cur")) :=
  ⟨by decide, by rfl,
    validatePath_ok_absolute_allowed procData fsData "../../data/cur" "/data/v2" (by decide)
      (ofTable_realpath_absolute _ (by decide)) (by rfl)⟩

/-- C5: for a path that does not resolve, whose normalised absolute form starts with
an allowed root and whose parent directory resolves to a real path that starts with
an allowed root, `validatePath` returns exactly the absolute form of the request. -/
theorem validatePath_new_file (proc : Process) (fs : FileSystem)
    (requestedPath realParent : String)
    (hnone : fs.realpath (absoluteOf proc requestedPath) = none)
    (hreq : ∃ dir ∈ proc.allowedDirectories,
      startsWith (normalizePath (absoluteOf proc requestedPath)) dir = true)
    (hparent : fs.realpath (path.dirname (absoluteOf proc requestedPath)) = some realParent)
    (hpar : ∃ dir ∈ proc.allowedDirectories,
      startsWith (normalizePath realParent) dir = true) :
    (validatePath proc fs requestedPath).result = .ok (absoluteOf proc requestedPath) := by
  have h0 := (isAllowed_true_iff proc _).mpr hreq
  have h1 := (isAllowed_true_iff proc _).mpr hpar
  have htry : ∀ r, fs.realpath (absoluteOf proc requestedPath) = some r →
      isAllowed proc (normalizePath r) = false := by
    intro r hr
    rw [hnone] at hr
    cases hr
  simp [FsM.result, validatePath_fallback_ok proc fs requestedPath realParent h0 htry hparent h1]

/-- Witness of C5: with allowlist `/data`, the missing file `/data/notes.txt` is
authorised as `/data/notes.txt`. -/
theorem validatePath_new_file_witness :
    fsData.realpath (absoluteOf procData "/data/notes.txt") = none ∧
    (validatePath procData fsData "/data/notes.txt").result = .ok "/data/notes.txt" :=
  ⟨by decide,
    validatePath_new_file procData fsData "/data/notes.txt" "/data" (by decide)
      ⟨"/data", by decide, by decide⟩ (by decide) ⟨"/data", by decide, by decide⟩⟩

/-- C6: for a path whose normalised absolute form starts with an allowed root, when
neither the path nor its parent directory resolves, `validatePath` throws
`Parent directory does not exist: <parent>`. -/
theorem validatePath_parent_missing (proc : Process) (fs : FileSystem)
    (requestedPath : String)
    (hreq : ∃ dir ∈ proc.allowedDirectories,
      startsWith (normalizePath (absoluteOf proc requestedPath)) dir = true)
    (hnone : fs.realpath (absoluteOf proc requestedPath) = none)
    (hparent : fs.realpath (path.dirname (absoluteOf proc requestedPath)) = none) :
    (validatePath proc fs requestedPath).result =
      .error ("Parent directory does not exist: " ++
        path.dirname (absoluteOf proc requestedPath)) := by
  have h0 := (isAllowed_true_iff proc _).mpr hreq
  have htry : ∀ r, fs.realpath (absoluteOf proc requestedPath) = some r →
      isAllowed proc (normalizePath r) = false := by
    intro r hr
    rw [hnone] at hr
    cases hr
  have hpar : ∀ q, fs.realpath (path.dirname (absoluteOf proc requestedPath)) = some q →
      isAllowed proc (normalizePath q) = false := by
    intro q hq
    rw [hparent] at hq
    cases hq
  simp [FsM.result, validatePath_fallback_fail proc fs requestedPath h0 htry hpar]

/-- Witness of C6: with allowlist `/data`, neither `/data/missing/new.txt` nor
`/data/missing` exists. -/
theorem validatePath_parent_missing_witness :
    (validatePath procData fsData "/data/missing/new.txt").result =
      .error "Parent directory does not exist: /data/missing" :=
  validatePath_parent_missing procData fsData "/data/missing/new.txt"
    ⟨"/data", by decide, by decide⟩ (by decide) (by decide)

/-- C9: for a path that resolves, whose normalised absolute form starts with an
allowed root and whose real path, normalised, starts with an allowed root,
`validatePath` returns exactly the real path, after a single query. -/
theorem validatePath_existing (proc : Process) (fs : FileSystem)
    (requestedPath realPath : String)
    (hreal : fs.realpath (absoluteOf proc requestedPath) = some realPath)
    (hreq : ∃ dir ∈ proc.allowedDirectories,
      startsWith (normalizePath (absoluteOf proc requestedPath)) dir = true)
    (hra : ∃ dir ∈ proc.allowedDirectories,
      startsWith (normalizePath realPath) dir = true) :
    (validatePath proc fs requestedPath).result = .ok realPath ∧
      (validatePath proc fs requestedPath).queries = [absoluteOf proc requestedPath] := by
  have h0 := (isAllowed_true_iff proc _).mpr hreq
  have h1 := (isAllowed_true_iff proc _).mpr hra
  simp [FsM.result, FsM.queries, validatePath_real proc fs requestedPath realPath h0 hreal h1]

/-- Witness of C9: with allowlist `/data`, the symbolic link `/data/cur` to
`/data/v2` is authorised as `/data/v2`, not as `/data/cur`. -/
theorem validatePath_existing_witness :
    absoluteOf procData "/data/cur" = "/data/cur" ∧
    ((validatePath procData fsData "/data/cur").result = .ok "/data/v2" ∧
      (validatePath procData fsData "/data/cur").queries = ["/data/cur"]) :=
  ⟨by decide,
    validatePath_existing procData fsData "/data/cur" "/data/v2" (by decide)
      ⟨"/data", by decide, by decide⟩ ⟨"/data", by decide, by decide⟩⟩

/-- C10: the containment test is a string-prefix test: with allowlist `/home/user`
and the existing file `/home/userX/f`, the path is contained segment-wise in no
allowed root, and `validatePath` returns it. -/
theorem validatePath_prefix_not_segments :
    ∃ (proc : Process) (fs : FileSystem) (requestedPath : String),
      (∀ dir ∈ proc.allowedDirectories,
        segmentContained dir (normalizePath (absoluteOf proc requestedPath)) = false) ∧
      ∃ v, (validatePath proc fs requestedPath).result = .ok v :=
  ⟨procUser, fsUser, "/home/userX/f", by decide, "/home/userX/f", by rfl⟩

/-- C8, as amended: for an allowed root `R` and a path strictly inside `R` (its
normalised absolute form is `R`, a separator and a non-empty remainder), if the path
resolves to a real path that starts with an allowed root, or does not resolve while
its parent directory resolves to a real path that starts with an allowed root, then
`validatePath` succeeds; the path it returns starts with an allowed root, and with
`R` itself when the requested path does not resolve or its real path starts with
`R`. -/
theorem validatePath_inside_root (proc : Process) (fs : FileSystem)
    (requestedPath R rest : String)
    (hR : R ∈ proc.allowedDirectories)
    (hp : normalizePath (absoluteOf proc requestedPath) = R ++ "/" ++ rest)
    (_hrest : rest ≠ "")
    (hres : (∃ r, fs.realpath (absoluteOf proc requestedPath) = some r ∧
          ∃ dir ∈ proc.allowedDirectories, startsWith (normalizePath r) dir = true) ∨
        (fs.realpath (absoluteOf proc requestedPath) = none ∧
          ∃ q, fs.realpath (path.dirname (absoluteOf proc requestedPath)) = some q ∧
            ∃ dir ∈ proc.allowedDirectories, startsWith (normalizePath q) dir = true)) :
    ∃ v, (validatePath proc fs requestedPath).result = .ok v ∧
      (∃ dir ∈ proc.allowedDirectories, startsWith (normalizePath v) dir = true) ∧
      ((fs.realpath (absoluteOf proc requestedPath) = none ∨
          ∃ r, fs.realpath (absoluteOf proc requestedPath) = some r ∧
            startsWith (normalizePath r) R = true) →
        startsWith (normalizePath v) R = true) := by
  have hunder : startsWith (normalizePath (absoluteOf proc requestedPath)) R = true := by
    rw [hp, String.append_assoc]
    exact startsWith_append R _
  have h0 := (isAllowed_true_iff proc _).mpr ⟨R, hR, hunder⟩
  rcases hres with ⟨r, hr, hra⟩ | ⟨hnone, q, hq, hqa⟩
  · have h1 := (isAllowed_true_iff proc _).mpr hra
    refine ⟨r, by simp [FsM.result, validatePath_real proc fs requestedPath r h0 hr h1],
      hra, ?_⟩
    rintro (hnone | ⟨r2, hr2, hrR⟩)
    · rw [hnone] at hr
      cases hr
    · rw [hr] at hr2
      cases hr2
      exact hrR
  · have h1 := (isAllowed_true_iff proc _).mpr hqa
    have htry : ∀ r, fs.realpath (absoluteOf proc requestedPath) = some r →
        isAllowed proc (normalizePath r) = false := by
      intro r hr
      rw [hnone] at hr
      cases hr
    exact ⟨absoluteOf proc requestedPath,
      by simp [FsM.result, validatePath_fallback_ok proc fs requestedPath q h0 htry hq h1],
      ⟨R, hR, hunder⟩, fun _ => hunder⟩

/-- Witness of C8, as amended: with allowlist `/data`, the missing file
`/data/notes.txt`, whose parent `/data` exists, is authorised under `/data`. -/
theorem validatePath_inside_root_witness :
    normalizePath (absoluteOf procData "/data/notes.txt") = "/data" ++ "/" ++ "notes.txt" ∧
    ∃ v, (validatePath procData fsData "/data/notes.txt").result = .ok v ∧
      (∃ dir ∈ procData.allowedDirectories, startsWith (normalizePath v) dir = true) ∧
      ((fsData.realpath (absoluteOf procData "/data/notes.txt") = none ∨
          ∃ r, fsData.realpath (absoluteOf procData "/data/notes.txt") = some r ∧
            startsWith (normalizePath r) "/data" = true) →
        startsWith (normalizePath v) "/data" = true) :=
  ⟨by decide,
    validatePath_inside_root procData fsData "/data/notes.txt" "/data" "notes.txt"
      (by decide) (by decide) (by decide)
      (Or.inr ⟨by decide, "/data", by decide, "/data", by decide, by decide⟩)⟩

/-- A link inside one allowed root to another allowed root: with allowlist `/data`,
`/srv/share` and the symbolic link `/data/shared` to `/srv/share/x`, `validatePath`
returns `/srv/share/x`, which does not lie under `/data`. -/
theorem validatePath_inside_root_other_root :
    normalizePath (absoluteOf procTwoRoots "/data/shared") = "/data" ++ "/" ++ "shared" ∧
    (validatePath procTwoRoots fsTwoRoots "/data/shared").result = .ok "/srv/share/x" ∧
    startsWith (normalizePath "/srv/share/x") "/data" = false :=
  ⟨by decide, by rfl, by decide⟩

/-- C8, as stated, fails: with allowlist `/data`, the path `/data/missing/new.txt` is
strictly inside the allowed root `/data`, and `validatePath` does not succeed on it
(neither the path nor its parent resolves). -/
theorem validatePath_inside_root_can_fail :
    "/data" ∈ procData.allowedDirectories ∧
    normalizePath (absoluteOf procData "/data/missing/new.txt") =
      "/data" ++ "/" ++ "missing/new.txt" ∧
    "missing/new.txt" ≠ "" ∧
    ¬ ∃ v, (validatePath procData fsData "/data/missing/new.txt").result = .ok v ∧
      startsWith (normalizePath v) "/data" = true := by
  refine ⟨by decide, by decide, by decide, ?_⟩
  rintro ⟨v, hv, -⟩
  have h : (validatePath procData fsData "/data/missing/new.txt").result =
      .error "Parent directory does not exist: /data/missing" := by rfl
  rw [h] at hv
  cases hv

/-! ## Where the code departs from the claims -/

/-- C2, on the code: with allowlist `/home/alice` and the symbolic link
`/home/alice/link` to `/etc`, the path lies under the allowed root and its real
target under none, yet `validatePath` does not fail: the rejection thrown in the
`try` block is caught by its own `catch`, the parent `/home/alice` is accepted, and
the link itself is returned. -/
theorem validatePath_accepts_escaping_symlink :
    startsWith (normalizePath (absoluteOf procAlice "/home/alice/link")) "/home/alice" = true ∧
    fsAlice.realpath (absoluteOf procAlice "/home/alice/link") = some "/etc" ∧
    (∀ dir ∈ procAlice.allowedDirectories, startsWith (normalizePath "/etc") dir = false) ∧
    (validatePath procAlice fsAlice "/home/alice/link").outcome =
      (.ok "/home/alice/link", ["/home/alice/link", "/home/alice"]) :=
  ⟨by decide, by decide, by decide, by rfl⟩

/-- C1, on the code: with allowlist `/home/alice`, `readFile` and `writeFile` on the
symbolic link `/home/alice/secret` and `listDirectory` on the symbolic link
`/home/alice/link` get past `validatePath` and hand the link to the storage
operation, which acts on `/etc/passwd` and `/etc`, under no allowed root. -/
theorem tools_act_outside_allowlist :
    (readFile procAlice fsAlice "/home/alice/secret").result =
      .ok (.readFile "/home/alice/secret") ∧
    (writeFile procAlice fsAlice "/home/alice/secret" "x").result =
      .ok (.writeFile "/home/alice/secret" "x") ∧
    fsAlice.actsOn (.readFile "/home/alice/secret") = some "/etc/passwd" ∧
    fsAlice.actsOn (.writeFile "/home/alice/secret" "x") = some "/etc/passwd" ∧
    (∀ dir ∈ procAlice.allowedDirectories,
      startsWith (normalizePath "/etc/passwd") dir = false) ∧
    (listDirectory procAlice fsAlice "/home/alice/link").result =
      .ok (.readdir "/home/alice/link") ∧
    fsAlice.actsOn (.readdir "/home/alice/link") = some "/etc" ∧
    (∀ dir ∈ procAlice.allowedDirectories, startsWith (normalizePath "/etc") dir = false) :=
  ⟨by rfl, by rfl, by decide, by decide, by decide, by rfl, by decide, by decide⟩

/-- C7, on the code: with allowlist `/data`, the missing path `/data/out/new.txt`
lies under the allowed root and its parent `/data/out` resolves to `/tmp/out`,
under no allowed root; the access-denied rejection thrown in the inner `try` block is
caught by its own `catch`, and `validatePath` throws the parent-missing message. -/
theorem validatePath_parent_outside_reports_missing :
    startsWith (normalizePath (absoluteOf procData "/data/out/new.txt")) "/data" = true ∧
    fsData.realpath (absoluteOf procData "/data/out/new.txt") = none ∧
    fsData.realpath (path.dirname (absoluteOf procData "/data/out/new.txt")) =
      some "/tmp/out" ∧
    (∀ dir ∈ procData.allowedDirectories,
      startsWith (normalizePath "/tmp/out") dir = false) ∧
    (validatePath procData fsData "/data/out/new.txt").result =
      .error "Parent directory does not exist: /data/out" :=
  ⟨by decide, by decide, by decide, by decide, by rfl⟩

/-! ## `expandHome` -/

/-- C11: when the path is `~` or starts with `~/`, it is `~` followed by the rest that
`slice(1)` keeps, and `expandHome` is the home directory joined with that rest; in
every other case `expandHome` returns the path unchanged. -/
theorem expandHome_cases (proc : Process) (p : String) :
    ((p = "~" ∨ startsWith p "~/" = true) →
        p = "~" ++ slice p 1 ∧
          expandHome proc p = path.join [proc.homedir, slice p 1]) ∧
      (¬ (p = "~" ∨ startsWith p "~/" = true) → expandHome proc p = p) := by
  constructor
  · intro h
    constructor
    · rcases h with rfl | h
      · decide
      · obtain ⟨l⟩ := p
        simp only [startsWith, List.isPrefixOf_iff_prefix] at h
        obtain ⟨t, rfl⟩ := h
        rfl
    · unfold expandHome
      rw [if_pos (Or.symm h)]
  · intro h
    unfold expandHome
    rw [if_neg (fun h2 => h (Or.symm h2))]

/-- Witness of C11: with home directory `/home/alice`, `~` and `~/docs/a.txt` are
expanded; `~user/x`, `a/~/b` and the empty string are returned unchanged. -/
theorem expandHome_cases_witness :
    expandHome procAlice "~" = "/home/alice" ∧
    expandHome procAlice "~/docs/a.txt" = "/home/alice/docs/a.txt" ∧
    expandHome procAlice "~user/x" = "~user/x" ∧
    expandHome procAlice "a/~/b" = "a/~/b" ∧
    expandHome procAlice "" = "" :=
  ⟨((expandHome_cases procAlice "~").1 (by decide)).2.trans (by decide),
    ((expandHome_cases procAlice "~/docs/a.txt").1 (by decide)).2.trans (by decide),
    (expandHome_cases procAlice "~user/x").2 (by decide),
    (expandHome_cases procAlice "a/~/b").2 (by decide),
    (expandHome_cases procAlice "").2 (by decide)⟩

/-! ## The tools, rejected or not -/

/-- A tool that only wraps the validated path has the outcome of `validatePath`. -/
theorem FsM.outcome_map {α β : Type} (x : FsM α) (f : α → β) :
    (do let v ← x; pure (f v) : FsM β).outcome = (x.outcome.1.map f, x.outcome.2) := by
  simp only [FsM.outcome, ExceptT.run_bind, StateT.run_bind]
  rcases h : x.run.run [] with ⟨r, q⟩
  cases r <;> simp [h, Except.map]

/-! ## Paths and locations -/

theorem splitSlash_ne_nil (l : List Char) : path.splitSlash l ≠ [] := by
  cases l with
  | nil => simp [path.splitSlash]
  | cons c cs =>
    unfold path.splitSlash
    split
    · simp
    · split <;> simp

/-- No segment of a path holds a separator. -/
theorem splitSlash_noslash (l : List Char) : ∀ seg ∈ path.splitSlash l, '/' ∉ seg := by
  induction l with
  | nil => simp [path.splitSlash]
  | cons c cs ih =>
    unfold path.splitSlash
    split
    · intro seg hseg
      rcases List.mem_cons.mp hseg with rfl | h
      · simp
      · exact ih seg h
    · rename_i hc
      split
      · rename_i hnil
        exact absurd hnil (splitSlash_ne_nil cs)
      · rename_i s ss hs
        intro seg hseg
        rw [hs] at ih
        rcases List.mem_cons.mp hseg with rfl | h
        · intro hmem
          rcases List.mem_cons.mp hmem with h1 | h1
          · exact hc h1.symm
          · exact ih s (List.mem_cons_self _ _) h1
        · exact ih seg (List.mem_cons_of_mem _ h)

/-- A run of characters without separator, then a separator: one segment. -/
theorem splitSlash_append (a b : List Char) (ha : '/' ∉ a) :
    path.splitSlash (a ++ '/' :: b) = a :: path.splitSlash b := by
  induction a with
  | nil => simp [path.splitSlash]
  | cons c cs ih =>
    have hc : c ≠ '/' := fun h => ha (by simp [h])
    have hcs : '/' ∉ cs := fun h => ha (List.mem_cons_of_mem _ h)
    simp only [List.cons_append]
    rw [path.splitSlash, if_neg hc, ih hcs]

theorem splitSlash_of_noslash (a : List Char) (ha : '/' ∉ a) : path.splitSlash a = [a] := by
  induction a with
  | nil => simp [path.splitSlash]
  | cons c cs ih =>
    have hc : c ≠ '/' := fun h => ha (by simp [h])
    have hcs : '/' ∉ cs := fun h => ha (List.mem_cons_of_mem _ h)
    unfold path.splitSlash
    rw [if_neg hc, ih hcs]

theorem segs_noslash (p : String) : ∀ s ∈ segs p, '/' ∉ s.data := by
  intro s hs
  simp only [segs, List.mem_map] at hs
  obtain ⟨seg, hseg, rfl⟩ := hs
  exact splitSlash_noslash _ seg hseg

theorem joinWith_slash_cons (x y : String) (rest : List String) :
    (joinWith "/" (x :: y :: rest)).data = x.data ++ '/' :: (joinWith "/" (y :: rest)).data := by
  simp [joinWith, String.data_append]

/-- The segments of names joined by `/` are the names. -/
theorem splitSlash_joinWith (r : List String) (hr : r ≠ [])
    (hv : ∀ s ∈ r, '/' ∉ s.data) :
    (path.splitSlash (joinWith "/" r).data).map String.mk = r := by
  induction r with
  | nil => exact absurd rfl hr
  | cons x rest ih =>
    cases rest with
    | nil =>
      simp only [joinWith]
      rw [splitSlash_of_noslash _ (hv x (List.mem_cons_self _ _))]
      simp
    | cons y rest2 =>
      rw [joinWith_slash_cons, splitSlash_append _ _ (hv x (List.mem_cons_self _ _))]
      simp only [List.map_cons]
      rw [ih (by simp) (fun s hs => hv s (List.mem_cons_of_mem _ hs))]

/-- The segments of the absolute path of a location are an empty name and the names
of the location. -/
theorem segs_render (r : List String) (hr : r ≠ []) (hv : ∀ s ∈ r, '/' ∉ s.data) :
    segs (render r) = "" :: r := by
  have h : (render r).data = '/' :: (joinWith "/" r).data := by
    simp [render, String.data_append]
  simp only [segs, h]
  unfold path.splitSlash
  simp only [if_true, List.map_cons]
  rw [splitSlash_joinWith r hr hv]

theorem segs_render_nil : segs (render []) = ["", ""] := by decide

/-! ## Entries of a disk -/

theorem find_map_set (l : List (List String × Node)) (k k' : List String) (n : Node) :
    ((l.map (fun e => if e.1 = k then (k, n) else e)).find? (fun e => e.1 = k')).map
        (fun e => e.2) =
      if k' = k then (if l.any (fun e => e.1 = k) then some n else none)
      else (l.find? (fun e => e.1 = k')).map (fun e => e.2) := by
  induction l with
  | nil => simp
  | cons e rest ih =>
    simp only [List.map_cons, List.find?_cons, List.any_cons]
    by_cases he : e.1 = k
    · simp only [he, if_true, decide_True, Bool.true_or]
      by_cases hk : k = k'
      · simp [hk]
      · have hk2 : ¬ k' = k := fun h => hk h.symm
        simp only [hk, decide_False, hk2, if_false] at ih ⊢
        exact ih
    · simp only [he, if_false, decide_False, Bool.false_or]
      by_cases he' : e.1 = k'
      · have hk2 : ¬ k' = k := fun h => he (he'.trans h)
        simp [he', hk2]
      · simp only [he', decide_False]
        exact ih

/-- The entries of a disk after one entry has been set. -/
theorem Disk.lookup_set (d : Disk) (k k' : List String) (n : Node) (hk : k ≠ []) :
    (d.set k n).lookup k' = if k' = k then some n else d.lookup k' := by
  unfold Disk.set
  by_cases hany : d.entries.any (fun e => e.1 = k) = true
  · rw [if_pos hany]
    unfold Disk.lookup
    by_cases hk' : k' = []
    · have : ¬ k' = k := fun h => hk (h.symm.trans hk')
      simp [hk', hk, this]
    · simp only [if_neg hk']
      rw [find_map_set]
      by_cases hkk : k' = k
      · simp [hkk, hany]
      · simp [hkk]
  · rw [if_neg hany]
    unfold Disk.lookup
    by_cases hk' : k' = []
    · have : ¬ k' = k := fun h => hk (h.symm.trans hk')
      simp [hk', hk, this]
    · simp only [if_neg hk']
      simp only [Bool.not_eq_true, List.any_eq_false] at hany
      by_cases hkk : k' = k
      · subst hkk
        have hnone : d.entries.find? (fun e => decide (e.1 = k')) = none := by
          rw [List.find?_eq_none]
          intro e he
          simpa using hany e he
        simp [List.find?_append, hnone]
      · have hkk' : ¬ k = k' := fun h => hkk h.symm
        simp [List.find?_append, hkk, hkk', List.find?_cons]

theorem Extends.refl (d : Disk) : Extends d d :=
  fun _ n h => ⟨n, h, rfl⟩

theorem Extends.trans {d1 d2 d3 : Disk} (h12 : Extends d1 d2) (h23 : Extends d2 d3) :
    Extends d1 d3 := by
  intro k n h
  obtain ⟨n2, h2, hs2⟩ := h12 k n h
  obtain ⟨n3, h3, hs3⟩ := h23 k n2 h2
  exact ⟨n3, h3, hs3.trans hs2⟩

/-- Setting an entry that did not exist, or the text of a file, keeps the disk. -/
theorem Extends.set (d : Disk) (k : List String) (n : Node) (hk : k ≠ [])
    (h : ∀ n0, d.lookup k = some n0 → n.shape = n0.shape) : Extends d (d.set k n) := by
  intro k' n' hl
  rw [Disk.lookup_set d k k' n hk]
  by_cases hkk : k' = k
  · subst hkk
    exact ⟨n, by simp, h n' hl⟩
  · exact ⟨n', by simp [hkk, hl], rfl⟩

theorem Extends.dir {d d' : Disk} (h : Extends d d') {k : List String}
    (hk : d.lookup k = some .dir) : d'.lookup k = some .dir := by
  obtain ⟨n', h1, h2⟩ := h k _ hk
  cases n' <;> simp [Node.shape] at h2
  exact h1

theorem Extends.symlink {d d' : Disk} (h : Extends d d') {k : List String} {t : String}
    (hk : d.lookup k = some (.symlink t)) : d'.lookup k = some (.symlink t) := by
  obtain ⟨n', h1, h2⟩ := h k _ hk
  cases n' <;> simp [Node.shape] at h2
  subst h2
  exact h1

theorem Extends.file {d d' : Disk} (h : Extends d d') {k : List String} {c : String}
    (hk : d.lookup k = some (.file c)) : ∃ c', d'.lookup k = some (.file c') := by
  obtain ⟨n', h1, h2⟩ := h k _ hk
  cases n' <;> simp [Node.shape] at h2
  exact ⟨_, h1⟩

/-! ## Directories reached from the root -/

theorem Chain.extends {d d' : Disk} (h : Extends d d') :
    ∀ (a c : List String), Chain d c a → Chain d' c a := by
  intro a
  induction a with
  | nil => intro c _; trivial
  | cons s rest ih =>
    intro c hc
    exact ⟨hc.1, h.dir hc.2.1, ih _ hc.2.2⟩

theorem Chain.snoc {d : Disk} (s : String) (hs : validName s) :
    ∀ (a c : List String), Chain d c a → d.lookup (c ++ a ++ [s]) = some .dir →
      Chain d c (a ++ [s]) := by
  intro a
  induction a with
  | nil =>
    intro c _ hl
    exact ⟨hs, by simpa using hl, trivial⟩
  | cons x rest ih =>
    intro c hc hl
    refine ⟨hc.1, hc.2.1, ih _ hc.2.2 ?_⟩
    simpa using hl

theorem Chain.dropLast {d : Disk} :
    ∀ (a c : List String), Chain d c a → Chain d c a.dropLast := by
  intro a
  induction a with
  | nil => intro c _; trivial
  | cons x rest ih =>
    intro c hc
    cases rest with
    | nil => trivial
    | cons y rest2 =>
      rw [List.dropLast_cons₂]
      exact ⟨hc.1, hc.2.1, ih _ hc.2.2⟩

theorem Chain.names_valid {d : Disk} :
    ∀ (a c : List String), Chain d c a → ∀ s ∈ a, validName s := by
  intro a
  induction a with
  | nil => intro c _ s hs; simp at hs
  | cons x rest ih =>
    intro c hc s hs
    rcases List.mem_cons.mp hs with rfl | h
    · exact hc.1
    · exact ih _ hc.2.2 s h

/-- Resolution goes down a chain of directories name by name. -/
theorem walkWith_chain (d : Disk) (f : List String → List String → Option (List String)) :
    ∀ (a c rest : List String), Chain d c a →
      walkWith d f c (a ++ rest) = walkWith d f (c ++ a) rest := by
  intro a
  induction a with
  | nil => intro c rest _; simp
  | cons x a ih =>
    intro c rest hc
    obtain ⟨⟨h1, h2, h3, -⟩, hl, hrest⟩ := hc
    have hx : ¬ (x = "" ∨ x = ".") := fun h => h.elim h1 h2
    simp only [List.cons_append]
    rw [walkWith, if_neg hx, if_neg h3, hl]
    simp only
    rw [ih _ _ hrest]
    simp

/-- Resolving the names of a real location, from the root, gives the location. -/
theorem walkWith_real_names (d : Disk) (f : List String → List String → Option (List String))
    (r : List String) (hr : Real d r) : walkWith d f [] r = some r := by
  rcases hr with hc | ⟨r0, s, content, rfl, hc, ⟨h1, h2, h3, -⟩, hl⟩
  · have := walkWith_chain d f r [] [] hc
    simp only [List.append_nil, List.nil_append] at this
    rw [this, walkWith]
  · rw [walkWith_chain d f r0 [] [s] hc]
    have hx : ¬ (s = "" ∨ s = ".") := fun h => h.elim h1 h2
    simp only [List.nil_append]
    rw [walkWith, if_neg hx, if_neg h3, hl]
    simp

theorem Real.valid {d : Disk} {r : List String} (hr : Real d r) : ∀ s ∈ r, validName s := by
  rcases hr with hc | ⟨r0, s, content, rfl, hc, hs, -⟩
  · exact Chain.names_valid r [] hc
  · intro x hx
    rcases List.mem_append.mp hx with h | h
    · exact Chain.names_valid r0 [] hc x h
    · simp only [List.mem_singleton] at h
      subst h
      exact hs

theorem walk_eq_walkWith (n : Nat) (d : Disk) :
    ∃ f, walk n d = walkWith d f := by
  cases n with
  | zero => exact ⟨_, rfl⟩
  | succ n => exact ⟨_, rfl⟩

/-- The absolute path of a real location resolves to that location. -/
theorem resolve_render (d : Disk) (r : List String) (hr : Real d r) :
    d.resolve (render r) = some r := by
  unfold Disk.resolve
  obtain ⟨f, hf⟩ := walk_eq_walkWith maxLinks d
  rw [hf]
  by_cases hnil : r = []
  · subst hnil
    rw [segs_render_nil]
    simp [walkWith]
  · rw [segs_render r hnil (fun s hs => (hr.valid s hs).2.2.2)]
    rw [walkWith]
    simp only [true_or, if_true]
    exact walkWith_real_names d f r hr

/-- Path resolution ends on real locations. -/
theorem walkWith_real (d : Disk) (f : List String → List String → Option (List String))
    (hf : ∀ c s r, Chain d [] c → (∀ x ∈ s, '/' ∉ x.data) → f c s = some r → Real d r) :
    ∀ (l cur r : List String), Chain d [] cur → (∀ x ∈ l, '/' ∉ x.data) →
      walkWith d f cur l = some r → Real d r := by
  intro l
  induction l with
  | nil =>
    intro cur r hc _ h
    simp only [walkWith, Option.some.injEq] at h
    subst h
    exact Or.inl hc
  | cons s rest ih =>
    intro cur r hc hl h
    have hrest : ∀ x ∈ rest, '/' ∉ x.data := fun x hx => hl x (List.mem_cons_of_mem _ hx)
    rw [walkWith] at h
    by_cases h1 : s = "" ∨ s = "."
    · rw [if_pos h1] at h
      exact ih cur r hc hrest h
    · rw [if_neg h1] at h
      by_cases h2 : s = ".."
      · rw [if_pos h2] at h
        exact ih _ r (Chain.dropLast cur [] hc) hrest h
      · rw [if_neg h2] at h
        have hs : validName s :=
          ⟨fun e => h1 (Or.inl e), fun e => h1 (Or.inr e), h2, hl s (List.mem_cons_self _ _)⟩
        cases hlk : d.lookup (cur ++ [s]) with
        | none => simp [hlk] at h
        | some node =>
          rw [hlk] at h
          cases node with
          | dir =>
            simp only at h
            exact ih _ r (Chain.snoc s hs cur [] hc (by simpa using hlk)) hrest h
          | file content =>
            simp only at h
            by_cases hr : rest = []
            · simp only [hr, if_true, Option.some.injEq] at h
              subst h
              exact Or.inr ⟨cur, s, content, rfl, hc, hs, hlk⟩
            · simp [hr] at h
          | symlink target =>
            simp only at h
            refine hf _ _ r ?_ ?_ h
            · unfold linkBase
              split
              · trivial
              · exact hc
            · intro x hx
              rcases List.mem_append.mp hx with hx | hx
              · exact segs_noslash target x hx
              · exact hrest x hx

theorem walk_real (d : Disk) :
    ∀ (n : Nat) (cur l r : List String), Chain d [] cur → (∀ x ∈ l, '/' ∉ x.data) →
      walk n d cur l = some r → Real d r := by
  intro n
  induction n with
  | zero =>
    intro cur l r hc hl h
    exact walkWith_real d _ (fun _ _ _ _ _ h => by cases h) l cur r hc hl h
  | succ n ih =>
    intro cur l r hc hl h
    exact walkWith_real d _ (fun c s r hc hs h => ih c s r hc hs h) l cur r hc hl h

/-- What a path resolves to is a real location. -/
theorem resolve_real (d : Disk) (p : String) (r : List String)
    (h : d.resolve p = some r) : Real d r :=
  walk_real d maxLinks [] (segs p) r trivial (segs_noslash p) h

/-! ## Resolution on a disk that has grown -/

/-- A path that resolves keeps its location when the disk keeps its entries. -/
theorem walkWith_mono {d d' : Disk} (h : Extends d d')
    (f f' : List String → List String → Option (List String))
    (hf : ∀ c s r, f c s = some r → f' c s = some r) :
    ∀ (l cur r : List String), walkWith d f cur l = some r → walkWith d' f' cur l = some r := by
  intro l
  induction l with
  | nil =>
    intro cur r hw
    simpa [walkWith] using hw
  | cons s rest ih =>
    intro cur r hw
    rw [walkWith] at hw ⊢
    by_cases h1 : s = "" ∨ s = "."
    · rw [if_pos h1] at hw ⊢
      exact ih cur r hw
    · rw [if_neg h1] at hw ⊢
      by_cases h2 : s = ".."
      · rw [if_pos h2] at hw ⊢
        exact ih _ r hw
      · rw [if_neg h2] at hw ⊢
        cases hlk : d.lookup (cur ++ [s]) with
        | none => simp [hlk] at hw
        | some node =>
          rw [hlk] at hw
          cases node with
          | dir =>
            rw [h.dir hlk]
            exact ih _ r hw
          | file content =>
            obtain ⟨c', hc'⟩ := h.file hlk
            rw [hc']
            exact hw
          | symlink target =>
            rw [h.symlink hlk]
            exact hf _ _ r hw

theorem walk_mono {d d' : Disk} (h : Extends d d') :
    ∀ (n : Nat) (cur l r : List String), walk n d cur l = some r → walk n d' cur l = some r := by
  intro n
  induction n with
  | zero =>
    intro cur l r hw
    exact walkWith_mono h _ _ (fun _ _ _ h => h) l cur r hw
  | succ n ih =>
    intro cur l r hw
    exact walkWith_mono h _ _ (fun c s r h => ih c s r h) l cur r hw

theorem resolve_mono {d d' : Disk} (h : Extends d d') (p : String) (r : List String)
    (hr : d.resolve p = some r) : d'.resolve p = some r :=
  walk_mono h maxLinks [] (segs p) r hr

theorem realpath_mono {d d' : Disk} (h : Extends d d') (p r : String)
    (hr : fsPromises.realpath d p = some r) : fsPromises.realpath d' p = some r := by
  unfold fsPromises.realpath at hr ⊢
  cases hk : d.resolve p with
  | none => simp [hk] at hr
  | some k =>
    rw [hk] at hr
    rw [resolve_mono h p k hk]
    exact hr

/-- Where a path opened for writing leads, the path resolves once a file is there. -/
theorem walkWith_of_createWith {d d' : Disk} (h : Extends d d')
    (f f' : List String → List String → Option (List String))
    (hf : ∀ c s r, f c s = some r → (∃ c0, d'.lookup r = some (.file c0)) →
      f' c s = some r) :
    ∀ (l cur r : List String), createWith d f cur l = some r →
      (∃ c0, d'.lookup r = some (.file c0)) → walkWith d' f' cur l = some r := by
  intro l
  induction l with
  | nil =>
    intro cur r hw _
    simpa [walkWith, createWith] using hw
  | cons s rest ih =>
    intro cur r hw hfile
    rw [createWith] at hw
    rw [walkWith]
    by_cases h1 : s = "" ∨ s = "."
    · rw [if_pos h1] at hw ⊢
      exact ih cur r hw hfile
    · rw [if_neg h1] at hw ⊢
      by_cases h2 : s = ".."
      · rw [if_pos h2] at hw ⊢
        exact ih _ r hw hfile
      · rw [if_neg h2] at hw ⊢
        cases hlk : d.lookup (cur ++ [s]) with
        | none =>
          rw [hlk] at hw
          simp only at hw
          by_cases hr : rest = []
          · simp only [hr, if_true, Option.some.injEq] at hw
            subst hw
            obtain ⟨c0, hc0⟩ := hfile
            rw [hc0]
            simp [hr]
          · simp [hr] at hw
        | some node =>
          rw [hlk] at hw
          cases node with
          | dir =>
            rw [h.dir hlk]
            exact ih _ r hw hfile
          | file content =>
            obtain ⟨c', hc'⟩ := h.file hlk
            rw [hc']
            exact hw
          | symlink target =>
            rw [h.symlink hlk]
            exact hf _ _ r hw hfile

theorem walk_of_create {d d' : Disk} (h : Extends d d') :
    ∀ (n : Nat) (cur l r : List String), create n d cur l = some r →
      (∃ c0, d'.lookup r = some (.file c0)) → walk n d' cur l = some r := by
  intro n
  induction n with
  | zero =>
    intro cur l r hw hfile
    exact walkWith_of_createWith h _ _ (fun _ _ _ h => by cases h) l cur r hw hfile
  | succ n ih =>
    intro cur l r hw hfile
    exact walkWith_of_createWith h _ _ (fun c s r h hf => ih c s r h hf) l cur r hw hfile

/-- After `fsPromises.writeFile(p, content)` has succeeded: the disk has kept its
entries, and `p` resolves to a file that holds `content`. -/
theorem writeFile_spec (d d' : Disk) (p content : String)
    (h : fsPromises.writeFile d p content = .ok d') :
    Extends d d' ∧ ∃ k, d'.resolve p = some k ∧ d'.lookup k = some (.file content) := by
  unfold fsPromises.writeFile at h
  cases hk : create maxLinks d [] (segs p) with
  | none => simp [hk] at h
  | some k =>
    rw [hk] at h
    simp only at h
    have hnil : k ≠ [] := by
      intro hk0
      subst hk0
      simp [Disk.lookup] at h
    have key : ∀ (hshape : ∀ n0, d.lookup k = some n0 → (Node.file content).shape = n0.shape),
        d.set k (.file content) = d' →
        Extends d d' ∧ ∃ k, d'.resolve p = some k ∧ d'.lookup k = some (.file content) := by
      intro hshape hd
      subst hd
      have hext := Extends.set d k (.file content) hnil hshape
      have hl : (d.set k (.file content)).lookup k = some (.file content) := by
        rw [Disk.lookup_set d k k _ hnil]; simp
      exact ⟨hext, k, walk_of_create hext maxLinks [] (segs p) k hk ⟨content, hl⟩, hl⟩
    cases hlk : d.lookup k with
    | none =>
      rw [hlk] at h
      simp only [Except.ok.injEq] at h
      exact key (fun n0 hn0 => by rw [hlk] at hn0; cases hn0) h
    | some node =>
      rw [hlk] at h
      cases node with
      | file c0 =>
        simp only [Except.ok.injEq] at h
        exact key (fun n0 hn0 => by rw [hlk] at hn0; cases hn0; rfl) h
      | dir => simp at h
      | symlink t => simp at h

/-- The end of a chain of directories from the root is a directory. -/
theorem chain_dir (d : Disk) (r : List String) (hc : Chain d [] r) :
    d.lookup r = some .dir := by
  have key : ∀ (a c : List String), d.lookup c = some .dir → Chain d c a →
      d.lookup (c ++ a) = some .dir := by
    intro a
    induction a with
    | nil => intro c hcd _; simpa using hcd
    | cons x rest ih =>
      intro c _ hca
      have := ih (c ++ [x]) hca.2.1 hca.2.2
      simpa using this
  simpa using key r [] (by simp [Disk.lookup]) hc

/-! ## Recursive `mkdir` -/

/-- One pass of recursive `mkdir` keeps the entries of the disk, and its path then
resolves to a directory reached from the root. -/
theorem mkdirWith_spec (f : Disk → Nat → List String → List String → Except String Disk)
    (G : Disk → List String → List String → Option (List String))
    (hf : ∀ d linked c s d', Chain d [] c → (∀ x ∈ s, '/' ∉ x.data) →
      f d linked c s = .ok d' → Extends d d' ∧ ∃ r, G d' c s = some r ∧ Chain d' [] r) :
    ∀ (l : List String) (d : Disk) (linked : Nat) (cur : List String) (d' : Disk),
      Chain d [] cur → (∀ x ∈ l, '/' ∉ x.data) → mkdirWith f d linked cur l = .ok d' →
      Extends d d' ∧ ∃ r, walkWith d' (G d') cur l = some r ∧ Chain d' [] r := by
  intro l
  induction l with
  | nil =>
    intro d linked cur d' hc _ h
    simp only [mkdirWith, Except.ok.injEq] at h
    subst h
    exact ⟨Extends.refl d, cur, by simp [walkWith], hc⟩
  | cons s rest ih =>
    intro d linked cur d' hc hl h
    have hrest : ∀ x ∈ rest, '/' ∉ x.data := fun x hx => hl x (List.mem_cons_of_mem _ hx)
    rw [mkdirWith] at h
    rw [walkWith]
    by_cases h1 : s = "" ∨ s = "."
    · rw [if_pos h1] at h ⊢
      exact ih d _ cur d' hc hrest h
    · rw [if_neg h1] at h ⊢
      by_cases h2 : s = ".."
      · rw [if_pos h2] at h ⊢
        exact ih d _ _ d' (Chain.dropLast cur [] hc) hrest h
      · rw [if_neg h2] at h ⊢
        have hs : validName s :=
          ⟨fun e => h1 (Or.inl e), fun e => h1 (Or.inr e), h2, hl s (List.mem_cons_self _ _)⟩
        cases hlk : d.lookup (cur ++ [s]) with
        | none =>
          rw [hlk] at h
          simp only at h
          by_cases hlinked : linked = 0
          · rw [if_pos hlinked] at h
            have hne : cur ++ [s] ≠ [] := by simp
            have hext1 : Extends d (d.set (cur ++ [s]) .dir) :=
              Extends.set d _ _ hne (fun n0 hn0 => by rw [hlk] at hn0; cases hn0)
            have hl1 : (d.set (cur ++ [s]) .dir).lookup (cur ++ [s]) = some .dir := by
              rw [Disk.lookup_set d _ _ _ hne]; simp
            have hc1 : Chain (d.set (cur ++ [s]) .dir) [] (cur ++ [s]) :=
              Chain.snoc s hs cur [] (Chain.extends hext1 cur [] hc) (by simpa using hl1)
            obtain ⟨hext2, r, hr, hcr⟩ := ih _ 0 _ d' hc1 hrest h
            refine ⟨hext1.trans hext2, r, ?_, hcr⟩
            rw [hext2.dir hl1]
            exact hr
          · rw [if_neg hlinked] at h
            cases h
        | some node =>
          rw [hlk] at h
          cases node with
          | dir =>
            simp only at h
            obtain ⟨hext, r, hr, hcr⟩ :=
              ih d _ _ d' (Chain.snoc s hs cur [] hc (by simpa using hlk)) hrest h
            refine ⟨hext, r, ?_, hcr⟩
            rw [hext.dir hlk]
            exact hr
          | file content => cases h
          | symlink target =>
            simp only at h
            have hbase : Chain d [] (linkBase cur target) := by
              unfold linkBase
              split
              · trivial
              · exact hc
            have hsl : ∀ x ∈ segs target ++ rest, '/' ∉ x.data := by
              intro x hx
              rcases List.mem_append.mp hx with hx | hx
              · exact segs_noslash target x hx
              · exact hrest x hx
            obtain ⟨hext, r, hr, hcr⟩ := hf d _ _ _ d' hbase hsl h
            refine ⟨hext, r, ?_, hcr⟩
            rw [hext.symlink hlk]
            exact hr

theorem mkdirLinks_spec :
    ∀ (n : Nat) (d : Disk) (linked : Nat) (cur l : List String) (d' : Disk),
      Chain d [] cur → (∀ x ∈ l, '/' ∉ x.data) → mkdirLinks n d linked cur l = .ok d' →
      Extends d d' ∧ ∃ r, walk n d' cur l = some r ∧ Chain d' [] r := by
  intro n
  induction n with
  | zero =>
    intro d linked cur l d' hc hl h
    exact mkdirWith_spec _ (fun _ _ _ => none) (fun _ _ _ _ _ _ _ h => by cases h)
      l d linked cur d' hc hl h
  | succ n ih =>
    intro d linked cur l d' hc hl h
    exact mkdirWith_spec _ (fun d' => walk n d')
      (fun d linked c s d' hc hs h => ih d linked c s d' hc hs h) l d linked cur d' hc hl h

/-- After `fsPromises.mkdir(p, recursive)` has succeeded: the disk has kept its
entries, and `p` resolves to a directory. -/
theorem mkdir_spec (d d' : Disk) (p : String) (h : fsPromises.mkdir d p = .ok d') :
    Extends d d' ∧ ∃ r, d'.resolve p = some r ∧ d'.lookup r = some .dir ∧ Real d' r := by
  obtain ⟨hext, r, hr, hc⟩ := mkdirLinks_spec maxLinks d 0 [] (segs p) d' trivial
    (segs_noslash p) h
  refine ⟨hext, r, hr, ?_, Or.inl hc⟩
  exact chain_dir d' r hc

/-- One pass of recursive `mkdir` on a path that resolves to a directory changes
nothing. -/
theorem mkdirWith_noop (d : Disk)
    (f : Disk → Nat → List String → List String → Except String Disk)
    (g : List String → List String → Option (List String))
    (hf : ∀ linked c s r, g c s = some r → d.lookup r = some .dir → f d linked c s = .ok d) :
    ∀ (l : List String) (linked : Nat) (cur r : List String),
      walkWith d g cur l = some r → d.lookup r = some .dir →
      mkdirWith f d linked cur l = .ok d := by
  intro l
  induction l with
  | nil =>
    intro linked cur r _ _
    simp [mkdirWith]
  | cons s rest ih =>
    intro linked cur r hw hdir
    rw [walkWith] at hw
    rw [mkdirWith]
    by_cases h1 : s = "" ∨ s = "."
    · rw [if_pos h1] at hw ⊢
      exact ih _ cur r hw hdir
    · rw [if_neg h1] at hw ⊢
      by_cases h2 : s = ".."
      · rw [if_pos h2] at hw ⊢
        exact ih _ _ r hw hdir
      · rw [if_neg h2] at hw ⊢
        cases hlk : d.lookup (cur ++ [s]) with
        | none => simp [hlk] at hw
        | some node =>
          rw [hlk] at hw
          cases node with
          | dir =>
            simp only at hw ⊢
            exact ih _ _ r hw hdir
          | file content =>
            simp only at hw
            by_cases hr : rest = []
            · simp only [hr, if_true, Option.some.injEq] at hw
              subst hw
              rw [hlk] at hdir
              cases hdir
            · simp [hr] at hw
          | symlink target =>
            simp only at hw ⊢
            exact hf _ _ _ r hw hdir

theorem mkdirLinks_noop (d : Disk) :
    ∀ (n linked : Nat) (cur l r : List String),
      walk n d cur l = some r → d.lookup r = some .dir →
      mkdirLinks n d linked cur l = .ok d := by
  intro n
  induction n with
  | zero =>
    intro linked cur l r hw hdir
    exact mkdirWith_noop d _ _ (fun _ _ _ _ h _ => by cases h) l linked cur r hw hdir
  | succ n ih =>
    intro linked cur l r hw hdir
    exact mkdirWith_noop d _ _ (fun linked c s r h hd => ih linked c s r h hd) l linked cur r
      hw hdir

/-- Recursive `mkdir` of a path that resolves to a directory succeeds and leaves the
disk as it is. -/
theorem mkdir_noop (d : Disk) (p : String) (r : List String)
    (hr : d.resolve p = some r) (hdir : d.lookup r = some .dir) :
    fsPromises.mkdir d p = .ok d :=
  mkdirLinks_noop d maxLinks 0 [] (segs p) r hr hdir

/-! ## The tools on a disk -/

/-- How `validatePath` has succeeded: on the real path, or on the absolute path after
the parent directory was accepted. -/
theorem validatePath_ok_cases (proc : Process) (fs : FileSystem) (p v : String)
    (h : (validatePath proc fs p).result = .ok v) :
    isAllowed proc (normalizePath (absoluteOf proc p)) = true ∧
      ((fs.realpath (absoluteOf proc p) = some v ∧ isAllowed proc (normalizePath v) = true) ∨
        (v = absoluteOf proc p ∧
          (∀ r, fs.realpath (absoluteOf proc p) = some r →
            isAllowed proc (normalizePath r) = false) ∧
          ∃ q, fs.realpath (path.dirname (absoluteOf proc p)) = some q ∧
            isAllowed proc (normalizePath q) = true)) := by
  unfold FsM.result at h
  cases h0 : isAllowed proc (normalizePath (absoluteOf proc p)) with
  | false =>
    rw [validatePath_outside proc fs p h0] at h
    simp at h
  | true =>
    refine ⟨rfl, ?_⟩
    by_cases hr : ∃ r, fs.realpath (absoluteOf proc p) = some r ∧
        isAllowed proc (normalizePath r) = true
    · obtain ⟨r, hr1, hr2⟩ := hr
      rw [validatePath_real proc fs p r h0 hr1 hr2] at h
      simp only [Except.ok.injEq] at h
      subst h
      exact Or.inl ⟨hr1, hr2⟩
    · have htry : ∀ r, fs.realpath (absoluteOf proc p) = some r →
          isAllowed proc (normalizePath r) = false := by
        intro r hr1
        cases hra : isAllowed proc (normalizePath r) with
        | false => rfl
        | true => exact absurd ⟨r, hr1, hra⟩ hr
      by_cases hq : ∃ q, fs.realpath (path.dirname (absoluteOf proc p)) = some q ∧
          isAllowed proc (normalizePath q) = true
      · obtain ⟨q, hq1, hq2⟩ := hq
        rw [validatePath_fallback_ok proc fs p q h0 htry hq1 hq2] at h
        simp only [Except.ok.injEq] at h
        exact Or.inr ⟨h.symm, htry, q, hq1, hq2⟩
      · have hpar : ∀ q, fs.realpath (path.dirname (absoluteOf proc p)) = some q →
            isAllowed proc (normalizePath q) = false := by
          intro q hq1
          cases hqa : isAllowed proc (normalizePath q) with
          | false => rfl
          | true => exact absurd ⟨q, hq1, hqa⟩ hq
        rw [validatePath_fallback_fail proc fs p h0 htry hpar] at h
        simp at h

/-- On the disk left by a storage operation that kept the entries, `validatePath`
accepts again a path it had accepted, and returns a path that resolves where the
path it had returned resolves. -/
theorem validatePath_again (proc : Process) (d d' : Disk) (p v : String) (k : List String)
    (hext : Extends d d') (hv : (validatePath proc d.view p).result = .ok v)
    (hk : d'.resolve v = some k) :
    ∃ v', (validatePath proc d'.view p).result = .ok v' ∧ d'.resolve v' = some k := by
  obtain ⟨h0, hcase⟩ := validatePath_ok_cases proc d.view p v hv
  rcases hcase with ⟨hr, hra⟩ | ⟨rfl, -, q, hq, hqa⟩
  · have hr' : d'.view.realpath (absoluteOf proc p) = some v :=
      realpath_mono hext _ _ hr
    exact ⟨v, by simp [FsM.result, validatePath_real proc d'.view p v h0 hr' hra], hk⟩
  · have hq' : d'.view.realpath (path.dirname (absoluteOf proc p)) = some q :=
      realpath_mono hext _ _ hq
    have hreal : d'.view.realpath (absoluteOf proc p) = some (render k) := by
      show fsPromises.realpath d' _ = _
      simp [fsPromises.realpath, hk]
    cases hra : isAllowed proc (normalizePath (render k)) with
    | true =>
      exact ⟨render k,
        by simp [FsM.result, validatePath_real proc d'.view p _ h0 hreal hra],
        resolve_render d' k (resolve_real d' _ k hk)⟩
    | false =>
      have htry : ∀ r, d'.view.realpath (absoluteOf proc p) = some r →
          isAllowed proc (normalizePath r) = false := by
        intro r hr
        rw [hreal] at hr
        cases hr
        exact hra
      exact ⟨absoluteOf proc p,
        by simp [FsM.result, validatePath_fallback_ok proc d'.view p q h0 htry hq' hqa], hk⟩

/-- C12: when `validatePath` rejects the path, each of `readFile`, `writeFile`,
`listDirectory` and `createDirectory` throws that rejection, hands no storage
operation to the filesystem, and leaves the disk as it was. -/
theorem rejected_tools_touch_nothing (proc : Process) (d : Disk) (path content e : String)
    (h : (validatePath proc d.view path).result = .error e) :
    (Tools.readFile proc d path = (.error e, d) ∧
        Tools.writeFile proc d path content = (.error e, d) ∧
        Tools.listDirectory proc d path = (.error e, d) ∧
        Tools.createDirectory proc d path = (.error e, d)) ∧
      ((readFile proc d.view path).result = .error e ∧
        (writeFile proc d.view path content).result = .error e ∧
        (listDirectory proc d.view path).result = .error e ∧
        (createDirectory proc d.view path).result = .error e) := by
  have hcall : ∀ f : String → StorageCall,
      (do let v ← validatePath proc d.view path; pure (f v) : FsM StorageCall).result =
        .error e := by
    intro f
    unfold FsM.result at h ⊢
    rw [FsM.outcome_map, h]
    rfl
  refine ⟨⟨?_, ?_, ?_, ?_⟩, hcall _, hcall _, hcall _, hcall _⟩
  · simp [Tools.readFile, h]
  · simp [Tools.writeFile, h]
  · simp [Tools.listDirectory, h]
  · simp [Tools.createDirectory, h]

/-- Witness of C12: with allowlist `/data`, the four tools on `/etc/passwd` throw the
outside-allowlist rejection and leave the disk as it was. -/
theorem rejected_tools_touch_nothing_witness :
    (Tools.readFile procData diskData "/etc/passwd" =
        (.error "Access denied - path outside allowed directories: /etc/passwd not in /data",
          diskData) ∧
      Tools.writeFile procData diskData "/etc/passwd" "x" =
        (.error "Access denied - path outside allowed directories: /etc/passwd not in /data",
          diskData) ∧
      Tools.listDirectory procData diskData "/etc/passwd" =
        (.error "Access denied - path outside allowed directories: /etc/passwd not in /data",
          diskData) ∧
      Tools.createDirectory procData diskData "/etc/passwd" =
        (.error "Access denied - path outside allowed directories: /etc/passwd not in /data",
          diskData)) :=
  (rejected_tools_touch_nothing procData diskData "/etc/passwd" "x" _ (by rfl)).1

/-- C13: when `writeFile(path, content)` has succeeded, `readFile(path)` on the disk
it left succeeds and returns exactly `content`. -/
theorem write_then_read (proc : Process) (d d' : Disk) (path content msg : String)
    (h : Tools.writeFile proc d path content = (.ok msg, d')) :
    Tools.readFile proc d' path = (.ok content, d') := by
  unfold Tools.writeFile at h
  cases hv : (validatePath proc d.view path).result with
  | error e => simp [hv] at h
  | ok v =>
    rw [hv] at h
    simp only at h
    cases hw : fsPromises.writeFile d v content with
    | error e => simp [hw] at h
    | ok d1 =>
      rw [hw] at h
      simp only [Prod.mk.injEq, Except.ok.injEq] at h
      obtain ⟨-, rfl⟩ := h
      obtain ⟨hext, k, hk, hfile⟩ := writeFile_spec d d1 v content hw
      obtain ⟨v', hv', hk'⟩ := validatePath_again proc d d1 path v k hext hv hk
      simp [Tools.readFile, hv', fsPromises.readFile, hk', hfile]

/-- Witness of C13: with allowlist `/data`, writing the new file `/data/notes.txt`
succeeds, and reading it back returns the text. -/
theorem write_then_read_witness :
    (Tools.writeFile procData diskData "/data/notes.txt" "hello").1 =
        .ok "File written successfully to: /data/notes.txt" ∧
      Tools.readFile procData (Tools.writeFile procData diskData "/data/notes.txt" "hello").2
          "/data/notes.txt" =
        (.ok "hello", (Tools.writeFile procData diskData "/data/notes.txt" "hello").2) :=
  ⟨by rfl, write_then_read procData diskData _ "/data/notes.txt" "hello" _ (by rfl)⟩

/-- C14: when `createDirectory(path)` has succeeded, a second `createDirectory(path)`
on the disk it left succeeds too and leaves that disk unchanged. -/
theorem createDirectory_twice (proc : Process) (d d' : Disk) (path msg : String)
    (h : Tools.createDirectory proc d path = (.ok msg, d')) :
    Tools.createDirectory proc d' path = (.ok msg, d') := by
  unfold Tools.createDirectory at h
  cases hv : (validatePath proc d.view path).result with
  | error e => simp [hv] at h
  | ok v =>
    rw [hv] at h
    simp only at h
    cases hw : fsPromises.mkdir d v with
    | error e => simp [hw] at h
    | ok d1 =>
      rw [hw] at h
      simp only [Prod.mk.injEq, Except.ok.injEq] at h
      obtain ⟨rfl, rfl⟩ := h
      obtain ⟨hext, k, hk, hdir, -⟩ := mkdir_spec d d1 v hw
      obtain ⟨v', hv', hk'⟩ := validatePath_again proc d d1 path v k hext hv hk
      simp [Tools.createDirectory, hv', mkdir_noop d1 v' k hk' hdir]

/-- Witness of C14: with allowlist `/data`, creating `/data/new` succeeds, and
creating it again succeeds and leaves the disk unchanged. -/
theorem createDirectory_twice_witness :
    (Tools.createDirectory procData diskData "/data/new").1 =
        .ok "Directory created: /data/new" ∧
      Tools.createDirectory procData (Tools.createDirectory procData diskData "/data/new").2
          "/data/new" =
        (.ok "Directory created: /data/new",
          (Tools.createDirectory procData diskData "/data/new").2) :=
  ⟨by rfl, createDirectory_twice procData diskData _ "/data/new" _ (by rfl)⟩

/-- One pass of recursive `mkdir` on names that lead to a directory, then one name
without entry: that directory is created, and nothing else. -/
theorem mkdirWith_creates (d : Disk) (name : String) (hname : validName name)
    (f : Disk → Nat → List String → List String → Except String Disk)
    (g : List String → List String → Option (List String))
    (hf : ∀ linked c s k, linked ≤ s.length → g c s = some k → d.lookup k = some .dir →
      d.lookup (k ++ [name]) = none →
      f d linked c (s ++ [name]) = .ok (d.set (k ++ [name]) .dir)) :
    ∀ (front : List String) (linked : Nat) (cur k : List String),
      linked ≤ front.length → walkWith d g cur front = some k → d.lookup k = some .dir →
      d.lookup (k ++ [name]) = none →
      mkdirWith f d linked cur (front ++ [name]) = .ok (d.set (k ++ [name]) .dir) := by
  obtain ⟨hn1, hn2, hn3, -⟩ := hname
  have hnx : ¬ (name = "" ∨ name = ".") := fun h => h.elim hn1 hn2
  intro front
  induction front with
  | nil =>
    intro linked cur k hlinked hw _ hnew
    simp only [walkWith, Option.some.injEq] at hw
    subst hw
    have h0 : linked = 0 := by simpa using hlinked
    subst h0
    simp only [List.nil_append]
    rw [mkdirWith, if_neg hnx, if_neg hn3, hnew]
    simp [mkdirWith]
  | cons s rest ih =>
    intro linked cur k hlinked hw hdir hnew
    have hl1 : linked - 1 ≤ rest.length := by
      simp only [List.length_cons] at hlinked
      omega
    rw [walkWith] at hw
    simp only [List.cons_append]
    rw [mkdirWith]
    by_cases h1 : s = "" ∨ s = "."
    · rw [if_pos h1] at hw ⊢
      exact ih _ cur k hl1 hw hdir hnew
    · rw [if_neg h1] at hw ⊢
      by_cases h2 : s = ".."
      · rw [if_pos h2] at hw ⊢
        exact ih _ _ k hl1 hw hdir hnew
      · rw [if_neg h2] at hw ⊢
        cases hlk : d.lookup (cur ++ [s]) with
        | none => simp [hlk] at hw
        | some node =>
          rw [hlk] at hw
          cases node with
          | dir =>
            simp only at hw ⊢
            exact ih _ _ k hl1 hw hdir hnew
          | file content =>
            simp only at hw
            by_cases hr : rest = []
            · simp only [hr, if_true, Option.some.injEq] at hw
              subst hw
              rw [hlk] at hdir
              cases hdir
            · simp [hr] at hw
          | symlink target =>
            simp only at hw ⊢
            have := hf ((segs target).length + (linked - 1)) _ _ k
              (by simp only [List.length_append]; omega) hw hdir hnew
            simpa using this

theorem mkdirLinks_creates (d : Disk) (name : String) (hname : validName name) :
    ∀ (n : Nat) (front : List String) (linked : Nat) (cur k : List String),
      linked ≤ front.length → walk n d cur front = some k → d.lookup k = some .dir →
      d.lookup (k ++ [name]) = none →
      mkdirLinks n d linked cur (front ++ [name]) = .ok (d.set (k ++ [name]) .dir) := by
  intro n
  induction n with
  | zero =>
    intro front linked cur k hl hw hdir hnew
    exact mkdirWith_creates d name hname _ _ (fun _ _ _ _ _ h _ _ => by cases h)
      front linked cur k hl hw hdir hnew
  | succ n ih =>
    intro front linked cur k hl hw hdir hnew
    exact mkdirWith_creates d name hname _ _
      (fun linked c s k hl h hd hn => ih s linked c k hl h hd hn) front linked cur k hl hw
      hdir hnew

/-- Names that lead to a directory, then one name without entry: the path does not
resolve. -/
theorem walkWith_missing (d : Disk) (name : String) (hname : validName name)
    (g : List String → List String → Option (List String))
    (hg : ∀ c s k, g c s = some k → d.lookup k = some .dir →
      d.lookup (k ++ [name]) = none → g c (s ++ [name]) = none) :
    ∀ (front cur k : List String),
      walkWith d g cur front = some k → d.lookup k = some .dir →
      d.lookup (k ++ [name]) = none → walkWith d g cur (front ++ [name]) = none := by
  obtain ⟨hn1, hn2, hn3, -⟩ := hname
  have hnx : ¬ (name = "" ∨ name = ".") := fun h => h.elim hn1 hn2
  intro front
  induction front with
  | nil =>
    intro cur k hw _ hnew
    simp only [walkWith, Option.some.injEq] at hw
    subst hw
    simp only [List.nil_append]
    rw [walkWith, if_neg hnx, if_neg hn3, hnew]
  | cons s rest ih =>
    intro cur k hw hdir hnew
    rw [walkWith] at hw
    simp only [List.cons_append]
    rw [walkWith]
    by_cases h1 : s = "" ∨ s = "."
    · rw [if_pos h1] at hw ⊢
      exact ih cur k hw hdir hnew
    · rw [if_neg h1] at hw ⊢
      by_cases h2 : s = ".."
      · rw [if_pos h2] at hw ⊢
        exact ih _ k hw hdir hnew
      · rw [if_neg h2] at hw ⊢
        cases hlk : d.lookup (cur ++ [s]) with
        | none => simp [hlk] at hw
        | some node =>
          rw [hlk] at hw
          cases node with
          | dir =>
            simp only at hw ⊢
            exact ih _ k hw hdir hnew
          | file content =>
            simp only at hw ⊢
            by_cases hr : rest = []
            · simp only [hr, if_true, Option.some.injEq] at hw
              subst hw
              rw [hlk] at hdir
              cases hdir
            · simp [hr] at hw
          | symlink target =>
            simp only at hw ⊢
            have := hg _ _ k hw hdir hnew
            simpa using this

theorem walk_missing (d : Disk) (name : String) (hname : validName name) :
    ∀ (n : Nat) (front cur k : List String),
      walk n d cur front = some k → d.lookup k = some .dir →
      d.lookup (k ++ [name]) = none → walk n d cur (front ++ [name]) = none := by
  intro n
  induction n with
  | zero =>
    intro front cur k hw hdir hnew
    exact walkWith_missing d name hname _ (fun _ _ _ h _ _ => by cases h) front cur k hw
      hdir hnew
  | succ n ih =>
    intro front cur k hw hdir hnew
    exact walkWith_missing d name hname _ (fun c s k h hd hn => ih s c k h hd hn) front cur k
      hw hdir hnew

/-- C15, as amended: for a path whose normalised absolute form starts with an
allowed root, whose names but the last lead to an existing directory where the last
name has no entry yet, and whose parent directory resolves to a real path that
starts with an allowed root, `createDirectory` succeeds and creates that one
directory: afterwards the path resolves to a directory and every entry the disk had
is still there. -/
theorem createDirectory_in_existing_parent (proc : Process) (d : Disk)
    (requestedPath name q : String) (front k : List String)
    (hreq : ∃ dir ∈ proc.allowedDirectories,
      startsWith (normalizePath (absoluteOf proc requestedPath)) dir = true)
    (hsegs : segs (absoluteOf proc requestedPath) = front ++ [name]) (hname : validName name)
    (hk : walk maxLinks d [] front = some k) (hdir : d.lookup k = some .dir)
    (hnew : d.lookup (k ++ [name]) = none)
    (hq : fsPromises.realpath d (path.dirname (absoluteOf proc requestedPath)) = some q)
    (hqa : ∃ dir ∈ proc.allowedDirectories, startsWith (normalizePath q) dir = true) :
    Tools.createDirectory proc d requestedPath =
        (.ok ("Directory created: " ++ requestedPath), d.set (k ++ [name]) .dir) ∧
      (d.set (k ++ [name]) .dir).lookup (k ++ [name]) = some .dir ∧
      (∃ r, (d.set (k ++ [name]) .dir).resolve (absoluteOf proc requestedPath) = some r ∧
        (d.set (k ++ [name]) .dir).lookup r = some .dir) ∧
      Extends d (d.set (k ++ [name]) .dir) := by
  have h0 := (isAllowed_true_iff proc _).mpr hreq
  have h1 := (isAllowed_true_iff proc _).mpr hqa
  have hnone : d.view.realpath (absoluteOf proc requestedPath) = none := by
    show fsPromises.realpath d _ = none
    unfold fsPromises.realpath Disk.resolve
    rw [hsegs, walk_missing d name hname maxLinks front [] k hk hdir hnew]
    rfl
  have htry : ∀ r, d.view.realpath (absoluteOf proc requestedPath) = some r →
      isAllowed proc (normalizePath r) = false := by
    intro r hr
    rw [hnone] at hr
    cases hr
  have hv : (validatePath proc d.view requestedPath).result = .ok (absoluteOf proc requestedPath) := by
    simp [FsM.result, validatePath_fallback_ok proc d.view requestedPath q h0 htry hq h1]
  have hmk : fsPromises.mkdir d (absoluteOf proc requestedPath) = .ok (d.set (k ++ [name]) .dir) := by
    unfold fsPromises.mkdir
    rw [hsegs]
    exact mkdirLinks_creates d name hname maxLinks front 0 [] k (Nat.zero_le _) hk hdir hnew
  obtain ⟨hext, r, hr, hrdir, -⟩ := mkdir_spec d _ _ hmk
  refine ⟨by simp [Tools.createDirectory, hv, hmk], ?_, ⟨r, hr, hrdir⟩, hext⟩
  rw [Disk.lookup_set d _ _ _ (by simp)]
  simp

/-- Witness of C15, as amended: with allowlist `/data`, `createDirectory` creates
`/data/new`, whose parent `/data` exists. -/
theorem createDirectory_in_existing_parent_witness :
    Tools.createDirectory procData diskData "/data/new" =
        (.ok ("Directory created: " ++ "/data/new"), diskData.set (["data"] ++ ["new"]) .dir) ∧
      (diskData.set (["data"] ++ ["new"]) .dir).lookup (["data"] ++ ["new"]) = some .dir ∧
      (∃ r, (diskData.set (["data"] ++ ["new"]) .dir).resolve
            (absoluteOf procData "/data/new") = some r ∧
        (diskData.set (["data"] ++ ["new"]) .dir).lookup r = some .dir) ∧
      Extends diskData (diskData.set (["data"] ++ ["new"]) .dir) :=
  createDirectory_in_existing_parent procData diskData "/data/new" "new" "/data"
    ["", "data"] ["data"] ⟨"/data", by decide, by decide⟩ (by decide)
    ⟨by decide, by decide, by decide, by decide⟩ (by decide) (by decide) (by decide)
    (by decide) ⟨"/data", by decide, by decide⟩

/-- C15, as stated, fails: with allowlist `/data`, the path `/data/x/y/z` lies under
the allowed root and its ancestor `/data/x` is missing; `createDirectory` throws
`Parent directory does not exist: /data/x/y` and creates nothing, although the
recursive `mkdir` it would have run creates the three directories. -/
theorem createDirectory_missing_ancestors_rejected :
    startsWith (normalizePath (absoluteOf procData "/data/x/y/z")) "/data" = true ∧
    diskData.resolve "/data/x" = none ∧
    Tools.createDirectory procData diskData "/data/x/y/z" =
      (.error "Parent directory does not exist: /data/x/y", diskData) ∧
    (∃ d', fsPromises.mkdir diskData "/data/x/y/z" = .ok d' ∧
      d'.lookup ["data", "x", "y", "z"] = some .dir) :=
  ⟨by decide, by decide, by rfl, _, by rfl, by decide⟩

/-! ## `listDirectory` -/

/-- A list is a location and one more name when the name is its last element and the
location what comes before. -/
theorem dropLast_getLast_iff (l k : List String) (x : String) :
    (l.dropLast = k ∧ l.getLast? = some x) ↔ l = k ++ [x] := by
  constructor
  · rintro ⟨rfl, h⟩
    exact (List.dropLast_append_getLast? x h).symm
  · rintro rfl
    simp

/-- The entries `readdir` yields for a directory are its immediate children: one for
each entry of the disk that lies one name below the directory. -/
theorem mem_children (d : Disk) (k : List String) (entry : Dirent) :
    entry ∈ d.children k ↔
      ∃ node, (k ++ [entry.name], node) ∈ d.entries ∧
        entry.isDirectory = decide (node = .dir) := by
  unfold Disk.children
  simp only [List.mem_filterMap]
  constructor
  · rintro ⟨⟨key, node⟩, hmem, h⟩
    by_cases hk : key.dropLast = k
    · simp only [hk, if_true, Option.map_eq_some'] at h
      obtain ⟨name, hlast, rfl⟩ := h
      have := (dropLast_getLast_iff key k name).mp ⟨hk, hlast⟩
      subst this
      exact ⟨node, hmem, rfl⟩
    · simp [hk] at h
  · rintro ⟨node, hmem, hdir⟩
    refine ⟨(k ++ [entry.name], node), hmem, ?_⟩
    obtain ⟨name, isDir⟩ := entry
    simp only at hdir
    subst hdir
    simp

/-- C16: for a directory that `validatePath` accepts, `listDirectory` returns one
line per entry that `readdir` yields, in that order, `[DIR] <name>` for a directory
and `[FILE] <name>` otherwise, joined by newlines; these entries are the immediate
children of the directory, one for each entry of the disk one name below it. -/
theorem listDirectory_lines (proc : Process) (d : Disk) (path validPath : String)
    (k : List String)
    (hv : (validatePath proc d.view path).result = .ok validPath)
    (hk : d.resolve validPath = some k) (hdir : d.lookup k = some .dir) :
    Tools.listDirectory proc d path =
        (.ok (joinWith "\n" ((d.children k).map
          (fun entry => (if entry.isDirectory then "[DIR]" else "[FILE]") ++ " " ++
            entry.name))), d) ∧
      (∀ entry, entry ∈ d.children k ↔
        ∃ node, (k ++ [entry.name], node) ∈ d.entries ∧
          entry.isDirectory = decide (node = .dir)) := by
  refine ⟨?_, mem_children d k⟩
  simp only [Tools.listDirectory, hv, fsPromises.readdir, hk, hdir]
  rfl

/-- Witness of C16: with allowlist `/data`, the directory `/data` that holds `a.txt`
and the directory `b` (which holds `c.txt`) is listed as the two lines
`[FILE] a.txt` and `[DIR] b`. -/
theorem listDirectory_lines_witness :
    Tools.listDirectory procData diskData "/data" = (.ok "[FILE] a.txt\n[DIR] b", diskData) :=
  (listDirectory_lines procData diskData "/data" "/data" ["data"] (by rfl) (by decide)
    (by decide)).1

/-! ## The models of `path.relative` and `minimatch` on the patterns of the scenarios -/

theorem minimatch_examples :
    minimatch "a.txt" "*.txt" { nocase := true } = true ∧
    minimatch "A.TXT" "*.txt" { nocase := true } = true ∧
    minimatch ".hidden.txt" "*.txt" { nocase := true } = false ∧
    minimatch "a.txt.bak" "*.txt" { nocase := true } = false ∧
    minimatch "node_modules" "**/node_modules/**" { dot := true } = false ∧
    minimatch "node_modules/x.txt" "**/node_modules/**" { dot := true } = true ∧
    minimatch "a/.b/node_modules/x/y.txt" "**/node_modules/**" { dot := true } = true ∧
    minimatch "a/b/x.txt" "**/node_modules/**" { dot := true } = false ∧
    minimatch "a" "a/**" {} = false ∧
    minimatch "a/b/c" "a/*" {} = false := by decide

theorem relative_examples :
    path.relative "/srv" "/data" "/data/a/b.txt" = "a/b.txt" ∧
    path.relative "/srv" "/data/x" "/data/a/b.txt" = "../a/b.txt" ∧
    path.relative "/srv" "/" "/data" = "data" ∧
    path.relative "/srv" "/data/" "/data" = "" := by decide

/-! ## The state of a search only grows -/

theorem SearchState.append_assoc (a b c : SearchState) :
    (a.append b).append c = a.append (b.append c) := by
  simp [SearchState.append, List.append_assoc]

theorem SearchState.empty_append (a : SearchState) : SearchState.empty.append a = a := by
  simp [SearchState.append, SearchState.empty]

theorem SearchState.append_empty (a : SearchState) : a.append SearchState.empty = a := by
  simp [SearchState.append, SearchState.empty]

/-- The loop of `search` adds to the state it is given what it adds to the empty
state. -/
theorem searchEntries_shift (w : SearchWorld) (rootPath pattern : String)
    (excludePatterns : List String)
    (recur : String → SearchState → Option (Except String Unit × SearchState))
    (hrec : ∀ p st, recur p st =
      (recur p SearchState.empty).map (fun out => (out.1, st.append out.2)))
    (currentPath : String) :
    ∀ (entries : List Dirent) (st : SearchState),
      searchEntries w rootPath pattern excludePatterns recur currentPath entries st =
        (searchEntries w rootPath pattern excludePatterns recur currentPath entries
          SearchState.empty).map (fun more => st.append more) := by
  intro entries
  induction entries with
  | nil =>
    intro st
    simp [searchEntries, SearchState.append_empty]
  | cons entry rest ih =>
    intro st
    have step : ∀ (more : SearchState),
        searchEntries w rootPath pattern excludePatterns recur currentPath rest
            (st.append more) =
          (searchEntries w rootPath pattern excludePatterns recur currentPath rest more).map
            (fun x => st.append x) := by
      intro more
      rw [ih (st.append more), ih more, Option.map_map]
      congr 1
      funext x
      simp [SearchState.append_assoc]
    have step0 := step SearchState.empty
    rw [SearchState.append_empty] at step0
    rw [searchEntries, searchEntries]
    cases hv : (validatePath w.proc w.fs (path.join [currentPath, entry.name])).result with
    | error e => exact step0
    | ok v =>
      simp only
      by_cases hex : shouldExclude w excludePatterns
          (path.relative w.proc.cwd rootPath (path.join [currentPath, entry.name])) = true
      · rw [if_pos hex, if_pos hex]
        exact step0
      · rw [if_neg hex, if_neg hex]
        have key : ∀ (more : SearchState),
            (if entry.isDirectory = true then
              match recur (path.join [currentPath, entry.name]) (st.append more) with
              | none => none
              | some (_, st2) =>
                searchEntries w rootPath pattern excludePatterns recur currentPath rest st2
            else searchEntries w rootPath pattern excludePatterns recur currentPath rest
              (st.append more)) =
            (if entry.isDirectory = true then
              match recur (path.join [currentPath, entry.name]) more with
              | none => none
              | some (_, st2) =>
                searchEntries w rootPath pattern excludePatterns recur currentPath rest st2
            else searchEntries w rootPath pattern excludePatterns recur currentPath rest
              more).map (fun x => st.append x) := by
          intro more
          by_cases hd : entry.isDirectory = true
          · rw [if_pos hd, if_pos hd]
            rw [hrec _ (st.append more), hrec _ more]
            cases hr : recur (path.join [currentPath, entry.name]) SearchState.empty with
            | none => rfl
            | some out =>
              simp only [Option.map_some']
              rw [SearchState.append_assoc]
              exact step _
          · rw [if_neg hd, if_neg hd]
            exact step more
        by_cases hm : w.minimatch entry.name pattern { nocase := true } = true
        · simp only [hm, if_true]
          have := key ⟨[path.join [currentPath, entry.name]], []⟩
          simpa [SearchState.append, SearchState.empty] using this
        · simp only [hm]
          have := key SearchState.empty
          rw [SearchState.append_empty] at this
          simpa using this

/-- `search` adds to the state it is given what it adds to the empty state. -/
theorem search_shift (w : SearchWorld) (rootPath pattern : String)
    (excludePatterns : List String) :
    ∀ (fuel : Nat) (currentPath : String) (st : SearchState),
      search w rootPath pattern excludePatterns fuel currentPath st =
        (search w rootPath pattern excludePatterns fuel currentPath SearchState.empty).map
          (fun out => (out.1, st.append out.2)) := by
  intro fuel
  induction fuel with
  | zero => intro currentPath st; rfl
  | succ fuel ih =>
    intro currentPath st
    rw [search, search]
    cases hr : w.readdir currentPath with
    | error e =>
      simp [SearchState.append, SearchState.empty]
    | ok entries =>
      simp only
      rw [searchEntries_shift w rootPath pattern excludePatterns _ ih currentPath entries
        { st with listed := st.listed ++ [currentPath] }]
      rw [searchEntries_shift w rootPath pattern excludePatterns _ ih currentPath entries
        { SearchState.empty with listed := SearchState.empty.listed ++ [currentPath] }]
      simp only [Option.map_map]
      congr 1
      funext x
      simp [SearchState.append, SearchState.empty]

/-! ## Enough nested calls -/

/-- The loop of `search` goes through all its entries when the recursive call returns
on every directory among them. -/
theorem searchEntries_total (w : SearchWorld) (rootPath pattern : String)
    (excludePatterns : List String)
    (recur : String → SearchState → Option (Except String Unit × SearchState))
    (currentPath : String) :
    ∀ (entries : List Dirent),
      (∀ entry ∈ entries, entry.isDirectory = true →
        ∀ st, ∃ out, recur (path.join [currentPath, entry.name]) st = some out) →
      ∀ st, ∃ st', searchEntries w rootPath pattern excludePatterns recur currentPath entries st =
        some st' := by
  intro entries
  induction entries with
  | nil => intro _ st; exact ⟨st, rfl⟩
  | cons entry rest ih =>
    intro hrec st
    have ih' := ih (fun e he => hrec e (List.mem_cons_of_mem _ he))
    rw [searchEntries]
    cases hv : (validatePath w.proc w.fs (path.join [currentPath, entry.name])).result with
    | error e => exact ih' st
    | ok v =>
      simp only
      split
      · exact ih' st
      · split
        · rename_i hd
          obtain ⟨out, hout⟩ := hrec entry (List.mem_cons_self _ _) hd
            (if w.minimatch entry.name pattern { nocase := true } = true then
              { st with results := st.results ++ [path.join [currentPath, entry.name]] }
            else st)
          rw [hout]
          exact ih' _
        · exact ih' _

/-- With as many nested calls as the directories nest, `search` returns or throws:
it is not cut short. -/
theorem search_total (w : SearchWorld) (rootPath pattern : String)
    (excludePatterns : List String) :
    ∀ (fuel : Nat) (currentPath : String), shallow w.readdir fuel currentPath = true →
      ∀ st, ∃ out, search w rootPath pattern excludePatterns fuel currentPath st = some out := by
  intro fuel
  induction fuel with
  | zero => intro currentPath h; simp [shallow] at h
  | succ fuel ih =>
    intro currentPath h st
    rw [search]
    rw [shallow] at h
    cases hr : w.readdir currentPath with
    | error e => exact ⟨_, rfl⟩
    | ok entries =>
      rw [hr] at h
      simp only [List.all_eq_true, Bool.or_eq_true, Bool.not_eq_true'] at h
      obtain ⟨st', hst'⟩ := searchEntries_total w rootPath pattern excludePatterns
        (search w rootPath pattern excludePatterns fuel) currentPath entries
        (fun entry he hd st => ih _ ((h entry he).resolve_left (by simp [hd])) st)
        { st with listed := st.listed ++ [currentPath] }
      simp only [hst', Option.map_some']
      exact ⟨_, rfl⟩

/-- The loop of `search` gives the same state with a recursive call that returns
more often. -/
theorem searchEntries_mono (w : SearchWorld) (rootPath pattern : String)
    (excludePatterns : List String)
    (recur recur' : String → SearchState → Option (Except String Unit × SearchState))
    (hrec : ∀ p st out, recur p st = some out → recur' p st = some out)
    (currentPath : String) :
    ∀ (entries : List Dirent) (st st' : SearchState),
      searchEntries w rootPath pattern excludePatterns recur currentPath entries st = some st' →
      searchEntries w rootPath pattern excludePatterns recur' currentPath entries st =
        some st' := by
  intro entries
  induction entries with
  | nil => intro st st' h; simpa [searchEntries] using h
  | cons entry rest ih =>
    intro st st' h
    rw [searchEntries] at h ⊢
    cases hv : (validatePath w.proc w.fs (path.join [currentPath, entry.name])).result with
    | error e =>
      rw [hv] at h
      exact ih _ _ h
    | ok v =>
      rw [hv] at h
      simp only at h ⊢
      split
      · rename_i hex
        rw [if_pos hex] at h
        exact ih _ _ h
      · rename_i hex
        rw [if_neg hex] at h
        split
        · rename_i hd
          rw [if_pos hd] at h
          cases hr : recur (path.join [currentPath, entry.name])
              (if w.minimatch entry.name pattern { nocase := true } = true then
                { st with results := st.results ++ [path.join [currentPath, entry.name]] }
              else st) with
          | none => simp [hr] at h
          | some out =>
            rw [hr] at h
            rw [hrec _ _ out hr]
            exact ih _ _ h
        · rename_i hd
          rw [if_neg hd] at h
          exact ih _ _ h

/-- More nested calls do not change what `search` returns. -/
theorem search_fuel_mono (w : SearchWorld) (rootPath pattern : String)
    (excludePatterns : List String) :
    ∀ (fuel extra : Nat) (currentPath : String) (st : SearchState)
      (out : Except String Unit × SearchState),
      search w rootPath pattern excludePatterns fuel currentPath st = some out →
      search w rootPath pattern excludePatterns (fuel + extra) currentPath st = some out := by
  intro fuel
  induction fuel with
  | zero => intro extra currentPath st out h; simp [search] at h
  | succ fuel ih =>
    intro extra currentPath st out h
    rw [show fuel + 1 + extra = (fuel + extra) + 1 by omega]
    rw [search] at h ⊢
    cases hr : w.readdir currentPath with
    | error e =>
      rw [hr] at h
      exact h
    | ok entries =>
      rw [hr] at h
      simp only at h ⊢
      cases hs : searchEntries w rootPath pattern excludePatterns
          (search w rootPath pattern excludePatterns fuel) currentPath entries
          { st with listed := st.listed ++ [currentPath] } with
      | none => simp [hs] at h
      | some st' =>
        rw [hs] at h
        rw [searchEntries_mono w rootPath pattern excludePatterns _ _
          (fun p st out h => ih extra p st out h) currentPath entries _ st' hs]
        exact h

/-! ## Every result and every directory listed has been validated -/

/-- The loop of `search` keeps: every result, and every directory listed apart the
root, is a path that `validatePath` accepts. -/
theorem searchEntries_validated (w : SearchWorld) (rootPath pattern : String)
    (excludePatterns : List String)
    (recur : String → SearchState → Option (Except String Unit × SearchState))
    (inv : SearchState → Prop)
    (hpush : ∀ st p, inv st → (∃ v, (validatePath w.proc w.fs p).result = .ok v) →
      inv { st with results := st.results ++ [p] })
    (hrec : ∀ p st out, (∃ v, (validatePath w.proc w.fs p).result = .ok v) → inv st →
      recur p st = some out → inv out.2)
    (currentPath : String) :
    ∀ (entries : List Dirent) (st st' : SearchState), inv st →
      searchEntries w rootPath pattern excludePatterns recur currentPath entries st = some st' →
      inv st' := by
  intro entries
  induction entries with
  | nil =>
    intro st st' hinv h
    simp only [searchEntries, Option.some.injEq] at h
    subst h
    exact hinv
  | cons entry rest ih =>
    intro st st' hinv h
    rw [searchEntries] at h
    cases hv : (validatePath w.proc w.fs (path.join [currentPath, entry.name])).result with
    | error e =>
      rw [hv] at h
      exact ih _ _ hinv h
    | ok v =>
      rw [hv] at h
      simp only at h
      by_cases hex : shouldExclude w excludePatterns
          (path.relative w.proc.cwd rootPath (path.join [currentPath, entry.name])) = true
      · rw [if_pos hex] at h
        exact ih _ _ hinv h
      · rw [if_neg hex] at h
        have hinv1 : inv (if w.minimatch entry.name pattern { nocase := true } = true then
            { st with results := st.results ++ [path.join [currentPath, entry.name]] }
          else st) := by
          split
          · exact hpush st _ hinv ⟨v, hv⟩
          · exact hinv
        by_cases hd : entry.isDirectory = true
        · rw [if_pos hd] at h
          cases hr : recur (path.join [currentPath, entry.name])
              (if w.minimatch entry.name pattern { nocase := true } = true then
                { st with results := st.results ++ [path.join [currentPath, entry.name]] }
              else st) with
          | none => simp [hr] at h
          | some out =>
            rw [hr] at h
            exact ih _ _ (hrec _ _ out ⟨v, hv⟩ hinv1 hr) h
        · rw [if_neg hd] at h
          exact ih _ _ hinv1 h

/-- What `search` keeps, from a directory that is the root or has been validated. -/
theorem search_validated (w : SearchWorld) (rootPath pattern : String)
    (excludePatterns : List String) :
    ∀ (fuel : Nat) (currentPath : String) (st : SearchState)
      (out : Except String Unit × SearchState),
      (currentPath = rootPath ∨ ∃ v, (validatePath w.proc w.fs currentPath).result = .ok v) →
      ((∀ p ∈ st.results, ∃ v, (validatePath w.proc w.fs p).result = .ok v) ∧
        (∀ p ∈ st.listed, p = rootPath ∨ ∃ v, (validatePath w.proc w.fs p).result = .ok v)) →
      search w rootPath pattern excludePatterns fuel currentPath st = some out →
      ((∀ p ∈ out.2.results, ∃ v, (validatePath w.proc w.fs p).result = .ok v) ∧
        (∀ p ∈ out.2.listed, p = rootPath ∨
          ∃ v, (validatePath w.proc w.fs p).result = .ok v)) := by
  intro fuel
  induction fuel with
  | zero => intro currentPath st out _ _ h; simp [search] at h
  | succ fuel ih =>
    intro currentPath st out hcur hinv h
    rw [search] at h
    have hinv0 : (∀ p ∈ st.results, ∃ v, (validatePath w.proc w.fs p).result = .ok v) ∧
        (∀ p ∈ st.listed ++ [currentPath], p = rootPath ∨
          ∃ v, (validatePath w.proc w.fs p).result = .ok v) := by
      refine ⟨hinv.1, ?_⟩
      intro p hp
      rcases List.mem_append.mp hp with hp | hp
      · exact hinv.2 p hp
      · simp only [List.mem_singleton] at hp
        subst hp
        exact hcur
    cases hr : w.readdir currentPath with
    | error e =>
      rw [hr] at h
      simp only [Option.some.injEq] at h
      subst h
      exact hinv0
    | ok entries =>
      rw [hr] at h
      simp only at h
      cases hs : searchEntries w rootPath pattern excludePatterns
          (search w rootPath pattern excludePatterns fuel) currentPath entries
          { st with listed := st.listed ++ [currentPath] } with
      | none => simp [hs] at h
      | some st' =>
        rw [hs] at h
        simp only [Option.map_some', Option.some.injEq] at h
        subst h
        refine searchEntries_validated w rootPath pattern excludePatterns _
          (fun st => (∀ p ∈ st.results, ∃ v, (validatePath w.proc w.fs p).result = .ok v) ∧
            (∀ p ∈ st.listed, p = rootPath ∨
              ∃ v, (validatePath w.proc w.fs p).result = .ok v))
          ?_ ?_ currentPath entries { st with listed := st.listed ++ [currentPath] } st'
          hinv0 hs
        · intro st p hst hp
          refine ⟨?_, hst.2⟩
          intro p' hp'
          rcases List.mem_append.mp hp' with hp' | hp'
          · exact hst.1 p' hp'
          · simp only [List.mem_singleton] at hp'
            subst hp'
            exact hp
        · intro p st out hp hst hout
          exact ih p st out (Or.inr hp) hst hout

/-- C19: in a run of `search` from the root, every path added to the result, and
every directory handed to `readdir` apart the root itself, is a path that
`validatePath` accepts as such: the loop validates the full path of each entry
before it records or lists it, whatever its parent directory was. -/
theorem search_validates_each_path (w : SearchWorld) (rootPath pattern : String)
    (excludePatterns : List String) (fuel : Nat) (out : Except String Unit × SearchState)
    (h : search w rootPath pattern excludePatterns fuel rootPath SearchState.empty = some out) :
    (∀ p ∈ out.2.results, ∃ v, (validatePath w.proc w.fs p).result = .ok v) ∧
      (∀ p ∈ out.2.listed, p = rootPath ∨
        ∃ v, (validatePath w.proc w.fs p).result = .ok v) :=
  search_validated w rootPath pattern excludePatterns fuel rootPath SearchState.empty out
    (Or.inl rfl) ⟨by simp [SearchState.empty], by simp [SearchState.empty]⟩ h

/-- Witness of C19: with allowlist `/data/docs` only, the search of `/data` records
`/data/docs/guide.txt` and lists `/data` and `/data/docs`; the entries of `/data`
that `validatePath` rejects are neither recorded nor listed. -/
theorem search_validates_each_path_witness :
    search worldDocs "/data" "*.txt" [] 4 "/data" SearchState.empty =
        some (.ok (), ⟨["/data/docs/guide.txt"], ["/data", "/data/docs"]⟩) ∧
      ((∀ p ∈ ["/data/docs/guide.txt"],
          ∃ v, (validatePath worldDocs.proc worldDocs.fs p).result = .ok v) ∧
        (∀ p ∈ ["/data", "/data/docs"], p = "/data" ∨
          ∃ v, (validatePath worldDocs.proc worldDocs.fs p).result = .ok v)) :=
  ⟨by rfl,
    search_validates_each_path worldDocs "/data" "*.txt" [] 4
      (.ok (), ⟨["/data/docs/guide.txt"], ["/data", "/data/docs"]⟩) (by rfl)⟩

/-! ## Entries that fail are skipped -/

/-- The loop of `search` over two runs of entries is the loop over the first, then
over the second. -/
theorem searchEntries_append (w : SearchWorld) (rootPath pattern : String)
    (excludePatterns : List String)
    (recur : String → SearchState → Option (Except String Unit × SearchState))
    (currentPath : String) (post : List Dirent) :
    ∀ (pre : List Dirent) (st : SearchState),
      searchEntries w rootPath pattern excludePatterns recur currentPath (pre ++ post) st =
        (searchEntries w rootPath pattern excludePatterns recur currentPath pre st).bind
          (fun st1 =>
            searchEntries w rootPath pattern excludePatterns recur currentPath post st1) := by
  intro pre
  induction pre with
  | nil => intro st; simp [searchEntries]
  | cons entry rest ih =>
    intro st
    simp only [List.cons_append]
    rw [searchEntries, searchEntries]
    cases hv : (validatePath w.proc w.fs (path.join [currentPath, entry.name])).result with
    | error e => exact ih st
    | ok v =>
      simp only
      split
      · exact ih st
      · split
        · cases recur (path.join [currentPath, entry.name])
              (if w.minimatch entry.name pattern { nocase := true } = true then
                { st with results := st.results ++ [path.join [currentPath, entry.name]] }
              else st) with
          | none => rfl
          | some out => exact ih _
        · exact ih _

/-- The loop of `search` on an entry whose listing fails: the entry adds at most its
own path to the results, and the loop goes on. -/
theorem searchEntries_unlistable (w : SearchWorld) (rootPath pattern : String)
    (excludePatterns : List String) (fuel : Nat) (currentPath : String) (bad : Dirent)
    (post : List Dirent) (e : String)
    (hbad : w.readdir (path.join [currentPath, bad.name]) = .error e) (st : SearchState) :
    ∃ own more, (own = [] ∨ own = [path.join [currentPath, bad.name]]) ∧
      searchEntries w rootPath pattern excludePatterns
          (search w rootPath pattern excludePatterns (fuel + 1)) currentPath (bad :: post) st =
        searchEntries w rootPath pattern excludePatterns
          (search w rootPath pattern excludePatterns (fuel + 1)) currentPath post
          ⟨st.results ++ own, st.listed ++ more⟩ := by
  rw [searchEntries]
  cases hv : (validatePath w.proc w.fs (path.join [currentPath, bad.name])).result with
  | error e' => exact ⟨[], [], Or.inl rfl, by simp⟩
  | ok v =>
    simp only
    by_cases hex : shouldExclude w excludePatterns
        (path.relative w.proc.cwd rootPath (path.join [currentPath, bad.name])) = true
    · rw [if_pos hex]
      exact ⟨[], [], Or.inl rfl, by simp⟩
    · rw [if_neg hex]
      by_cases hm : w.minimatch bad.name pattern { nocase := true } = true
      · simp only [hm, if_true]
        by_cases hd : bad.isDirectory = true
        · rw [if_pos hd, search, hbad]
          exact ⟨[path.join [currentPath, bad.name]], [path.join [currentPath, bad.name]],
            Or.inr rfl, rfl⟩
        · rw [if_neg hd]
          exact ⟨[path.join [currentPath, bad.name]], [], Or.inr rfl, by simp⟩
      · simp only [hm]
        by_cases hd : bad.isDirectory = true
        · simp only [hd, if_true]
          rw [search, hbad]
          exact ⟨[], [path.join [currentPath, bad.name]], Or.inl rfl, by simp⟩
        · simp only [hd]
          exact ⟨[], [], Or.inl rfl, by simp⟩

/-- The search of a root that can be listed returns its results once the nested calls
are enough for the depth of the tree. -/
theorem searchFiles_returns (w : SearchWorld) (rootPath pattern : String)
    (excludePatterns : List String) (fuel : Nat) (rootEntries : List Dirent)
    (hroot : w.readdir rootPath = .ok rootEntries)
    (hshallow : shallow w.readdir fuel rootPath = true) :
    ∃ results, searchFiles w fuel rootPath pattern excludePatterns = some (.ok results) := by
  obtain ⟨out, hout⟩ := search_total w rootPath pattern excludePatterns fuel rootPath
    hshallow SearchState.empty
  cases fuel with
  | zero => simp [search] at hout
  | succ fuel =>
    have hout' := hout
    rw [search, hroot] at hout'
    simp only at hout'
    cases hs : searchEntries w rootPath pattern excludePatterns
        (search w rootPath pattern excludePatterns fuel) rootPath rootEntries
        { SearchState.empty with listed := SearchState.empty.listed ++ [rootPath] } with
    | none => simp [hs] at hout'
    | some st' =>
      rw [hs] at hout'
      simp only [Option.map_some', Option.some.injEq] at hout'
      subst hout'
      exact ⟨st'.results, by simp [searchFiles, hout]⟩

/-- C20: the search of a root that can be listed returns its results once the nested
calls are enough; an entry that `validatePath` rejects leaves the loop of `search` as
if the entry were absent; and with an entry whose listing fails the loop is cut short
exactly when it is without the entry, and every path other than the entry's own is a
result with the entry exactly when it is a result without it. -/
theorem search_skips_failing_entries (w : SearchWorld) (rootPath pattern : String)
    (excludePatterns : List String) (fuel : Nat) (currentPath : String)
    (pre post : List Dirent) (bad : Dirent) :
    (∀ rootEntries, w.readdir rootPath = .ok rootEntries →
        shallow w.readdir fuel rootPath = true →
        ∃ results, searchFiles w fuel rootPath pattern excludePatterns =
          some (.ok results)) ∧
      (∀ e recur st,
        (validatePath w.proc w.fs (path.join [currentPath, bad.name])).result = .error e →
        searchEntries w rootPath pattern excludePatterns recur currentPath
            (pre ++ bad :: post) st =
          searchEntries w rootPath pattern excludePatterns recur currentPath
            (pre ++ post) st) ∧
      (∀ e st, w.readdir (path.join [currentPath, bad.name]) = .error e →
        ((searchEntries w rootPath pattern excludePatterns
              (search w rootPath pattern excludePatterns (fuel + 1)) currentPath
              (pre ++ bad :: post) st).isSome =
            (searchEntries w rootPath pattern excludePatterns
              (search w rootPath pattern excludePatterns (fuel + 1)) currentPath
              (pre ++ post) st).isSome) ∧
          ∀ st1 st2,
            searchEntries w rootPath pattern excludePatterns
                (search w rootPath pattern excludePatterns (fuel + 1)) currentPath
                (pre ++ bad :: post) st = some st1 →
            searchEntries w rootPath pattern excludePatterns
                (search w rootPath pattern excludePatterns (fuel + 1)) currentPath
                (pre ++ post) st = some st2 →
            ∀ p, p ≠ path.join [currentPath, bad.name] →
              (p ∈ st1.results ↔ p ∈ st2.results)) := by
  refine ⟨?_, ?_, ?_⟩
  · intro rootEntries hroot hshallow
    exact searchFiles_returns w rootPath pattern excludePatterns fuel rootEntries hroot hshallow
  · intro e recur st hv
    rw [searchEntries_append, searchEntries_append]
    congr 1
    funext st1
    rw [searchEntries, hv]
  · intro e st hbad
    rw [searchEntries_append, searchEntries_append]
    cases searchEntries w rootPath pattern excludePatterns
        (search w rootPath pattern excludePatterns (fuel + 1)) currentPath pre st with
    | none => simp
    | some stA =>
      simp only [Option.some_bind]
      obtain ⟨own, more, hown, hstep⟩ := searchEntries_unlistable w rootPath pattern
        excludePatterns fuel currentPath bad post e hbad stA
      rw [hstep]
      rw [searchEntries_shift w rootPath pattern excludePatterns _
        (search_shift w rootPath pattern excludePatterns (fuel + 1)) currentPath post
        ⟨stA.results ++ own, stA.listed ++ more⟩]
      rw [searchEntries_shift w rootPath pattern excludePatterns _
        (search_shift w rootPath pattern excludePatterns (fuel + 1)) currentPath post stA]
      cases searchEntries w rootPath pattern excludePatterns
          (search w rootPath pattern excludePatterns (fuel + 1)) currentPath post
          SearchState.empty with
      | none => simp
      | some delta =>
        refine ⟨by simp, ?_⟩
        intro st1 st2 h1 h2 p hp
        simp only [Option.map_some', Option.some.injEq] at h1 h2
        subst h1
        subst h2
        simp only [SearchState.append, List.mem_append]
        rcases hown with rfl | rfl
        · simp
        · simp [hp]

/-- Witness of C20: with allowlist `/data`, the search of `/data` returns although the
directory `locked` cannot be listed, and the loop over `a.txt` and `locked` leaves
the results of the loop over `a.txt` alone; with allowlist `/data/docs` only, the entry `a.txt`, which
`validatePath` rejects, leaves the loop as if it were absent. -/
theorem search_skips_failing_entries_witness :
    searchFiles worldData 4 "/data" "*.txt" [] =
        some (.ok ["/data/a.txt", "/data/docs/guide.txt", "/data/node_modules/top.txt",
          "/data/node_modules/pkg/readme.txt"]) ∧
      (∃ results, searchFiles worldData 4 "/data" "*.txt" [] = some (.ok results)) ∧
      (searchEntries worldDocs "/data" "*.txt" [] (search worldDocs "/data" "*.txt" [] 3)
          "/data" ([] ++ ⟨"a.txt", false⟩ :: [⟨"docs", true⟩]) SearchState.empty =
        searchEntries worldDocs "/data" "*.txt" [] (search worldDocs "/data" "*.txt" [] 3)
          "/data" ([] ++ [⟨"docs", true⟩]) SearchState.empty) ∧
      searchEntries worldData "/data" "*.txt" [] (search worldData "/data" "*.txt" [] 4)
          "/data" ([⟨"a.txt", false⟩] ++ ⟨"locked", true⟩ :: []) SearchState.empty =
        some ⟨["/data/a.txt"], ["/data/locked"]⟩ ∧
      searchEntries worldData "/data" "*.txt" [] (search worldData "/data" "*.txt" [] 4)
          "/data" ([⟨"a.txt", false⟩] ++ []) SearchState.empty =
        some ⟨["/data/a.txt"], []⟩ ∧
      ("/data/a.txt" ∈ ["/data/a.txt"] ↔ "/data/a.txt" ∈ ["/data/a.txt"]) :=
  ⟨by rfl,
    (search_skips_failing_entries worldData "/data" "*.txt" [] 4 "/data" [] []
      ⟨"locked", true⟩).1 _ (by rfl) (by decide),
    (search_skips_failing_entries worldDocs "/data" "*.txt" [] 4 "/data" []
      [⟨"docs", true⟩] ⟨"a.txt", false⟩).2.1 _ _ _ (by rfl),
    by rfl, by rfl,
    ((search_skips_failing_entries worldData "/data" "*.txt" [] 3 "/data"
      [⟨"a.txt", false⟩] [] ⟨"locked", true⟩).2.2 _ SearchState.empty (by rfl)).2
      ⟨["/data/a.txt"], ["/data/locked"]⟩ ⟨["/data/a.txt"], []⟩ (by rfl) (by rfl)
      "/data/a.txt" (by decide)⟩

/-! ## What the search of `*.txt` finds -/

/-- What the loop of `search` leaves holds the results it was given. -/
theorem searchEntries_results_grow (w : SearchWorld) (rootPath pattern : String)
    (excludePatterns : List String) (fuel : Nat) (currentPath : String)
    (entries : List Dirent) (st st' : SearchState)
    (h : searchEntries w rootPath pattern excludePatterns
      (search w rootPath pattern excludePatterns fuel) currentPath entries st = some st') :
    ∀ p ∈ st.results, p ∈ st'.results := by
  rw [searchEntries_shift w rootPath pattern excludePatterns _
    (search_shift w rootPath pattern excludePatterns fuel)] at h
  cases hs : searchEntries w rootPath pattern excludePatterns
      (search w rootPath pattern excludePatterns fuel) currentPath entries
      SearchState.empty with
  | none => simp [hs] at h
  | some more =>
    rw [hs] at h
    simp only [Option.map_some', Option.some.injEq] at h
    subst h
    intro p hp
    simp [SearchState.append, hp]

theorem search_results_grow (w : SearchWorld) (rootPath pattern : String)
    (excludePatterns : List String) (fuel : Nat) (currentPath : String)
    (st : SearchState) (out : Except String Unit × SearchState)
    (h : search w rootPath pattern excludePatterns fuel currentPath st = some out) :
    ∀ p ∈ st.results, p ∈ out.2.results := by
  rw [search_shift] at h
  cases hs : search w rootPath pattern excludePatterns fuel currentPath SearchState.empty with
  | none => simp [hs] at h
  | some more =>
    rw [hs] at h
    simp only [Option.map_some', Option.some.injEq] at h
    subst h
    intro p hp
    simp [SearchState.append, hp]

/-- In the loop of `search`, an entry that `validatePath` accepts, that no pattern
excludes and whose name matches is recorded; and when it is a directory, `search` is
called on it and what that call records stays. -/
theorem searchEntries_visits (w : SearchWorld) (rootPath pattern : String)
    (excludePatterns : List String) (fuel : Nat) (currentPath : String) (entry : Dirent)
    (hv : ∃ v, (validatePath w.proc w.fs (path.join [currentPath, entry.name])).result = .ok v)
    (hex : shouldExclude w excludePatterns
      (path.relative w.proc.cwd rootPath (path.join [currentPath, entry.name])) = false) :
    ∀ (entries : List Dirent) (st st' : SearchState), entry ∈ entries →
      searchEntries w rootPath pattern excludePatterns
        (search w rootPath pattern excludePatterns fuel) currentPath entries st = some st' →
      (w.minimatch entry.name pattern { nocase := true } = true →
          path.join [currentPath, entry.name] ∈ st'.results) ∧
        (entry.isDirectory = true → ∃ st0 out,
          search w rootPath pattern excludePatterns fuel (path.join [currentPath, entry.name])
            st0 = some out ∧ ∀ p ∈ out.2.results, p ∈ st'.results) := by
  obtain ⟨v, hv⟩ := hv
  intro entries
  induction entries with
  | nil => intro st st' hmem; simp at hmem
  | cons e rest ih =>
    intro st st' hmem h
    by_cases hhead : entry = e
    · subst hhead
      rw [searchEntries, hv] at h
      simp only [hex] at h
      by_cases hd : entry.isDirectory = true
      · rw [if_pos hd] at h
        cases hr : search w rootPath pattern excludePatterns fuel
            (path.join [currentPath, entry.name])
            (if w.minimatch entry.name pattern { nocase := true } = true then
              { st with results := st.results ++ [path.join [currentPath, entry.name]] }
            else st) with
        | none => simp [hr] at h
        | some out =>
          rw [hr] at h
          simp only at h
          have hgrow := searchEntries_results_grow w rootPath pattern excludePatterns fuel
            currentPath rest out.2 st' h
          refine ⟨?_, fun _ => ⟨_, out, hr, hgrow⟩⟩
          intro hm
          apply hgrow
          apply search_results_grow w rootPath pattern excludePatterns fuel _ _ out hr
          simp [hm]
      · rw [if_neg hd] at h
        have hgrow := searchEntries_results_grow w rootPath pattern excludePatterns fuel
          currentPath rest _ st' h
        refine ⟨?_, fun hd' => absurd hd' hd⟩
        intro hm
        apply hgrow
        simp [hm]
    · have hmem' : entry ∈ rest := by
        rcases List.mem_cons.mp hmem with h1 | h1
        · exact absurd h1 hhead
        · exact h1
      rw [searchEntries] at h
      cases hv' : (validatePath w.proc w.fs (path.join [currentPath, e.name])).result with
      | error err =>
        rw [hv'] at h
        exact ih _ _ hmem' h
      | ok v' =>
        rw [hv'] at h
        simp only at h
        by_cases hex' : shouldExclude w excludePatterns
            (path.relative w.proc.cwd rootPath (path.join [currentPath, e.name])) = true
        · rw [if_pos hex'] at h
          exact ih _ _ hmem' h
        · rw [if_neg hex'] at h
          by_cases hd : e.isDirectory = true
          · rw [if_pos hd] at h
            cases hr : search w rootPath pattern excludePatterns fuel
                (path.join [currentPath, e.name])
                (if w.minimatch e.name pattern { nocase := true } = true then
                  { st with results := st.results ++ [path.join [currentPath, e.name]] }
                else st) with
            | none => simp [hr] at h
            | some out =>
              rw [hr] at h
              exact ih _ _ hmem' h
          · rw [if_neg hd] at h
            exact ih _ _ hmem' h

/-- A directory that the search goes down to is searched, and what is recorded there
stays in the results. -/
theorem search_reaches (w : SearchWorld) (rootPath pattern : String) (fuel : Nat)
    (out : Except String Unit × SearchState)
    (h : search w rootPath pattern [] fuel rootPath SearchState.empty = some out)
    (cur : String) (hreach : Reach w rootPath cur) :
    ∃ m st0 out', search w rootPath pattern [] m cur st0 = some out' ∧
      ∀ p ∈ out'.2.results, p ∈ out.2.results := by
  induction hreach with
  | root => exact ⟨fuel, _, out, h, fun p hp => hp⟩
  | step cur entries entry _ hls hmem hd hv ih =>
    obtain ⟨m, st0, out', hs, hsub⟩ := ih
    cases m with
    | zero => simp [search] at hs
    | succ m =>
      rw [search, hls] at hs
      simp only at hs
      cases hl : searchEntries w rootPath pattern []
          (search w rootPath pattern [] m) cur entries
          { st0 with listed := st0.listed ++ [cur] } with
      | none => simp [hl] at hs
      | some st' =>
        rw [hl] at hs
        simp only [Option.map_some', Option.some.injEq] at hs
        subst hs
        obtain ⟨-, hdir⟩ := searchEntries_visits w rootPath pattern [] m cur entry hv
          (by simp [shouldExclude]) entries _ st' hmem hl
        obtain ⟨sta, outc, hc, hcsub⟩ := hdir hd
        exact ⟨m, sta, outc, hc, fun p hp => hsub p (hcsub p hp)⟩

theorem starWith_suffix (m : List Char → Bool) (suffix : List Char) (h : m suffix = true) :
    ∀ pre : List Char, starWith m (pre ++ suffix) = true := by
  intro pre
  induction pre with
  | nil =>
    cases suffix with
    | nil => simpa [starWith] using h
    | cons c cs => simp [starWith, h]
  | cons c cs ih =>
    rw [List.cons_append, starWith, ih, Bool.or_true]

/-- The segments of a name without separator are the name. -/
theorem globSegments_name (name : String) (hslash : '/' ∉ name.data) :
    globSegments name = [name] := by
  have h : segs name = [name] := by
    simp [segs, splitSlash_of_noslash _ hslash]
  simp [globSegments, h]

/-- The model of `minimatch` on `*.txt` without the option `dot`: a name that ends in
`.txt`, has something before it and does not start with a dot matches. -/
theorem minimatch_txt (name stem : String) (hname : name = stem ++ ".txt")
    (hstem : stem ≠ "") (hdot : name.data.head? ≠ some '.') (hslash : '/' ∉ name.data) :
    minimatch name "*.txt" { nocase := true } = true := by
  have hparts : globParts "*.txt" = [.name "*.txt"] := by decide
  have hne : name ≠ "" := by
    intro h
    rw [h] at hname
    have := congrArg String.data hname
    simp only [String.data_append] at this
    have hs : stem.data = [] := by
      cases hsd : stem.data with
      | nil => rfl
      | cons c cs =>
        rw [hsd] at this
        exact absurd this (by simp)
    exact hstem (String.ext hs)
  have hglob : globMatch (sameChar { nocase := true }) "*.txt".data name.data = true := by
    have hdata : name.data = stem.data ++ ".txt".data := by
      rw [hname, String.data_append]
    rw [hdata]
    show starWith (globMatch (sameChar { nocase := true }) ".txt".data) _ = true
    exact starWith_suffix _ _ (by decide) _
  unfold minimatch
  rw [if_neg (by decide), hparts, globSegments_name name hslash]
  simp only [matchOne, nameMatch]
  rw [if_neg (by decide)]
  simp [hne, hdot, hglob]

/-- C17, as amended: when the root can be listed and the nested calls are enough,
`searchFiles(root, "*.txt", [])` returns a list that holds every entry whose name
ends in `.txt` with something before it, does not start with a dot, passes
`validatePath`, and lies in the root or in a directory that the search goes down to
(a directory entry that passes `validatePath`, of the root or of such a directory). -/
theorem searchFiles_finds_txt (w : SearchWorld) (hmm : w.minimatch = minimatch)
    (fuel : Nat) (rootPath : String) (rootEntries : List Dirent)
    (hroot : w.readdir rootPath = .ok rootEntries)
    (hfuel : shallow w.readdir fuel rootPath = true)
    (cur : String) (entries : List Dirent) (entry : Dirent) (stem : String)
    (hreach : Reach w rootPath cur) (hls : w.readdir cur = .ok entries)
    (hmem : entry ∈ entries) (hname : entry.name = stem ++ ".txt") (hstem : stem ≠ "")
    (hdot : entry.name.data.head? ≠ some '.') (hslash : '/' ∉ entry.name.data)
    (hvalid : ∃ v, (validatePath w.proc w.fs (path.join [cur, entry.name])).result = .ok v) :
    ∃ results, searchFiles w fuel rootPath "*.txt" [] = some (.ok results) ∧
      path.join [cur, entry.name] ∈ results := by
  obtain ⟨results, hres⟩ := searchFiles_returns w rootPath "*.txt" [] fuel rootEntries
    hroot hfuel
  refine ⟨results, hres, ?_⟩
  unfold searchFiles at hres
  cases hs : search w rootPath "*.txt" [] fuel rootPath SearchState.empty with
  | none => simp [hs] at hres
  | some out =>
    rw [hs] at hres
    simp only [Option.map_some', Option.some.injEq] at hres
    have hout : out.2.results = results := by
      cases h1 : out.1 with
      | error e => rw [h1] at hres; cases hres
      | ok u => rw [h1] at hres; simpa using hres
    obtain ⟨m, st0, out', hsc, hsub⟩ := search_reaches w rootPath "*.txt" fuel out hs cur hreach
    cases m with
    | zero => simp [search] at hsc
    | succ m =>
      rw [search, hls] at hsc
      simp only at hsc
      cases hl : searchEntries w rootPath "*.txt" [] (search w rootPath "*.txt" [] m) cur
          entries { st0 with listed := st0.listed ++ [cur] } with
      | none => simp [hl] at hsc
      | some st' =>
        rw [hl] at hsc
        simp only [Option.map_some', Option.some.injEq] at hsc
        subst hsc
        obtain ⟨hfile, -⟩ := searchEntries_visits w rootPath "*.txt" [] m cur entry hvalid
          (by simp [shouldExclude]) entries _ st' hmem hl
        rw [← hout]
        apply hsub
        apply hfile
        rw [hmm]
        exact minimatch_txt entry.name stem hname hstem hdot hslash

/-- Witness of C17, as amended: with allowlist `/data`, the search of `/data` returns
`/data/node_modules/pkg/readme.txt`, two directories down. -/
theorem searchFiles_finds_txt_witness :
    ∃ results, searchFiles worldData 4 "/data" "*.txt" [] = some (.ok results) ∧
      path.join ["/data/node_modules/pkg", "readme.txt"] ∈ results :=
  searchFiles_finds_txt worldData rfl 4 "/data" _ (by rfl) (by decide)
    "/data/node_modules/pkg" _ ⟨"readme.txt", false⟩ "readme"
    (Reach.step "/data/node_modules" _ ⟨"pkg", true⟩
      (Reach.step "/data" _ ⟨"node_modules", true⟩ Reach.root (by rfl) (by decide) rfl
        ⟨"/data/node_modules", by rfl⟩)
      (by rfl) (by decide) rfl ⟨"/data/node_modules/pkg", by rfl⟩)
    (by rfl) (by decide) (by decide) (by decide) (by decide) (by decide)
    ⟨"/data/node_modules/pkg/readme.txt", by rfl⟩

/-- C17, as stated, fails: with allowlist `/data`, the file `/data/.hidden.txt` is an
entry of the root, its name ends in `.txt` and it passes `validatePath`, but the
search of `*.txt` does not return it: without the option `dot`, `*` does not match a
name that starts with a dot. -/
theorem searchFiles_omits_dot_files :
    worldData.readdir "/data" = .ok [⟨"a.txt", false⟩, ⟨".hidden.txt", false⟩, ⟨"docs", true⟩,
      ⟨"node_modules", true⟩, ⟨"locked", true⟩] ∧
    (validatePath worldData.proc worldData.fs "/data/.hidden.txt").result =
      .ok "/data/.hidden.txt" ∧
    searchFiles worldData 4 "/data" "*.txt" [] =
      some (.ok ["/data/a.txt", "/data/docs/guide.txt", "/data/node_modules/top.txt",
        "/data/node_modules/pkg/readme.txt"]) ∧
    "/data/.hidden.txt" ∉ ["/data/a.txt", "/data/docs/guide.txt",
      "/data/node_modules/top.txt", "/data/node_modules/pkg/readme.txt"] :=
  ⟨by rfl, by rfl, by rfl, by decide⟩

/-! ## The shape of normalised paths -/

/-- A path cut at one of its separators: the segments before, then the segments
after. -/
theorem splitSlash_split (a b : List Char) :
    path.splitSlash (a ++ '/' :: b) = path.splitSlash a ++ path.splitSlash b := by
  induction a with
  | nil => simp [path.splitSlash]
  | cons c cs ih =>
    simp only [List.cons_append]
    rw [path.splitSlash, path.splitSlash.eq_2 c cs, ih]
    by_cases hc : c = '/'
    · simp [hc]
    · simp only [if_neg hc]
      cases hs : path.splitSlash cs with
      | nil => exact absurd hs (splitSlash_ne_nil cs)
      | cons x xs => simp

theorem normalizeSegments_append (b : Bool) (l2 : List (List Char)) :
    ∀ (l1 res : List (List Char)),
      path.normalizeSegments b res (l1 ++ l2) =
        path.normalizeSegments b (path.normalizeSegments b res l1) l2 := by
  intro l1
  induction l1 with
  | nil => intro res; simp [path.normalizeSegments]
  | cons seg rest ih =>
    intro res
    simp only [List.cons_append]
    cases res with
    | nil =>
      rw [path.normalizeSegments.eq_2, path.normalizeSegments.eq_2]
      split
      · exact ih _
      · split
        · split <;> exact ih _
        · exact ih _
    | cons top below =>
      rw [path.normalizeSegments.eq_3, path.normalizeSegments.eq_3]
      split
      · exact ih _
      · split
        · split
          · split <;> exact ih _
          · exact ih _
        · exact ih _

/-- Normalisation keeps clean names only. -/
theorem normalizeSegments_clean :
    ∀ (l res : List (List Char)), (∀ s ∈ res, cleanSegment s) → (∀ s ∈ l, '/' ∉ s) →
      ∀ s ∈ path.normalizeSegments false res l, cleanSegment s := by
  intro l
  induction l with
  | nil => intro res hres _; simpa [path.normalizeSegments] using hres
  | cons seg rest ih =>
    intro res hres hl
    have hrest : ∀ s ∈ rest, '/' ∉ s := fun s hs => hl s (List.mem_cons_of_mem _ hs)
    have hpush : ¬ (seg = [] ∨ seg = ['.']) → ¬ seg = ['.', '.'] →
        ∀ s ∈ seg :: res, cleanSegment s := by
      intro h1 h2 s hs
      rcases List.mem_cons.mp hs with rfl | hs
      · exact ⟨fun e => h1 (Or.inl e), fun e => h1 (Or.inr e), h2,
          hl _ (List.mem_cons_self _ _)⟩
      · exact hres s hs
    cases res with
    | nil =>
      rw [path.normalizeSegments.eq_2]
      split
      · exact ih [] hres hrest
      · rename_i h1
        split
        · simpa using ih [] hres hrest
        · rename_i h2
          exact ih _ (hpush h1 h2) hrest
    | cons top below =>
      rw [path.normalizeSegments.eq_3]
      split
      · exact ih _ hres hrest
      · rename_i h1
        split
        · split
          · simpa using ih _ hres hrest
          · exact ih below (fun s hs => hres s (List.mem_cons_of_mem _ hs)) hrest
        · rename_i h2
          exact ih _ (hpush h1 h2) hrest

/-- Clean names are all kept by normalisation. -/
theorem normalizeSegments_of_clean (b : Bool) :
    ∀ (l res : List (List Char)), (∀ s ∈ l, cleanSegment s) →
      path.normalizeSegments b res l = l.reverse ++ res := by
  intro l
  induction l with
  | nil => intro res _; simp [path.normalizeSegments]
  | cons seg rest ih =>
    intro res hl
    obtain ⟨h1, h2, h3, -⟩ := hl seg (List.mem_cons_self _ _)
    have hx : ¬ (seg = [] ∨ seg = ['.']) := fun h => h.elim h1 h2
    have hrest := fun res => ih res (fun s hs => hl s (List.mem_cons_of_mem _ hs))
    cases res with
    | nil =>
      rw [path.normalizeSegments.eq_2, if_neg hx, if_neg h3, hrest]
      simp
    | cons top below =>
      rw [path.normalizeSegments.eq_3, if_neg hx, if_neg h3, hrest]
      simp

theorem normalSegments_clean (l : List Char) : ∀ s ∈ normalSegments l, cleanSegment s := by
  intro s hs
  unfold normalSegments at hs
  rw [List.mem_reverse] at hs
  exact normalizeSegments_clean _ [] (by simp) (splitSlash_noslash l) s hs

/-- The segments of clean names joined by `/` are the names. -/
theorem splitSlash_joinSlash (l : List (List Char)) (hl : l ≠ [])
    (hc : ∀ s ∈ l, '/' ∉ s) : path.splitSlash (path.joinSlash l) = l := by
  induction l with
  | nil => exact absurd rfl hl
  | cons x rest ih =>
    cases rest with
    | nil =>
      simp only [path.joinSlash]
      exact splitSlash_of_noslash _ (hc x (List.mem_cons_self _ _))
    | cons y rest2 =>
      rw [path.joinSlash, splitSlash_append _ _ (hc x (List.mem_cons_self _ _)),
        ih (by simp) (fun s hs => hc s (List.mem_cons_of_mem _ hs))]

/-- The normalised names of a normalised absolute path are its names. -/
theorem normalSegments_joinSlash (l : List (List Char)) (hc : ∀ s ∈ l, cleanSegment s) :
    normalSegments ('/' :: path.joinSlash l) = l := by
  unfold normalSegments
  rw [path.splitSlash]
  simp only [if_true]
  rw [path.normalizeSegments.eq_2]
  simp only [true_or, if_true]
  by_cases hl : l = []
  · subst hl
    simp [path.joinSlash, path.splitSlash, path.normalizeSegments]
  · rw [splitSlash_joinSlash l hl (fun s hs => (hc s hs).2.2.2),
      normalizeSegments_of_clean false l [] hc]
    simp

/-- A name added after a separator is one more normalised name. -/
theorem normalSegments_snoc (l name : List Char) (hname : cleanSegment name) :
    normalSegments (l ++ '/' :: name) = normalSegments l ++ [name] := by
  unfold normalSegments
  rw [splitSlash_split, normalizeSegments_append,
    splitSlash_of_noslash name hname.2.2.2,
    normalizeSegments_of_clean false [name] _ (by simpa using hname)]
  simp

theorem normalSegments_trailing (l : List Char) :
    normalSegments (l ++ ['/']) = normalSegments l := by
  unfold normalSegments
  rw [splitSlash_split, normalizeSegments_append]
  simp [path.splitSlash, path.normalizeSegments]

theorem joinSlash_ne_nil (l : List (List Char)) (hl : l ≠ []) (hc : ∀ s ∈ l, s ≠ []) :
    path.joinSlash l ≠ [] := by
  cases l with
  | nil => exact absurd rfl hl
  | cons x rest =>
    cases rest with
    | nil => simpa [path.joinSlash] using hc x (List.mem_cons_self _ _)
    | cons y rest2 =>
      simp only [path.joinSlash]
      intro h
      have := congrArg List.length h
      simp at this

theorem normalizeString_eq (l : List Char) :
    path.normalizeString l false = path.joinSlash (normalSegments l) := rfl

/-- The normalised form of an absolute path that does not end with a separator. -/
theorem normalize_absolute (p : String) (habs : p.data.head? = some '/')
    (hlast : p.data.getLast? ≠ some '/') (hne : normalSegments p.data ≠ []) :
    (path.normalize p).data = '/' :: path.joinSlash (normalSegments p.data) := by
  have hdata : p.data ≠ [] := by
    intro h
    rw [h] at habs
    cases habs
  have hn : path.joinSlash (normalSegments p.data) ≠ [] :=
    joinSlash_ne_nil _ hne (fun s hs => (normalSegments_clean p.data s hs).1)
  unfold path.normalize
  simp only [hdata, if_false, habs, decide_True, Bool.not_true, normalizeString_eq, hn, hlast,
    if_true]

/-- `path.join` of an absolute path and a clean name: the normalised names of the
path, then the name. -/
theorem join_data (cur name : String) (habs : path.isAbsolute cur = true)
    (hname : cleanSegment name.data) :
    (path.join [cur, name]).data =
      '/' :: path.joinSlash (normalSegments cur.data ++ [name.data]) := by
  have hhead : cur.data.head? = some '/' := by simpa [path.isAbsolute] using habs
  have hcur : cur.data ≠ [] := by
    intro h
    rw [h] at hhead
    cases hhead
  have hjoin : path.join [cur, name] = path.normalize (cur ++ "/" ++ name) := by
    simp [path.join, List.filter, hcur, hname.1, joinWith]
  have hd : (cur ++ "/" ++ name).data = cur.data ++ '/' :: name.data := by
    simp [String.data_append]
  have hns := normalSegments_snoc cur.data name.data hname
  rw [hjoin, normalize_absolute]
  · rw [hd, hns]
  · rw [hd]
    cases hc : cur.data with
    | nil => exact absurd hc hcur
    | cons c cs =>
      rw [hc] at hhead
      simpa using hhead
  · rw [hd]
    have hnn : name.data ≠ [] := hname.1
    rw [List.getLast?_append_of_ne_nil _ (by simp)]
    have hslash := hname.2.2.2
    cases hnd : name.data with
    | nil => exact absurd hnd hnn
    | cons c cs =>
      rw [hnd] at hslash
      rw [List.getLast?_cons_cons]
      intro h
      exact hslash (List.mem_of_getLast?_eq_some h)
  · rw [hd, hns]
    simp

theorem join_absolute (cur name : String) (habs : path.isAbsolute cur = true)
    (hname : cleanSegment name.data) : path.isAbsolute (path.join [cur, name]) = true := by
  simp [path.isAbsolute, join_data cur name habs hname]

/-- The normalised names of `path.join` of an absolute path and a clean name. -/
theorem normalSegments_join (cur name : String) (habs : path.isAbsolute cur = true)
    (hname : cleanSegment name.data) :
    normalSegments (path.join [cur, name]).data = normalSegments cur.data ++ [name.data] := by
  rw [join_data cur name habs hname]
  apply normalSegments_joinSlash
  intro s hs
  rcases List.mem_append.mp hs with h | h
  · exact normalSegments_clean _ s h
  · simp only [List.mem_singleton] at h
    subst h
    exact hname

/-- The names of `path.resolve` of an absolute path are its normalised names. -/
theorem resolve_names (cwd p : String) (habs : path.isAbsolute p = true) :
    (segs (path.resolve cwd [p])).filter (fun s => s ≠ "") =
      (normalSegments p.data).map String.mk := by
  have hhead : p.data.head? = some '/' := by simpa [path.isAbsolute] using habs
  have hp : p.data ≠ [] := by
    intro h
    rw [h] at hhead
    cases hhead
  have hres : path.resolve cwd [p] = ⟨'/' :: path.joinSlash (normalSegments p.data)⟩ := by
    simp only [path.resolve, List.reverse_cons, List.reverse_nil, List.nil_append,
      List.singleton_append, path.resolveLoop, hp, if_false, hhead, if_true]
    rw [normalizeString_eq]
    have : (p ++ "/" ++ "").data = p.data ++ ['/'] := by simp [String.data_append]
    rw [this, normalSegments_trailing]
  rw [hres]
  simp only [segs]
  rw [path.splitSlash]
  simp only [if_true, List.map_cons]
  by_cases hl : normalSegments p.data = []
  · simp [hl, path.joinSlash, path.splitSlash]
  · rw [splitSlash_joinSlash _ hl (fun s hs => (normalSegments_clean _ s hs).2.2.2)]
    rw [List.filter_cons]
    simp only [ne_eq, not_true_eq_false, decide_False, Bool.false_eq_true, if_false]
    rw [List.filter_eq_self]
    intro s hs
    simp only [List.mem_map] at hs
    obtain ⟨seg, hseg, rfl⟩ := hs
    have := (normalSegments_clean _ seg hseg).1
    simp only [ne_eq, decide_eq_true_eq]
    intro h
    exact this (congrArg String.data h)

theorem dropCommon_append (a b : List String) : dropCommon a (a ++ b) = ([], b) := by
  induction a with
  | nil => cases b <;> simp [dropCommon]
  | cons x rest ih => simp [dropCommon, ih]

/-- `path.relative` from an absolute path to an absolute path below it: the names that
lead from the one to the other. -/
theorem relative_below (cwd root p : String) (names : List (List Char))
    (hroot : path.isAbsolute root = true) (hp : path.isAbsolute p = true) (hne : names ≠ [])
    (h : normalSegments p.data = normalSegments root.data ++ names) :
    path.relative cwd root p = joinWith "/" (names.map String.mk) := by
  have hdiff : root ≠ p := by
    intro e
    rw [e] at h
    have := congrArg List.length h
    simp only [List.length_append] at this
    have hlen : names.length = 0 := by omega
    exact hne (List.length_eq_zero.mp hlen)
  unfold path.relative
  rw [if_neg hdiff]
  simp only [resolve_names cwd root hroot, resolve_names cwd p hp, h, List.map_append,
    dropCommon_append, List.map_nil, List.nil_append]

/-- The segments of names joined by `/`, runs of separators taken as one, are the
names. -/
theorem globSegments_joinWith (names : List String) (hne : names ≠ [])
    (hv : ∀ s ∈ names, validName s) : globSegments (joinWith "/" names) = names := by
  have hsegs : segs (joinWith "/" names) = names :=
    splitSlash_joinWith names hne (fun s hs => (hv s hs).2.2.2)
  unfold globSegments
  rw [hsegs]
  cases names with
  | nil => exact absurd rfl hne
  | cons first rest =>
    simp only
    have hrest : ∀ s ∈ rest, s ≠ "" := fun s hs => (hv s (List.mem_cons_of_mem _ hs)).1
    congr 1
    cases hl : rest.getLast? with
    | none =>
      have : rest = [] := List.getLast?_eq_none_iff.mp hl
      subst this
      simp
    | some l =>
      simp only
      have hd := List.dropLast_append_getLast? l hl
      rw [List.filter_eq_self.mpr]
      · exact hd
      · intro s hs
        simpa using hrest s (List.mem_of_mem_dropLast hs)

/-- The model of `minimatch`: `**` takes the names before a match of the rest. -/
theorem swallowWith_skip (m : List String → Bool) (ok : String → Bool) (rest : List String)
    (hrest : rest ≠ []) (hm : m rest = true) :
    ∀ pre : List String, (∀ s ∈ pre, ok s = true) → swallowWith m ok (pre ++ rest) = true := by
  intro pre
  induction pre with
  | nil =>
    intro _
    cases rest with
    | nil => exact absurd rfl hrest
    | cons f fs => simp [swallowWith, hm]
  | cons x xs ih =>
    intro hpre
    rw [List.cons_append, swallowWith, hpre x (List.mem_cons_self _ _),
      ih (fun s hs => hpre s (List.mem_cons_of_mem _ hs))]
    simp

/-- The model of `minimatch` on `**/node_modules/**` with the option `dot`: names
among which `node_modules` is followed by at least one name match. -/
theorem matchOne_node_modules (pre post : List String) (hpost : post ≠ [])
    (hnames : ∀ s ∈ pre ++ post, s ≠ "." ∧ s ≠ "..") :
    matchOne { dot := true } [.globstar, .name "node_modules", .globstar]
      (pre ++ "node_modules" :: post) = true := by
  have hok : ∀ s ∈ pre ++ post, swallowable { dot := true } s = true := by
    intro s hs
    simp [swallowable, hnames s hs]
  have hm : matchOne { dot := true } [.name "node_modules", .globstar]
      ("node_modules" :: post) = true := by
    have hn : nameMatch { dot := true } "node_modules" "node_modules" = true := by decide
    cases post with
    | nil => exact absurd rfl hpost
    | cons f fs =>
      simp only [matchOne, hn, Bool.true_and, if_true, List.all_eq_true]
      intro s hs
      exact hok s (List.mem_append_right _ hs)
  have hsw := swallowWith_skip (matchOne { dot := true } [.name "node_modules", .globstar])
    (swallowable { dot := true }) ("node_modules" :: post) (by simp) hm pre
    (fun s hs => hok s (List.mem_append_left _ hs))
  cases hpre : pre ++ "node_modules" :: post with
  | nil => simp at hpre
  | cons f fs =>
    rw [hpre] at hsw
    rw [matchOne]
    simpa using hsw

/-! ## Excluded directories -/

theorem Below.join (root cur name : String) (names : List String)
    (h : Below root cur names) (hname : validName name) :
    Below root (path.join [cur, name]) (names ++ [name]) := by
  have hclean : cleanSegment name.data := by
    refine ⟨?_, ?_, ?_, hname.2.2.2⟩
    · intro e; exact hname.1 (String.ext e)
    · intro e; exact hname.2.1 (String.ext e)
    · intro e; exact hname.2.2.1 (String.ext e)
  refine ⟨join_absolute cur name h.1 hclean, ?_, ?_⟩
  · intro n hn
    rcases List.mem_append.mp hn with hn | hn
    · exact h.2.1 n hn
    · simp only [List.mem_singleton] at hn
      subst hn
      exact hname
  · rw [normalSegments_join cur name h.1 hclean, h.2.2]
    simp

/-- The relative path from `root` to a path below it joins the names between. -/
theorem Below.relative (cwd root p : String) (names : List String)
    (hroot : path.isAbsolute root = true) (h : Below root p names) (hne : names ≠ []) :
    path.relative cwd root p = joinWith "/" names := by
  have := relative_below cwd root p (names.map String.data) hroot h.1 (by simpa using hne) h.2.2
  rw [this]
  congr 1
  rw [List.map_map]
  exact List.map_id _

/-- An invariant of the state that each push and each nested call keep is kept by
the loop of `search`; a push happens only for an entry that is not excluded. -/
theorem searchEntries_inv (w : SearchWorld) (rootPath pattern : String)
    (excludePatterns : List String)
    (recur : String → SearchState → Option (Except String Unit × SearchState))
    (inv : SearchState → Prop) (good : Dirent → Prop) (currentPath : String)
    (hpush : ∀ st entry, inv st → good entry →
      shouldExclude w excludePatterns
        (path.relative w.proc.cwd rootPath (path.join [currentPath, entry.name])) = false →
      inv { st with results := st.results ++ [path.join [currentPath, entry.name]] })
    (hrec : ∀ entry st out, good entry → inv st →
      recur (path.join [currentPath, entry.name]) st = some out → inv out.2) :
    ∀ (entries : List Dirent) (st st' : SearchState), (∀ e ∈ entries, good e) → inv st →
      searchEntries w rootPath pattern excludePatterns recur currentPath entries st = some st' →
      inv st' := by
  intro entries
  induction entries with
  | nil =>
    intro st st' _ hinv h
    simp only [searchEntries, Option.some.injEq] at h
    subst h
    exact hinv
  | cons entry rest ih =>
    intro st st' hgood hinv h
    have hrest : ∀ e ∈ rest, good e := fun e he => hgood e (List.mem_cons_of_mem _ he)
    have hentry : good entry := hgood entry (List.mem_cons_self _ _)
    rw [searchEntries] at h
    cases hv : (validatePath w.proc w.fs (path.join [currentPath, entry.name])).result with
    | error e =>
      rw [hv] at h
      exact ih st st' hrest hinv h
    | ok v =>
      rw [hv] at h
      simp only at h
      cases hex : shouldExclude w excludePatterns
          (path.relative w.proc.cwd rootPath (path.join [currentPath, entry.name])) with
      | true =>
        rw [hex] at h
        exact ih st st' hrest hinv h
      | false =>
        rw [hex] at h
        simp only [Bool.false_eq_true, if_false] at h
        have hst1 : inv (if w.minimatch entry.name pattern { nocase := true } = true then
            { st with results := st.results ++ [path.join [currentPath, entry.name]] }
            else st) := by
          split
          · exact hpush st entry hinv hentry hex
          · exact hinv
        cases hd : entry.isDirectory with
        | false =>
          rw [hd] at h
          exact ih _ st' hrest hst1 h
        | true =>
          rw [hd] at h
          simp only [if_true] at h
          cases hr : recur (path.join [currentPath, entry.name])
              (if w.minimatch entry.name pattern { nocase := true } = true then
                { st with results := st.results ++ [path.join [currentPath, entry.name]] }
                else st) with
          | none => rw [hr] at h; cases h
          | some out =>
            rw [hr] at h
            exact ih _ st' hrest (hrec entry _ out hentry hst1 hr) h

/-- Every path that `search` records lies below the root by names that the exclude
patterns let through. -/
theorem search_below (w : SearchWorld) (rootPath pattern : String)
    (excludePatterns : List String)
    (hnames : ∀ p entries entry, w.readdir p = .ok entries → entry ∈ entries →
      validName entry.name) :
    ∀ (fuel : Nat) (currentPath : String) (st : SearchState)
      (out : Except String Unit × SearchState),
      (∃ names, Below rootPath currentPath names) →
      (∀ p ∈ st.results, ∃ names, names ≠ [] ∧ Below rootPath p names ∧
        shouldExclude w excludePatterns (path.relative w.proc.cwd rootPath p) = false) →
      search w rootPath pattern excludePatterns fuel currentPath st = some out →
      ∀ p ∈ out.2.results, ∃ names, names ≠ [] ∧ Below rootPath p names ∧
        shouldExclude w excludePatterns (path.relative w.proc.cwd rootPath p) = false := by
  intro fuel
  induction fuel with
  | zero => intro currentPath st out _ _ h; simp [search] at h
  | succ fuel ih =>
    intro currentPath st out hcur hinv h
    obtain ⟨cnames, hcur⟩ := hcur
    rw [search] at h
    cases hls : w.readdir currentPath with
    | error e =>
      rw [hls] at h
      simp only [Option.some.injEq] at h
      subst h
      exact hinv
    | ok entries =>
      rw [hls] at h
      simp only at h
      cases hs : searchEntries w rootPath pattern excludePatterns
          (search w rootPath pattern excludePatterns fuel) currentPath entries
          { st with listed := st.listed ++ [currentPath] } with
      | none => rw [hs] at h; cases h
      | some st' =>
        rw [hs] at h
        simp only [Option.map_some', Option.some.injEq] at h
        subst h
        refine searchEntries_inv w rootPath pattern excludePatterns _
          (fun st => ∀ p ∈ st.results, ∃ names, names ≠ [] ∧ Below rootPath p names ∧
            shouldExclude w excludePatterns (path.relative w.proc.cwd rootPath p) = false)
          (fun entry => validName entry.name) currentPath
          ?_ ?_ entries { st with listed := st.listed ++ [currentPath] } st'
          (fun e he => hnames currentPath entries e hls he) hinv hs
        · intro st entry hst hgood hex p hp
          rcases List.mem_append.mp hp with hp | hp
          · exact hst p hp
          · simp only [List.mem_singleton] at hp
            subst hp
            exact ⟨cnames ++ [entry.name], by simp,
              Below.join rootPath currentPath entry.name cnames hcur hgood, hex⟩
        · intro entry st out hgood hst hout
          exact ih _ st out
            ⟨_, Below.join rootPath currentPath entry.name cnames hcur hgood⟩ hst hout

/-- C18: when the names that `readdir` yields are names of entries and the root is an
absolute path, every path that `searchFiles(root, "*.txt", ["node_modules"])` returns
lies below the root by names that `path.relative` joins, and among these names
`node_modules` is followed by none: it can only be the final name. -/
theorem searchFiles_excludes_node_modules (w : SearchWorld) (hmm : w.minimatch = minimatch)
    (hnames : ∀ p entries entry, w.readdir p = .ok entries → entry ∈ entries →
      validName entry.name)
    (fuel : Nat) (rootPath : String) (habs : path.isAbsolute rootPath = true)
    (results : List String)
    (h : searchFiles w fuel rootPath "*.txt" ["node_modules"] = some (.ok results)) :
    ∀ p ∈ results, ∃ names : List String, names ≠ [] ∧ (∀ n ∈ names, validName n) ∧
      path.relative w.proc.cwd rootPath p = joinWith "/" names ∧
      ∀ pre post, names = pre ++ "node_modules" :: post → post = [] := by
  intro p hp
  unfold searchFiles at h
  cases hs : search w rootPath "*.txt" ["node_modules"] fuel rootPath SearchState.empty with
  | none => simp [hs] at h
  | some out =>
    rw [hs] at h
    simp only [Option.map_some', Option.some.injEq] at h
    have hout : out.2.results = results := by
      cases h1 : out.1 with
      | error e => rw [h1] at h; cases h
      | ok u => rw [h1] at h; simpa using h
    rw [← hout] at hp
    have hroot : Below rootPath rootPath [] := ⟨habs, by simp, by simp⟩
    obtain ⟨names, hne, hbelow, hex⟩ := search_below w rootPath "*.txt" ["node_modules"]
      hnames fuel rootPath SearchState.empty out ⟨[], hroot⟩ (by simp [SearchState.empty]) hs p hp
    have hrel := Below.relative w.proc.cwd rootPath p names habs hbelow hne
    refine ⟨names, hne, hbelow.2.1, hrel, ?_⟩
    intro pre post hsplit
    by_contra hpost
    have hmatch : minimatch (joinWith "/" names) "**/node_modules/**" { dot := true } = true := by
      have hparts : globParts "**/node_modules/**" =
          [.globstar, .name "node_modules", .globstar] := by decide
      unfold minimatch
      rw [hparts, globSegments_joinWith names hne hbelow.2.1, hsplit]
      apply matchOne_node_modules pre post hpost
      intro s hs
      have hmem : s ∈ names := by
        rw [hsplit]
        rcases List.mem_append.mp hs with h1 | h1
        · exact List.mem_append_left _ h1
        · exact List.mem_append_right _ (List.mem_cons_of_mem _ h1)
      exact ⟨(hbelow.2.1 s hmem).2.1, (hbelow.2.1 s hmem).2.2.1⟩
    have hinc : includes "node_modules" "*" = false := by decide
    simp [shouldExclude, hmm, hrel, hinc] at hex
    rw [hmatch] at hex
    cases hex

theorem readdirOfTable_mem (table : List (String × List Dirent)) (p : String)
    (entries : List Dirent) (h : readdirOfTable table p = .ok entries) :
    ∃ row ∈ table, row.2 = entries := by
  unfold readdirOfTable at h
  cases hf : table.find? (fun e => e.1 = p) with
  | none => rw [hf] at h; cases h
  | some row =>
    rw [hf] at h
    simp only [Except.ok.injEq] at h
    exact ⟨row, List.mem_of_find?_eq_some hf, h⟩

/-- Witness of C18: under `/data`, the search of `*.txt` without `node_modules`
returns `/data/a.txt` and `/data/docs/guide.txt`. -/
theorem searchFiles_excludes_node_modules_witness :
    searchFiles worldData 4 "/data" "*.txt" ["node_modules"] =
        some (.ok ["/data/a.txt", "/data/docs/guide.txt"]) ∧
      ∀ p ∈ ["/data/a.txt", "/data/docs/guide.txt"],
        ∃ names : List String, names ≠ [] ∧ (∀ n ∈ names, validName n) ∧
          path.relative worldData.proc.cwd "/data" p = joinWith "/" names ∧
          ∀ pre post, names = pre ++ "node_modules" :: post → post = [] :=
  ⟨by rfl,
    searchFiles_excludes_node_modules worldData rfl
      (fun p entries entry hls hmem => by
        obtain ⟨row, hrow, he⟩ := readdirOfTable_mem treeData p entries hls
        subst he
        have hall : ∀ row ∈ treeData, ∀ entry ∈ row.2, validName entry.name := by decide
        exact hall row hrow entry hmem)
      4 "/data" (by decide) _ (by rfl)⟩

/-! ## The errors of the handlers -/

/-- C21, as amended: each of the four file handlers reports a rejection by
`validatePath` and a failure of the storage operation with the same kind of error: in
both cases it throws an `McpError` whose code is `InternalError`, so the code does
not tell the two apart. -/
theorem handlers_report_InternalError (proc : Process) (d : Disk) (path content m : String) :
    (((validatePath proc d.view path).result = .error m →
        ∃ e, (handleReadFile proc d path).1 = .error e ∧ e.code = .InternalError) ∧
      (∀ v, (validatePath proc d.view path).result = .ok v →
        fsPromises.readFile d v = .error m →
        ∃ e, (handleReadFile proc d path).1 = .error e ∧ e.code = .InternalError)) ∧
    (((validatePath proc d.view path).result = .error m →
        ∃ e, (handleWriteFile proc d path content).1 = .error e ∧
          e.code = .InternalError) ∧
      (∀ v, (validatePath proc d.view path).result = .ok v →
        fsPromises.writeFile d v content = .error m →
        ∃ e, (handleWriteFile proc d path content).1 = .error e ∧
          e.code = .InternalError)) ∧
    (((validatePath proc d.view path).result = .error m →
        ∃ e, (handleListDirectory proc d path).1 = .error e ∧ e.code = .InternalError) ∧
      (∀ v, (validatePath proc d.view path).result = .ok v →
        fsPromises.readdir d v = .error m →
        ∃ e, (handleListDirectory proc d path).1 = .error e ∧ e.code = .InternalError)) ∧
    (((validatePath proc d.view path).result = .error m →
        ∃ e, (handleCreateDirectory proc d path).1 = .error e ∧ e.code = .InternalError) ∧
      (∀ v, (validatePath proc d.view path).result = .ok v →
        fsPromises.mkdir d v = .error m →
        ∃ e, (handleCreateDirectory proc d path).1 = .error e ∧
          e.code = .InternalError)) := by
  refine ⟨⟨?_, ?_⟩, ⟨?_, ?_⟩, ⟨?_, ?_⟩, ⟨?_, ?_⟩⟩
  · intro h
    exact ⟨McpError.new .InternalError ("Failed to read file: " ++ m),
      by simp [handleReadFile, Tools.readFile, h], rfl⟩
  · intro v h hs
    exact ⟨McpError.new .InternalError ("Failed to read file: " ++ m),
      by simp [handleReadFile, Tools.readFile, h, hs], rfl⟩
  · intro h
    exact ⟨McpError.new .InternalError ("Failed to write file: " ++ m),
      by simp [handleWriteFile, Tools.writeFile, h], rfl⟩
  · intro v h hs
    exact ⟨McpError.new .InternalError ("Failed to write file: " ++ m),
      by simp [handleWriteFile, Tools.writeFile, h, hs], rfl⟩
  · intro h
    exact ⟨McpError.new .InternalError ("Failed to list directory: " ++ m),
      by simp [handleListDirectory, Tools.listDirectory, h], rfl⟩
  · intro v h hs
    exact ⟨McpError.new .InternalError ("Failed to list directory: " ++ m),
      by simp [handleListDirectory, Tools.listDirectory, h, hs], rfl⟩
  · intro h
    exact ⟨McpError.new .InternalError ("Failed to create directory: " ++ m),
      by simp [handleCreateDirectory, Tools.createDirectory, h], rfl⟩
  · intro v h hs
    exact ⟨McpError.new .InternalError ("Failed to create directory: " ++ m),
      by simp [handleCreateDirectory, Tools.createDirectory, h, hs], rfl⟩

/-- Witness of C21: with allowlist `/data`, `read_file` of `/etc/passwd` is rejected
by `validatePath`, and `list_directory` of the file `/data/a.txt` fails in `readdir`;
both handlers throw an error of code `InternalError`. -/
theorem handlers_report_InternalError_witness :
    (handleReadFile procData diskData "/etc/passwd").1 =
        .error ⟨.InternalError, "MCP error -32603: Failed to read file: " ++
          "Access denied - path outside allowed directories: /etc/passwd not in /data"⟩ ∧
      (∃ e, (handleReadFile procData diskData "/etc/passwd").1 = .error e ∧
        e.code = .InternalError) ∧
      (∃ e, (handleListDirectory procData diskData "/data/a.txt").1 = .error e ∧
        e.code = .InternalError) :=
  ⟨by rfl,
    (handlers_report_InternalError procData diskData "/etc/passwd" ""
      "Access denied - path outside allowed directories: /etc/passwd not in /data").1.1
      (by rfl),
    (handlers_report_InternalError procData diskData "/data/a.txt" ""
      "ENOTDIR: not a directory, scandir '/data/a.txt'").2.2.1.2 "/data/a.txt"
      (by rfl) (by rfl)⟩

/-- C21, as stated, fails: with allowlist `/data`, `read_file` of `/etc/passwd` fails
in `validatePath` and `read_file` of the missing `/data/missing.txt` passes
`validatePath` and fails in `readFile`; both errors have the code `InternalError`. -/
theorem handlers_same_code_for_denied_and_missing :
    (validatePath procData diskData.view "/etc/passwd").result =
        .error "Access denied - path outside allowed directories: /etc/passwd not in /data" ∧
      (validatePath procData diskData.view "/data/missing.txt").result =
        .ok "/data/missing.txt" ∧
      fsPromises.readFile diskData "/data/missing.txt" =
        .error "ENOENT: no such file or directory, open '/data/missing.txt'" ∧
      (handleReadFile procData diskData "/etc/passwd").1 =
        .error ⟨.InternalError, "MCP error -32603: Failed to read file: Access denied - " ++
          "path outside allowed directories: /etc/passwd not in /data"⟩ ∧
      (handleReadFile procData diskData "/data/missing.txt").1 =
        .error ⟨.InternalError, "MCP error -32603: Failed to read file: ENOENT: no such " ++
          "file or directory, open '/data/missing.txt'"⟩ :=
  ⟨by rfl, by rfl, by rfl, by rfl, by rfl⟩

/-! ## The messages of `validatePath` -/

/-- `s.includes(sub)` holds when `sub` is a run of consecutive characters of `s`. -/
theorem includes_iff (s sub : String) : includes s sub = true ↔ sub.data <:+: s.data := by
  unfold includes
  rw [List.any_eq_true]
  constructor
  · rintro ⟨t, ht, hpre⟩
    exact List.infix_iff_prefix_suffix.mpr
      ⟨t, List.isPrefixOf_iff_prefix.mp hpre, (List.mem_tails _ _).mp ht⟩
  · intro h
    obtain ⟨t, hpre, hsuf⟩ := List.infix_iff_prefix_suffix.mp h
    exact ⟨t, (List.mem_tails _ _).mpr hsuf, List.isPrefixOf_iff_prefix.mpr hpre⟩

theorem includes_middle (a b c : String) : includes (a ++ b ++ c) b = true := by
  rw [includes_iff]
  simp only [String.data_append]
  exact ⟨a.data, c.data, rfl⟩

theorem includes_joinWith (sep : String) :
    ∀ (l : List String) (x : String), x ∈ l → includes (joinWith sep l) x = true := by
  intro l
  induction l with
  | nil => intro x hx; cases hx
  | cons y rest ih =>
    intro x hx
    cases rest with
    | nil =>
      simp only [List.mem_singleton] at hx
      subst hx
      rw [includes_iff]
      exact List.infix_refl _
    | cons z rest =>
      rw [joinWith, includes_iff]
      simp only [String.data_append]
      rcases List.mem_cons.mp hx with rfl | hx
      · exact ⟨[], sep.data ++ (joinWith sep (z :: rest)).data, by simp⟩
      · have hin := (includes_iff _ _).mp (ih x hx)
        exact hin.trans (List.suffix_append _ _).isInfix

theorem includes_append_left (a c x : String) (h : includes c x = true) :
    includes (a ++ c) x = true := by
  rw [includes_iff] at h ⊢
  simp only [String.data_append]
  exact h.trans (List.suffix_append _ _).isInfix

theorem includes_self (x : String) : includes x x = true :=
  (includes_iff x x).mpr (List.infix_refl _)

/-- C22, as amended: when the normalised absolute path starts with no allowed
directory, the message of the rejection holds the absolute path and every entry of
`allowedDirectories`; when it starts with one and neither the path nor its parent
directory resolves, the message of the rejection is `Parent directory does not
exist: ` followed by the parent directory of the absolute path. -/
theorem validatePath_error_messages (proc : Process) (fs : FileSystem)
    (requestedPath : String) :
    (isAllowed proc (normalizePath (absoluteOf proc requestedPath)) = false →
        ∃ e, (validatePath proc fs requestedPath).result = .error e ∧
          e = "Access denied - path outside allowed directories: " ++
            absoluteOf proc requestedPath ++ " not in " ++
            joinWith ", " proc.allowedDirectories ∧
          includes e (absoluteOf proc requestedPath) = true ∧
          ∀ dir ∈ proc.allowedDirectories, includes e dir = true) ∧
      (isAllowed proc (normalizePath (absoluteOf proc requestedPath)) = true →
        fs.realpath (absoluteOf proc requestedPath) = none →
        fs.realpath (path.dirname (absoluteOf proc requestedPath)) = none →
        ∃ e, (validatePath proc fs requestedPath).result = .error e ∧
          e = "Parent directory does not exist: " ++
            path.dirname (absoluteOf proc requestedPath) ∧
          includes e (path.dirname (absoluteOf proc requestedPath)) = true) := by
  constructor
  · intro h0
    refine ⟨"Access denied - path outside allowed directories: " ++
        absoluteOf proc requestedPath ++ " not in " ++
        joinWith ", " proc.allowedDirectories,
      by simp [FsM.result, validatePath_outside proc fs requestedPath h0], rfl, ?_, ?_⟩
    · rw [String.append_assoc]
      exact includes_middle _ _ _
    · intro dir hdir
      exact includes_append_left _ _ _ (includes_joinWith ", " _ dir hdir)
  · intro h0 hnone hparent
    have htry : ∀ r, fs.realpath (absoluteOf proc requestedPath) = some r →
        isAllowed proc (normalizePath r) = false := by
      intro r hr
      rw [hnone] at hr
      cases hr
    have hpar : ∀ q, fs.realpath (path.dirname (absoluteOf proc requestedPath)) = some q →
        isAllowed proc (normalizePath q) = false := by
      intro q hq
      rw [hparent] at hq
      cases hq
    exact ⟨"Parent directory does not exist: " ++ path.dirname (absoluteOf proc requestedPath),
      by simp [FsM.result, validatePath_fallback_fail proc fs requestedPath h0 htry hpar],
      rfl, includes_append_left _ _ _ (includes_self _)⟩

/-- Witness of C22: with allowlist `/data` and `/srv/share`, the rejection of
`/etc/passwd` names the path and both allowed directories, and the rejection of
`/data/missing/new.txt`, which does not exist in a directory that does not exist,
names the directory `/data/missing`. -/
theorem validatePath_error_messages_witness :
    (validatePath procTwoRoots fsTwoRoots "/etc/passwd").result =
        .error ("Access denied - path outside allowed directories: /etc/passwd" ++
          " not in /data, /srv/share") ∧
      (∃ e, (validatePath procTwoRoots fsTwoRoots "/etc/passwd").result = .error e ∧
        e = "Access denied - path outside allowed directories: " ++
          absoluteOf procTwoRoots "/etc/passwd" ++ " not in " ++
          joinWith ", " procTwoRoots.allowedDirectories ∧
        includes e (absoluteOf procTwoRoots "/etc/passwd") = true ∧
        ∀ dir ∈ procTwoRoots.allowedDirectories, includes e dir = true) ∧
      (∃ e, (validatePath procTwoRoots fsData "/data/missing/new.txt").result = .error e ∧
        e = "Parent directory does not exist: " ++
          path.dirname (absoluteOf procTwoRoots "/data/missing/new.txt") ∧
        includes e (path.dirname (absoluteOf procTwoRoots "/data/missing/new.txt")) = true) :=
  ⟨by rfl,
    (validatePath_error_messages procTwoRoots fsTwoRoots "/etc/passwd").1 (by decide),
    (validatePath_error_messages procTwoRoots fsData "/data/missing/new.txt").2
      (by decide) (by decide) (by decide)⟩

/-- C22, as stated, fails: with allowlist `/data`, neither `/data/missing/new.txt` nor
its parent directory exists; the message of the rejection holds the parent directory
`/data/missing`, and does not hold the path. -/
theorem validatePath_message_omits_path :
    absoluteOf procData "/data/missing/new.txt" = "/data/missing/new.txt" ∧
      fsData.realpath "/data/missing/new.txt" = none ∧
      fsData.realpath "/data/missing" = none ∧
      (validatePath procData fsData "/data/missing/new.txt").result =
        .error "Parent directory does not exist: /data/missing" ∧
      includes "Parent directory does not exist: /data/missing" "/data/missing/new.txt" =
        false :=
  ⟨by decide, by decide, by decide, by rfl, by decide⟩

/-! ## Exclude patterns -/

theorem includes_star (pattern : String) : includes pattern "*" = true ↔ '*' ∈ pattern.data := by
  rw [includes_iff]
  constructor
  · rintro ⟨a, b, h⟩
    rw [← h]
    simp
  · intro h
    obtain ⟨a, b, hab⟩ := List.append_of_mem h
    exact ⟨a, b, by rw [hab]; simp⟩

/-- C25: an exclude pattern that holds the character `*` is handed to `minimatch` as
it is, and a pattern without `*` (a `?` makes no difference) is handed over as
`**/<pattern>/**`; the text matched is the path of the entry relative to the root of
the search, and an entry that one of the exclude patterns matches so is passed over. -/
theorem exclude_pattern_wrapping (w : SearchWorld) (rootPath pattern : String)
    (excludePatterns : List String) :
    (∀ (p relativePath : String), '*' ∈ p.data →
        shouldExclude w [p] relativePath = w.minimatch relativePath p { dot := true }) ∧
      (∀ (p relativePath : String), '*' ∉ p.data →
        shouldExclude w [p] relativePath =
          w.minimatch relativePath ("**/" ++ p ++ "/**") { dot := true }) ∧
      (∀ relativePath : String, shouldExclude w excludePatterns relativePath =
        excludePatterns.any (fun p => shouldExclude w [p] relativePath)) ∧
      (∀ (recur : String → SearchState → Option (Except String Unit × SearchState))
          (currentPath : String) (entry : Dirent) (rest : List Dirent) (st : SearchState),
        (∃ v, (validatePath w.proc w.fs (path.join [currentPath, entry.name])).result = .ok v) →
        shouldExclude w excludePatterns
          (path.relative w.proc.cwd rootPath (path.join [currentPath, entry.name])) = true →
        searchEntries w rootPath pattern excludePatterns recur currentPath (entry :: rest) st =
          searchEntries w rootPath pattern excludePatterns recur currentPath rest st) := by
  refine ⟨?_, ?_, ?_, ?_⟩
  · intro p rel hp
    have := (includes_star p).mpr hp
    simp [shouldExclude, this]
  · intro p rel hp
    have : includes p "*" = false := by
      cases h : includes p "*" with
      | false => rfl
      | true => exact absurd ((includes_star p).mp h) hp
    simp [shouldExclude, this]
  · intro rel
    simp [shouldExclude]
  · intro recur currentPath entry rest st hv hex
    obtain ⟨v, hv⟩ := hv
    rw [searchEntries, hv]
    simp [hex]

/-- Witness of C25: the exclude pattern `te?t`, without `*`, is matched as
`**/te?t/**`, and `te*t` as it is. -/
theorem exclude_pattern_wrapping_witness :
    shouldExclude worldData ["te?t"] "a/test/b" =
        minimatch "a/test/b" ("**/" ++ "te?t" ++ "/**") { dot := true } ∧
      minimatch "a/test/b" "**/te?t/**" { dot := true } = true ∧
      minimatch "a/test/b" "te?t" { dot := true } = false ∧
      shouldExclude worldData ["te*t"] "test" = minimatch "test" "te*t" { dot := true } ∧
      minimatch "test" "te*t" { dot := true } = true ∧
      minimatch "test" "**/te*t/**" { dot := true } = false :=
  ⟨(exclude_pattern_wrapping worldData "/data" "*.txt" []).2.1 "te?t" "a/test/b" (by decide),
    by decide, by decide,
    (exclude_pattern_wrapping worldData "/data" "*.txt" []).1 "te*t" "test" (by decide),
    by decide, by decide⟩

/-! ## When the search fails -/

/-- C26: with at least one call of `search` allowed, `searchFiles` throws exactly when
`readdir` of the root rejects, and throws that error; when the root can be listed and
the nested calls are enough it returns a list; and `searchForFiles` on a path that
`validatePath` accepts and `readdir` rejects throws the error of `readdir`. -/
theorem searchFiles_fails_iff_root_unlistable (w : SearchWorld) (fuel : Nat)
    (rootPath pattern : String) (excludePatterns : List String) :
    (∀ e, searchFiles w (fuel + 1) rootPath pattern excludePatterns = some (.error e) ↔
        w.readdir rootPath = .error e) ∧
      (∀ entries, w.readdir rootPath = .ok entries →
        shallow w.readdir (fuel + 1) rootPath = true →
        ∃ results, searchFiles w (fuel + 1) rootPath pattern excludePatterns =
          some (.ok results)) ∧
      (∀ requestedPath validPath e,
        (validatePath w.proc w.fs requestedPath).result = .ok validPath →
        w.readdir validPath = .error e →
        Tools.searchForFiles w (fuel + 1) requestedPath pattern excludePatterns =
          some (.error e)) := by
  have key : ∀ (root e : String), w.readdir root = .error e →
      searchFiles w (fuel + 1) root pattern excludePatterns = some (.error e) := by
    intro root e h
    simp [searchFiles, search, h]
  refine ⟨?_, ?_, ?_⟩
  · intro e
    constructor
    · intro h
      cases hls : w.readdir rootPath with
      | error e' =>
        rw [key rootPath e' hls] at h
        simp only [Option.some.injEq, Except.error.injEq] at h
        rw [h]
      | ok entries =>
        exfalso
        unfold searchFiles at h
        rw [search, hls] at h
        simp only at h
        cases hs : searchEntries w rootPath pattern excludePatterns
            (search w rootPath pattern excludePatterns fuel) rootPath entries
            { SearchState.empty with listed := SearchState.empty.listed ++ [rootPath] } with
        | none => simp [hs] at h
        | some st' => simp [hs] at h
    · exact key rootPath e
  · intro entries hls hshallow
    exact searchFiles_returns w rootPath pattern excludePatterns (fuel + 1) entries hls hshallow
  · intro requestedPath validPath e hv hls
    unfold Tools.searchForFiles
    rw [hv]
    exact key validPath e hls

/-- Witness of C26: on the disk of the `/data` scenario, `/data/a.txt` is a file that
`validatePath` accepts; the search of it throws the error of `readdir`, and the
search of `/data` returns. -/
theorem searchFiles_fails_iff_root_unlistable_witness :
    (validatePath procData diskData.view "/data/a.txt").result = .ok "/data/a.txt" ∧
      (Disk.world procData diskData).readdir "/data/a.txt" =
        .error "ENOTDIR: not a directory, scandir '/data/a.txt'" ∧
      searchFiles (Disk.world procData diskData) (3 + 1) "/data/a.txt" "*.txt" [] =
        some (.error "ENOTDIR: not a directory, scandir '/data/a.txt'") ∧
      Tools.searchForFiles (Disk.world procData diskData) (3 + 1) "/data/a.txt" "*.txt" [] =
        some (.error "ENOTDIR: not a directory, scandir '/data/a.txt'") ∧
      searchFiles (Disk.world procData diskData) (3 + 1) "/data" "*.txt" [] =
        some (.ok ["/data/a.txt", "/data/b/c.txt"]) :=
  ⟨by rfl, by rfl,
    ((searchFiles_fails_iff_root_unlistable (Disk.world procData diskData) 3 "/data/a.txt"
      "*.txt" []).1 _).mpr (by rfl),
    (searchFiles_fails_iff_root_unlistable (Disk.world procData diskData) 3 "/data/a.txt"
      "*.txt" []).2.2 "/data/a.txt" "/data/a.txt" _ (by rfl) (by rfl),
    by rfl⟩

/-! ## The normal form of `path.normalize` -/

/-- Names joined by `/`, none empty and none with a separator, do not end with a
separator, whatever comes before. -/
theorem getLast_joinSlash (l : List (List Char)) (hl : l ≠ [])
    (hc : ∀ s ∈ l, s ≠ [] ∧ '/' ∉ s) :
    ∀ pre : List Char, (pre ++ path.joinSlash l).getLast? ≠ some '/' := by
  induction l with
  | nil => exact absurd rfl hl
  | cons s rest ih =>
    intro pre
    cases rest with
    | nil =>
      simp only [path.joinSlash]
      rw [List.getLast?_append_of_ne_nil _ (hc s (by simp)).1]
      intro h
      exact (hc s (by simp)).2 (List.mem_of_getLast?_eq_some h)
    | cons t rest =>
      have := ih (by simp) (fun x hx => hc x (List.mem_cons_of_mem _ hx)) (pre ++ s ++ ['/'])
      simpa [path.joinSlash] using this

theorem head_joinSlash (l : List (List Char)) (hl : l ≠ [])
    (hc : ∀ s ∈ l, s ≠ [] ∧ '/' ∉ s) : (path.joinSlash l).head? ≠ some '/' := by
  cases l with
  | nil => exact absurd rfl hl
  | cons s rest =>
    obtain ⟨hs, hslash⟩ := hc s (by simp)
    cases s with
    | nil => exact absurd rfl hs
    | cons c cs =>
      have hc' : c ≠ '/' := by
        intro h
        apply hslash
        simp [h]
      cases rest <;> simp [path.joinSlash, hc']

/-- A run of `..` on a stack of `..` is kept whole when the path may climb above its
start. -/
theorem normalizeSegments_dots : ∀ k j : Nat,
    path.normalizeSegments true (List.replicate j ['.', '.']) (List.replicate k ['.', '.']) =
      List.replicate (k + j) ['.', '.'] := by
  intro k
  induction k with
  | zero => intro j; simp [path.normalizeSegments]
  | succ k ih =>
    intro j
    rw [List.replicate_succ]
    cases j with
    | zero =>
      rw [List.replicate_zero, path.normalizeSegments.eq_2]
      have := ih 1
      simpa using this
    | succ j =>
      rw [List.replicate_succ, path.normalizeSegments.eq_3]
      have := ih (j + 2)
      simp only [List.replicate_succ] at this
      simp only [List.replicate_succ]
      have harith : k + 1 + (j + 1) = (k + (j + 1)) + 1 := by omega
      rw [harith, List.replicate_succ]
      simpa using this

/-- The stack that normalisation keeps, when the path may climb above its start:
clean names on top of a run of `..`. -/
theorem normalizeSegments_shape :
    ∀ (l res : List (List Char)), (∀ s ∈ l, '/' ∉ s) →
      (∃ cleans k, res = cleans ++ List.replicate k ['.', '.'] ∧
        ∀ s ∈ cleans, cleanSegment s) →
      ∃ cleans k, path.normalizeSegments true res l = cleans ++ List.replicate k ['.', '.'] ∧
        ∀ s ∈ cleans, cleanSegment s := by
  intro l
  induction l with
  | nil => intro res _ hres; simpa [path.normalizeSegments] using hres
  | cons seg rest ih =>
    intro res hl hres
    have hrest : ∀ s ∈ rest, '/' ∉ s := fun s hs => hl s (List.mem_cons_of_mem _ hs)
    obtain ⟨cleans, k, hres, hclean⟩ := hres
    have hpush : ¬ (seg = [] ∨ seg = ['.']) → ¬ seg = ['.', '.'] →
        ∃ cleans' k', seg :: res = cleans' ++ List.replicate k' ['.', '.'] ∧
          ∀ s ∈ cleans', cleanSegment s := by
      intro h1 h2
      refine ⟨seg :: cleans, k, by simp [hres], ?_⟩
      intro s hs
      rcases List.mem_cons.mp hs with rfl | hs
      · exact ⟨fun e => h1 (Or.inl e), fun e => h1 (Or.inr e), h2,
          hl _ (List.mem_cons_self _ _)⟩
      · exact hclean s hs
    cases res with
    | nil =>
      rw [path.normalizeSegments.eq_2]
      split
      · exact ih [] hrest ⟨cleans, k, hres, hclean⟩
      · rename_i h1
        split
        · simp only [if_true]
          exact ih _ hrest ⟨[], 1, by simp, by simp⟩
        · rename_i h2
          exact ih _ hrest (hpush h1 h2)
    | cons top below =>
      rw [path.normalizeSegments.eq_3]
      split
      · exact ih _ hrest ⟨cleans, k, hres, hclean⟩
      · rename_i h1
        split
        · split
          · rename_i htop
            simp only [if_true]
            cases cleans with
            | nil =>
              refine ih _ hrest ⟨[], k + 1, ?_, by simp⟩
              simp only [List.nil_append] at hres
              rw [hres, List.replicate_succ]
              simp
            | cons c cs =>
              simp only [List.cons_append, List.cons.injEq] at hres
              exact absurd (hres.1 ▸ htop) (hclean c (List.mem_cons_self _ _)).2.2.1
          · rename_i htop
            cases cleans with
            | nil =>
              simp only [List.nil_append] at hres
              cases k with
              | zero => simp at hres
              | succ k =>
                rw [List.replicate_succ] at hres
                simp only [List.cons.injEq] at hres
                exact absurd hres.1 htop
            | cons c cs =>
              simp only [List.cons_append, List.cons.injEq] at hres
              exact ih below hrest ⟨cs, k, hres.2,
                fun s hs => hclean s (List.mem_cons_of_mem _ hs)⟩
        · rename_i h2
          exact ih _ hrest (hpush h1 h2)

/-- Normalising again the names kept, bottom first, keeps them all. -/
theorem normalizeSegments_again (res : List (List Char))
    (hres : ∃ cleans k, res = cleans ++ List.replicate k ['.', '.'] ∧
      ∀ s ∈ cleans, cleanSegment s) :
    path.normalizeSegments true [] res.reverse = res := by
  obtain ⟨cleans, k, rfl, hclean⟩ := hres
  rw [List.reverse_append, List.reverse_replicate, normalizeSegments_append]
  have := normalizeSegments_dots k 0
  simp only [List.replicate_zero, Nat.add_zero] at this
  rw [this, normalizeSegments_of_clean true cleans.reverse _
    (fun s hs => hclean s (List.mem_reverse.mp hs))]
  simp

/-- What `path.normalize` makes of an absolute path: `/`, its normalised names joined
by `/`, and a closing `/` when the path had one and a name is left. -/
theorem normalize_absolute_data (p : String) (habs : p.data.head? = some '/') :
    (path.normalize p).data = '/' :: (path.joinSlash (normalSegments p.data) ++
      (if normalSegments p.data ≠ [] ∧ p.data.getLast? = some '/' then ['/'] else [])) := by
  have hdata : p.data ≠ [] := by
    intro h
    rw [h] at habs
    cases habs
  unfold path.normalize
  simp only [hdata, if_false, habs, decide_True, Bool.not_true, normalizeString_eq, if_true]
  by_cases hL : normalSegments p.data = []
  · simp [hL, path.joinSlash]
  · have hn : path.joinSlash (normalSegments p.data) ≠ [] :=
      joinSlash_ne_nil _ hL (fun s hs => (normalSegments_clean p.data s hs).1)
    by_cases htr : p.data.getLast? = some '/'
    · simp [hL, hn, htr]
    · simp [hL, hn, htr]

/-- On an absolute path, `path.normalize` changes nothing the second time. -/
theorem normalize_idem_absolute (p : String) (habs : p.data.head? = some '/') :
    path.normalize (path.normalize p) = path.normalize p := by
  have hq := normalize_absolute_data p habs
  have hclean := normalSegments_clean p.data
  have hqabs : (path.normalize p).data.head? = some '/' := by rw [hq]; rfl
  have hsegs : normalSegments (path.normalize p).data = normalSegments p.data := by
    rw [hq]
    split
    · rw [← List.cons_append, normalSegments_trailing]
      exact normalSegments_joinSlash _ hclean
    · rw [List.append_nil]
      exact normalSegments_joinSlash _ hclean
  have hq2 := normalize_absolute_data (path.normalize p) hqabs
  rw [hsegs] at hq2
  have hcond : (normalSegments p.data ≠ [] ∧ (path.normalize p).data.getLast? = some '/') ↔
      (normalSegments p.data ≠ [] ∧ p.data.getLast? = some '/') := by
    by_cases hL : normalSegments p.data = []
    · simp [hL]
    · by_cases htr : p.data.getLast? = some '/'
      · have hlast : (path.normalize p).data.getLast? = some '/' := by
          rw [hq, if_pos ⟨hL, htr⟩, ← List.cons_append,
            List.getLast?_append_of_ne_nil _ (by simp)]
          rfl
        simp [hL, htr, hlast]
      · have hlast : (path.normalize p).data.getLast? ≠ some '/' := by
          rw [hq, if_neg (fun h => htr h.2), List.append_nil]
          exact getLast_joinSlash (normalSegments p.data) hL
            (fun s hs => ⟨(hclean s hs).1, (hclean s hs).2.2.2⟩) ['/']
        simp [hL, htr, hlast]
  apply String.ext
  rw [hq2]
  simp only [hcond]
  exact hq.symm

/-- The names kept from a relative path are not empty and hold no separator. -/
theorem normalizeSegments_solid (l : List Char) :
    ∀ s ∈ (path.normalizeSegments true [] (path.splitSlash l)).reverse, s ≠ [] ∧ '/' ∉ s := by
  obtain ⟨cleans, k, hres, hclean⟩ := normalizeSegments_shape (path.splitSlash l) []
    (splitSlash_noslash l) ⟨[], 0, by simp, by simp⟩
  intro s hs
  rw [List.mem_reverse, hres] at hs
  rcases List.mem_append.mp hs with h | h
  · exact ⟨(hclean s h).1, (hclean s h).2.2.2⟩
  · rw [List.eq_of_mem_replicate h]
    decide

/-- What `path.normalize` makes of a relative path: the names kept joined by `/`, or
`.` when none is kept, and a closing `/` when the path had one. -/
theorem normalize_relative_data (p : String) (hdata : p.data ≠ [])
    (hrel : p.data.head? ≠ some '/') :
    (path.normalize p).data =
      if (path.normalizeSegments true [] (path.splitSlash p.data)).reverse = [] then
        (if p.data.getLast? = some '/' then ['.', '/'] else ['.'])
      else
        path.joinSlash (path.normalizeSegments true [] (path.splitSlash p.data)).reverse ++
          (if p.data.getLast? = some '/' then ['/'] else []) := by
  unfold path.normalize
  simp only [hdata, if_false, hrel, decide_False, Bool.not_false, path.normalizeString]
  by_cases hM : (path.normalizeSegments true [] (path.splitSlash p.data)).reverse = []
  · simp only [hM, path.joinSlash, if_true]
    split <;> rfl
  · have hn := joinSlash_ne_nil _ hM (fun s hs => (normalizeSegments_solid p.data s hs).1)
    simp only [hM, hn, if_false]
    split <;> simp

/-- On a relative path, `path.normalize` changes nothing the second time. -/
theorem normalize_idem_relative (p : String) (hdata : p.data ≠ [])
    (hrel : p.data.head? ≠ some '/') :
    path.normalize (path.normalize p) = path.normalize p := by
  have hq := normalize_relative_data p hdata hrel
  have hsolid := normalizeSegments_solid p.data
  by_cases hM : (path.normalizeSegments true [] (path.splitSlash p.data)).reverse = []
  · rw [if_pos hM] at hq
    by_cases htr : p.data.getLast? = some '/'
    · rw [if_pos htr] at hq
      have : path.normalize p = "./" := String.ext hq
      rw [this]
      decide
    · rw [if_neg htr] at hq
      have : path.normalize p = "." := String.ext hq
      rw [this]
      decide
  · rw [if_neg hM] at hq
    have hJ := joinSlash_ne_nil _ hM (fun s hs => (hsolid s hs).1)
    have hqdata : (path.normalize p).data ≠ [] := by
      rw [hq]
      simp [hJ]
    have hqrel : (path.normalize p).data.head? ≠ some '/' := by
      rw [hq, List.head?_append_of_ne_nil _ hJ]
      exact head_joinSlash _ hM hsolid
    have hsplit : path.splitSlash (path.joinSlash
        (path.normalizeSegments true [] (path.splitSlash p.data)).reverse) =
        (path.normalizeSegments true [] (path.splitSlash p.data)).reverse :=
      splitSlash_joinSlash _ hM (fun s hs => (hsolid s hs).2)
    have hagain : path.normalizeSegments true []
        (path.normalizeSegments true [] (path.splitSlash p.data)).reverse =
        path.normalizeSegments true [] (path.splitSlash p.data) :=
      normalizeSegments_again _ (normalizeSegments_shape (path.splitSlash p.data) []
        (splitSlash_noslash p.data) ⟨[], 0, by simp, by simp⟩)
    have hsegs : path.normalizeSegments true [] (path.splitSlash (path.normalize p).data) =
        path.normalizeSegments true [] (path.splitSlash p.data) := by
      rw [hq]
      split
      · rw [splitSlash_split, hsplit, normalizeSegments_append, hagain]
        simp [path.splitSlash, path.normalizeSegments]
      · rw [List.append_nil, hsplit, hagain]
    have hq2 := normalize_relative_data (path.normalize p) hqdata hqrel
    rw [hsegs, if_neg hM] at hq2
    have hcond : (path.normalize p).data.getLast? = some '/' ↔ p.data.getLast? = some '/' := by
      by_cases htr : p.data.getLast? = some '/'
      · have hlast : (path.normalize p).data.getLast? = some '/' := by
          rw [hq, if_pos htr, List.getLast?_append_of_ne_nil _ (by simp)]
          rfl
        simp [htr, hlast]
      · have hlast : (path.normalize p).data.getLast? ≠ some '/' := by
          rw [hq, if_neg htr, List.append_nil]
          exact getLast_joinSlash _ hM hsolid []
        simp [htr, hlast]
    apply String.ext
    rw [hq2]
    simp only [hcond]
    exact hq.symm

/-- The function `path.normalize` changes nothing the second time. -/
theorem normalize_twice (p : String) : path.normalize (path.normalize p) = path.normalize p := by
  by_cases hdata : p.data = []
  · have : path.normalize p = "." := by simp [path.normalize, hdata]
    rw [this]
    decide
  · by_cases habs : p.data.head? = some '/'
    · exact normalize_idem_absolute p habs
    · exact normalize_idem_relative p hdata habs

/-- The segments of a normalised absolute path: the empty one before the first `/`,
the normalised names, and an empty one after a closing `/`. -/
theorem splitSlash_normalize_absolute (p : String) (habs : p.data.head? = some '/') :
    ∃ closing : List (List Char),
      ((closing = [] ∧ normalSegments p.data ≠ []) ∨ closing = [[]]) ∧
      path.splitSlash (path.normalize p).data = [] :: (normalSegments p.data ++ closing) := by
  have hq := normalize_absolute_data p habs
  have hclean := normalSegments_clean p.data
  rw [hq, path.splitSlash]
  simp only [if_true, List.cons.injEq, true_and]
  by_cases hL : normalSegments p.data = []
  · refine ⟨[[]], Or.inr rfl, ?_⟩
    simp [hL, path.joinSlash, path.splitSlash]
  · have hsplit := splitSlash_joinSlash _ hL (fun s hs => (hclean s hs).2.2.2)
    by_cases htr : p.data.getLast? = some '/'
    · refine ⟨[[]], Or.inr rfl, ?_⟩
      rw [if_pos ⟨hL, htr⟩, splitSlash_split, hsplit]
      simp [path.splitSlash]
    · refine ⟨[], Or.inl ⟨rfl, hL⟩, ?_⟩
      rw [if_neg (fun h => htr h.2), List.append_nil, hsplit, List.append_nil]

/-- C24: `normalizePath` is a function of every text, applying it twice is applying
it once, and what it makes of an absolute path is an absolute path with no segment
`.`, no segment `..` and no two separators in a row. -/
theorem normalizePath_normal_form (p : String) :
    normalizePath (normalizePath p) = normalizePath p ∧
      (path.isAbsolute p = true →
        path.isAbsolute (normalizePath p) = true ∧
          (∀ seg ∈ path.splitSlash (normalizePath p).data,
            seg ≠ ['.'] ∧ seg ≠ ['.', '.']) ∧
          ¬ (['/', '/'] <:+: (normalizePath p).data)) := by
  refine ⟨normalize_twice p, ?_⟩
  intro habs
  have hhead : p.data.head? = some '/' := by simpa [path.isAbsolute] using habs
  have hclean := normalSegments_clean p.data
  obtain ⟨closing, hclosing, hsplit⟩ := splitSlash_normalize_absolute p hhead
  unfold normalizePath
  refine ⟨?_, ?_, ?_⟩
  · simp [path.isAbsolute, normalize_absolute_data p hhead]
  · intro seg hseg
    rw [hsplit] at hseg
    rcases List.mem_cons.mp hseg with rfl | hseg
    · exact ⟨by decide, by decide⟩
    · rcases List.mem_append.mp hseg with h | h
      · exact ⟨(hclean seg h).2.1, (hclean seg h).2.2.1⟩
      · rcases hclosing with ⟨rfl, -⟩ | rfl
        · cases h
        · simp only [List.mem_singleton] at h
          subst h
          exact ⟨by decide, by decide⟩
  · rintro ⟨a, b, hab⟩
    have hs : path.splitSlash (path.normalize p).data =
        path.splitSlash a ++ [] :: path.splitSlash b := by
      rw [← hab]
      simp only [List.append_assoc, List.cons_append, List.nil_append]
      rw [splitSlash_split]
      congr 1
    rw [hsplit] at hs
    have ha := splitSlash_ne_nil a
    have hb := splitSlash_ne_nil b
    cases hA : path.splitSlash a with
    | nil => exact ha hA
    | cons a0 rest =>
      rw [hA] at hs
      simp only [List.cons_append, List.cons.injEq] at hs
      obtain ⟨-, hs⟩ := hs
      rcases List.append_eq_append_iff.mp hs with ⟨m, -, hm⟩ | ⟨m, hm, hm2⟩
      · rcases hclosing with ⟨rfl, -⟩ | rfl
        · cases m <;> simp at hm
        · cases m with
          | nil =>
            simp only [List.nil_append, List.cons.injEq, true_and] at hm
            exact hb hm.symm
          | cons x xs =>
            simp only [List.cons_append, List.cons.injEq] at hm
            cases xs <;> simp at hm
      · cases m with
        | nil =>
          simp only [List.nil_append] at hm2
          rcases hclosing with ⟨rfl, -⟩ | rfl
          · cases hm2
          · simp only [List.cons.injEq, true_and] at hm2
            exact hb hm2
        | cons x xs =>
          simp only [List.cons_append, List.cons.injEq] at hm2
          have hx : ([] : List Char) ∈ normalSegments p.data := by
            rw [hm, ← hm2.1]
            simp
          exact (hclean [] hx).1 rfl

/-- Witness of C24: the absolute path `/a//b/./c/../d/`. -/
theorem normalizePath_normal_form_witness :
    normalizePath "/a//b/./c/../d/" = "/a/b/d/" ∧
      path.isAbsolute (normalizePath "/a//b/./c/../d/") = true ∧
      (∀ seg ∈ path.splitSlash (normalizePath "/a//b/./c/../d/").data,
        seg ≠ ['.'] ∧ seg ≠ ['.', '.']) ∧
      ¬ (['/', '/'] <:+: (normalizePath "/a//b/./c/../d/").data) :=
  ⟨by decide, (normalizePath_normal_form "/a//b/./c/../d/").2 (by decide)⟩

/-! ## The allowlist -/

theorem splitChar_ne_nil (sep : Char) (l : List Char) : splitChar sep l ≠ [] := by
  cases l with
  | nil => simp [splitChar]
  | cons c cs =>
    rw [splitChar]
    split
    · simp
    · split <;> simp

/-- A text has one piece more than it has separators. -/
theorem splitChar_length (sep : Char) (l : List Char) :
    (splitChar sep l).length = l.count sep + 1 := by
  induction l with
  | nil => simp [splitChar]
  | cons c cs ih =>
    rw [splitChar]
    by_cases h : c = sep
    · subst h
      simp [ih]
    · rw [if_neg h, List.count_cons_of_ne (fun e => h e.symm)]
      cases hs : splitChar sep cs with
      | nil => exact absurd hs (splitChar_ne_nil sep cs)
      | cons x xs =>
        rw [hs] at ih
        simpa using ih

theorem splitChar_split (sep : Char) (a b : List Char) :
    splitChar sep (a ++ sep :: b) = splitChar sep a ++ splitChar sep b := by
  induction a with
  | nil => simp [splitChar]
  | cons c cs ih =>
    rw [List.cons_append, splitChar, splitChar]
    by_cases h : c = sep
    · simp [h, ih]
    · rw [if_neg h, if_neg h, ih]
      cases hs : splitChar sep cs with
      | nil => exact absurd hs (splitChar_ne_nil sep cs)
      | cons x xs => simp

/-- A text that starts or ends with the separator, or holds two in a row, has an
empty piece. -/
theorem splitChar_empty_piece (sep : Char) (l : List Char)
    (h : l.head? = some sep ∨ l.getLast? = some sep ∨ [sep, sep] <:+: l) :
    [] ∈ splitChar sep l := by
  rcases h with h | h | h
  · cases l with
    | nil => cases h
    | cons c cs =>
      simp only [List.head?_cons, Option.some.injEq] at h
      subst h
      simp [splitChar]
  · obtain ⟨ys, rfl⟩ := List.getLast?_eq_some_iff.mp h
    rw [splitChar_split]
    simp [splitChar]
  · obtain ⟨a, b, rfl⟩ := h
    have : a ++ [sep, sep] ++ b = a ++ sep :: (sep :: b) := by simp
    rw [this, splitChar_split]
    simp [splitChar]

/-- The result of `path.resolve` on one absolute path. -/
theorem resolve_absolute_data (cwd p : String) (habs : path.isAbsolute p = true) :
    path.resolve cwd [p] = ⟨'/' :: path.joinSlash (normalSegments p.data)⟩ := by
  have hhead : p.data.head? = some '/' := by simpa [path.isAbsolute] using habs
  have hp : p.data ≠ [] := by
    intro h
    rw [h] at hhead
    cases hhead
  simp only [path.resolve, List.reverse_cons, List.reverse_nil, List.nil_append,
    List.singleton_append, path.resolveLoop, hp, if_false, hhead, if_true]
  rw [normalizeString_eq]
  have : (p ++ "/" ++ "").data = p.data ++ ['/'] := by simp [String.data_append]
  rw [this, normalSegments_trailing]

/-- An absolute path in normal form, without a closing separator, is what
`path.resolve` makes of it. -/
theorem resolve_of_normal (cwd p : String) (habs : path.isAbsolute p = true)
    (hnorm : normalizePath p = p) (hlast : p.data.getLast? ≠ some '/' ∨ p = "/") :
    path.resolve cwd [p] = p := by
  have hhead : p.data.head? = some '/' := by simpa [path.isAbsolute] using habs
  rw [resolve_absolute_data cwd p habs]
  apply String.ext
  have hq := normalize_absolute_data p hhead
  unfold normalizePath at hnorm
  rw [hnorm] at hq
  have hcond : ¬ (normalSegments p.data ≠ [] ∧ p.data.getLast? = some '/') := by
    rintro ⟨hL, htr⟩
    rcases hlast with h | h
    · exact h htr
    · subst h
      exact hL (by decide)
  rw [if_neg hcond, List.append_nil] at hq
  exact hq.symm

theorem normalize_isAbsolute (p : String) (habs : path.isAbsolute p = true) :
    path.isAbsolute (path.normalize p) = true := by
  have hhead : p.data.head? = some '/' := by simpa [path.isAbsolute] using habs
  simp [path.isAbsolute, normalize_absolute_data p hhead]

/-- With an absolute working directory, what a piece of `ALLOWED_DIRECTORIES` becomes
is an absolute path in normal form. -/
theorem allowedDirectoryOf_normal (homedir cwd dir : String)
    (hcwd : path.isAbsolute cwd = true) :
    path.isAbsolute (allowedDirectoryOf homedir cwd dir) = true ∧
      normalizePath (allowedDirectoryOf homedir cwd dir) = allowedDirectoryOf homedir cwd dir :=
  ⟨normalize_isAbsolute _ (resolve_absolute cwd _ hcwd), normalize_twice _⟩

/-- C23: in a process with an absolute working directory, when `ALLOWED_DIRECTORIES`
is a non-empty text, `allowedDirectories` holds, for each of its pieces between
commas and in their order, the piece home-expanded, resolved and normalised; when the
variable is not set or empty, it holds the home directory and the working directory,
resolved and normalised, which is these two as they are when they are absolute paths
in normal form without a closing separator. In both cases every entry is an absolute
path in normal form. -/
theorem allowedDirectories_spec (homedir cwd : String) (hcwd : path.isAbsolute cwd = true) :
    (∀ value, value ≠ "" →
        allowedDirectories homedir cwd (some value) =
            (splitComma value).map (fun piece =>
              normalizePath (path.resolve cwd [expandHome ⟨homedir, cwd, []⟩ piece])) ∧
          (allowedDirectories homedir cwd (some value)).length = value.data.count ',' + 1) ∧
      (∀ env, env = none ∨ env = some "" →
        allowedDirectories homedir cwd env =
          [normalizePath (path.resolve cwd [homedir]),
            normalizePath (path.resolve cwd [cwd])]) ∧
      (∀ env, ∀ dir ∈ allowedDirectories homedir cwd env,
        path.isAbsolute dir = true ∧ normalizePath dir = dir) ∧
      (path.isAbsolute homedir = true → normalizePath homedir = homedir →
        (homedir.data.getLast? ≠ some '/' ∨ homedir = "/") →
        normalizePath cwd = cwd → (cwd.data.getLast? ≠ some '/' ∨ cwd = "/") →
        allowedDirectories homedir cwd none = [homedir, cwd]) := by
  have hdefault : ∀ dir ∈ [normalizePath (path.resolve cwd [homedir]),
      normalizePath (path.resolve cwd [cwd])],
      path.isAbsolute dir = true ∧ normalizePath dir = dir := by
    intro dir hdir
    simp only [List.mem_cons, List.mem_singleton, List.not_mem_nil, or_false] at hdir
    rcases hdir with rfl | rfl
    · exact ⟨normalize_isAbsolute _ (resolve_absolute cwd _ hcwd), normalize_twice _⟩
    · exact ⟨normalize_isAbsolute _ (resolve_absolute cwd _ hcwd), normalize_twice _⟩
  refine ⟨?_, ?_, ?_, ?_⟩
  · intro value hvalue
    constructor
    · simp only [allowedDirectories, hvalue, ne_eq, not_false_eq_true, if_true]
      rfl
    · simp [allowedDirectories, hvalue, splitComma, splitChar_length]
  · intro env henv
    rcases henv with rfl | rfl
    · rfl
    · rfl
  · intro env dir hdir
    cases env with
    | none => exact hdefault dir hdir
    | some value =>
      by_cases hvalue : value = ""
      · subst hvalue
        exact hdefault dir hdir
      · simp only [allowedDirectories, hvalue, ne_eq, not_false_eq_true, if_true,
          List.mem_map] at hdir
        obtain ⟨piece, -, rfl⟩ := hdir
        exact allowedDirectoryOf_normal homedir cwd piece hcwd
  · intro hhabs hhnorm hhlast hcnorm hclast
    simp only [allowedDirectories]
    rw [resolve_of_normal cwd homedir hhabs hhnorm hhlast,
      resolve_of_normal cwd cwd hcwd hcnorm hclast, hhnorm, hcnorm]

/-- Witness of C23: the home directory `/home/bob` and the working directory
`/srv/app`. -/
theorem allowedDirectories_spec_witness :
    allowedDirectories "/home/bob" "/srv/app" (some "~/x,~,rel/../y,/data//v1/") =
        ["/home/bob/x", "/home/bob", "/srv/app/y", "/data/v1"] ∧
      allowedDirectories "/home/bob" "/srv/app" none = ["/home/bob", "/srv/app"] ∧
      (∀ dir ∈ allowedDirectories "/home/bob" "/srv/app" (some "~/x,~,rel/../y,/data//v1/"),
        path.isAbsolute dir = true ∧ normalizePath dir = dir) :=
  ⟨by decide,
    (allowedDirectories_spec "/home/bob" "/srv/app" (by decide)).2.2.2 (by decide) (by decide)
      (Or.inl (by decide)) (by decide) (Or.inl (by decide)),
    (allowedDirectories_spec "/home/bob" "/srv/app" (by decide)).2.2.1 _⟩

/-- C27: when the value of `ALLOWED_DIRECTORIES` starts or ends with a comma or holds
two commas in a row, one of its pieces is empty, no piece is dropped, and the empty
piece makes the resolved working directory an entry of `allowedDirectories`: the
working directory itself when it is in normal form without a closing separator. -/
theorem empty_piece_allows_cwd (homedir cwd value : String)
    (hcwd : path.isAbsolute cwd = true)
    (hpiece : value.data.head? = some ',' ∨ value.data.getLast? = some ',' ∨
      [',', ','] <:+: value.data) :
    "" ∈ splitComma value ∧
      (allowedDirectories homedir cwd (some value)).length = (splitComma value).length ∧
      normalizePath (path.resolve cwd [""]) ∈ allowedDirectories homedir cwd (some value) ∧
      (normalizePath cwd = cwd → (cwd.data.getLast? ≠ some '/' ∨ cwd = "/") →
        cwd ∈ allowedDirectories homedir cwd (some value)) := by
  have hmem : "" ∈ splitComma value := by
    unfold splitComma
    exact List.mem_map.mpr ⟨[], splitChar_empty_piece ',' value.data hpiece, rfl⟩
  have hvalue : value ≠ "" := by
    rintro rfl
    rcases hpiece with h | h | h
    · cases h
    · cases h
    · obtain ⟨a, b, h⟩ := h
      have := congrArg List.length h
      simp at this
  have hentry : normalizePath (path.resolve cwd [""]) ∈
      allowedDirectories homedir cwd (some value) := by
    simp only [allowedDirectories, hvalue, ne_eq, not_false_eq_true, if_true, List.mem_map]
    refine ⟨"", hmem, ?_⟩
    unfold allowedDirectoryOf expandHome
    rw [if_neg (by decide)]
  have hres : path.resolve cwd [""] = path.resolve cwd [cwd] := by
    have hhead : cwd.data.head? = some '/' := by simpa [path.isAbsolute] using hcwd
    have hne : cwd.data ≠ [] := by
      intro h
      rw [h] at hhead
      cases hhead
    simp [path.resolve, path.resolveLoop, hne, hhead]
  refine ⟨hmem, ?_, hentry, ?_⟩
  · simp [allowedDirectories, hvalue]
  · intro hnorm hlast
    rw [hres, resolve_of_normal cwd cwd hcwd hnorm hlast, hnorm] at hentry
    exact hentry

/-- Witness of C27: the values `/data,` and `/data,,/tmp` in the working directory
`/srv/app`; a piece that starts with a blank is kept as it is, a relative path. -/
theorem empty_piece_allows_cwd_witness :
    allowedDirectories "/home/bob" "/srv/app" (some "/data,") = ["/data", "/srv/app"] ∧
      allowedDirectories "/home/bob" "/srv/app" (some "/data,,/tmp") =
        ["/data", "/srv/app", "/tmp"] ∧
      allowedDirectories "/home/bob" "/srv/app" (some "/data, /tmp") =
        ["/data", "/srv/app/ /tmp"] ∧
      "/srv/app" ∈ allowedDirectories "/home/bob" "/srv/app" (some "/data,,/tmp") :=
  ⟨by decide, by decide, by decide,
    (empty_piece_allows_cwd "/home/bob" "/srv/app" "/data,,/tmp" (by decide)
      (Or.inr (Or.inr ⟨['/', 'd', 'a', 't', 'a'], ['/', 't', 'm', 'p'], rfl⟩))).2.2.2
      (by decide) (Or.inl (by decide))⟩

end Context3D
